import Mathlib

/-!
# Image analysis pipeline: classification, grayscale conversion, statistics

A shallow embedding of `image_analysis.c` / `image_loader.h`.

Modelling conventions

* A C `Uint8` is a `Fin 256`; a pixel buffer is a `List Uint8` and a pointer
  into it is an `Int` byte offset from its start.
* A read outside the buffer is undefined behaviour in C.  Every embedded
  function therefore returns an `Option`: `none` stands for an execution that
  performs such a read, `some v` for a defined execution returning `v`.
* C `int` values are `Int`.  Signed overflow is undefined in C and is outside
  the model; conversions to `size_t` are taken modulo `2 ^ 64`.
* An out-parameter `T* p` is an `Option T` (`none` is the null pointer) going
  in, and the function result carries the pointee as it is on return.
* `double` arithmetic is IEEE-754 binary64 with round-to-nearest, ties-to-even
  (no contraction, no extended precision), see `rne53` and `fdiv`.
* `malloc` is a parameter `Heap`: whether a request of a given size succeeds,
  and the indeterminate bytes a fresh block holds.
-/

namespace ImgProc

/-! ## Data model -/

/-- One byte of pixel data. -/
abbrev Uint8 := Fin 256

/-- The fields of `SDL_Surface` that the analysis code reads. -/
structure SDL_Surface where
  w : Int
  h : Int
  pitch : Int
  pixels : List Uint8
deriving DecidableEq, Repr

/-- The record `ImageData` of `image_loader.h`. -/
structure ImageData where
  surface : Option SDL_Surface
  width : Int
  height : Int
  channels : Int
  filename : Option String
deriving DecidableEq, Repr

/-- The enumeration `ColorType` of `image_analysis.h`. -/
inductive ColorType where
  | COLOR_TYPE_GRAYSCALE
  | COLOR_TYPE_RGB
  | COLOR_TYPE_RGBA
  | COLOR_TYPE_UNKNOWN
deriving DecidableEq, Repr

/-- A `double` as far as this program produces one: a finite non-negative
rational value, the NaN that `0.0 / 0` yields, or positive infinity. -/
inductive F64 where
  | nan
  | inf
  | fin (q : ℚ)
deriving DecidableEq

/-- The record `ImageAnalysis` of `image_analysis.h`. -/
structure ImageAnalysis where
  color_type : ColorType
  is_grayscale : Bool
  has_transparency : Bool
  width : Int
  height : Int
  avg_intensity : F64
  min_intensity : Int
  max_intensity : Int
deriving DecidableEq

/-- The record `GrayscaleImage` of `image_analysis.h`; `pixels = none` is the
null pointer. -/
structure GrayscaleImage where
  pixels : Option (List Uint8)
  width : Int
  height : Int
  data_size : Nat
  source_filename : Option String
deriving DecidableEq, Repr

/-- Reading `mem[i]`: defined only inside the buffer. -/
def load (mem : List Uint8) (i : Int) : Option Uint8 :=
  if 0 ≤ i then mem[i.toNat]? else none

/-! ## `is_image_grayscale` -/

/-- The test `abs(r - g) > 1 || abs(g - b) > 1 || abs(r - b) > 1`, on the
operands promoted to `int`. -/
def has_color (r g b : Uint8) : Bool :=
  decide (Int.natAbs ((r.val : Int) - g.val) > 1) ||
  decide (Int.natAbs ((g.val : Int) - b.val) > 1) ||
  decide (Int.natAbs ((r.val : Int) - b.val) > 1)

/-- The inner loop `for (x = ...; x < surface->w && is_grayscale; x++)` of
`is_image_grayscale`, over the row that starts at byte offset `row`.  The first
argument bounds the number of iterations; `w - x` suffices. -/
def gray_scan_row (channels : Int) (mem : List Uint8) (row w : Int) :
    Nat → Int → Bool → Option Bool
  | 0, _, is_grayscale => some is_grayscale
  | fuel + 1, x, is_grayscale =>
    if x < w ∧ is_grayscale = true then
      if channels = 3 then
        match load mem (row + x * 3), load mem (row + x * 3 + 1), load mem (row + x * 3 + 2) with
        | some r, some g, some b =>
          gray_scan_row channels mem row w fuel (x + 1)
            (if has_color r g b then false else is_grayscale)
        | _, _, _ => none
      else if channels = 4 then
        match load mem (row + x * 4), load mem (row + x * 4 + 1), load mem (row + x * 4 + 2) with
        | some r, some g, some b =>
          gray_scan_row channels mem row w fuel (x + 1)
            (if has_color r g b then false else is_grayscale)
        | _, _, _ => none
      else some is_grayscale
    else some is_grayscale

/-- The outer loop `for (y = ...; y < surface->h && is_grayscale; y++)` of
`is_image_grayscale`. -/
def gray_scan_rows (channels : Int) (mem : List Uint8) (pitch w h : Int) :
    Nat → Int → Bool → Option Bool
  | 0, _, is_grayscale => some is_grayscale
  | fuel + 1, y, is_grayscale =>
    if y < h ∧ is_grayscale = true then
      match gray_scan_row channels mem (y * pitch) w w.toNat 0 is_grayscale with
      | some is_grayscale1 => gray_scan_rows channels mem pitch w h fuel (y + 1) is_grayscale1
      | none => none
    else some is_grayscale

/-- The function `is_image_grayscale` of `image_analysis.c`. -/
def is_image_grayscale (image_data : Option ImageData) : Option Bool :=
  match image_data with
  | none => some false
  | some d =>
    match d.surface with
    | none => some false
    | some surface =>
      if d.channels = 1 then some true
      else gray_scan_rows d.channels surface.pixels surface.pitch surface.w surface.h
        surface.h.toNat 0 true

/-! ## `analyze_image` -/

/-- The effect of `memset(analysis, 0, sizeof(ImageAnalysis))`:
`COLOR_TYPE_UNKNOWN` is the enumerator with value 0. -/
def ImageAnalysis.zeroed : ImageAnalysis :=
  { color_type := ColorType.COLOR_TYPE_UNKNOWN, is_grayscale := false, has_transparency := false,
    width := 0, height := 0, avg_intensity := F64.fin 0, min_intensity := 0, max_intensity := 0 }

/-- The function `analyze_image` of `image_analysis.c`: the returned pair is the
C return value and the contents of `*analysis` on return. -/
def analyze_image (image_data : Option ImageData) (analysis : Option ImageAnalysis) :
    Option (Bool × Option ImageAnalysis) :=
  match image_data, analysis with
  | none, _ => some (false, analysis)
  | some _, none => some (false, none)
  | some d, some _ =>
    match d.surface with
    | none => some (false, analysis)
    | some surface =>
      let a0 : ImageAnalysis :=
        { ImageAnalysis.zeroed with
          width := surface.w, height := surface.h, min_intensity := 255, max_intensity := 0 }
      let classified : Option ImageAnalysis :=
        if d.channels = 1 then
          some { a0 with color_type := ColorType.COLOR_TYPE_GRAYSCALE, has_transparency := false }
        else if d.channels = 3 then
          some { a0 with color_type := ColorType.COLOR_TYPE_RGB, has_transparency := false }
        else if d.channels = 4 then
          some { a0 with color_type := ColorType.COLOR_TYPE_RGBA, has_transparency := true }
        else none
      match classified with
      | none => some (false, some { a0 with color_type := ColorType.COLOR_TYPE_UNKNOWN })
      | some a1 =>
        match is_image_grayscale image_data with
        | some g => some (true, some { a1 with is_grayscale := g })
        | none => none

/-- A well-formed decoded source: the surface is present, its dimensions are
non-negative, a row holds at least `w` pixels and the buffer holds `h` rows. -/
def ValidSource (d : ImageData) : Prop :=
  match d.surface with
  | none => False
  | some s => 0 ≤ s.w ∧ 0 ≤ s.h ∧ s.w * d.channels ≤ s.pitch ∧ s.h * s.pitch ≤ s.pixels.length

instance (d : ImageData) : Decidable (ValidSource d) := by
  unfold ValidSource
  split <;> infer_instance

/-- The pixel whose first byte is at offset `off` is readable and its three
colour bytes differ pairwise by at most 1. -/
def PixelGray (mem : List Uint8) (off : Int) : Prop :=
  ∃ r g b, load mem off = some r ∧ load mem (off + 1) = some g ∧ load mem (off + 2) = some b ∧
    Int.natAbs ((r.val : Int) - g.val) ≤ 1 ∧ Int.natAbs ((g.val : Int) - b.val) ≤ 1 ∧
    Int.natAbs ((r.val : Int) - b.val) ≤ 1


/-! ## Binary64 arithmetic of the luminance formula

In `0.2125 * r + 0.7154 * g + 0.0721 * b + 0.5` with `r`, `g`, `b` bytes, every
exact intermediate value is a non-negative multiple of `2 ^ (-56)` (the unit in
the last place of the smallest constant, `0.0721`) and lies below `2 ^ 9`.  A
`double` of this computation is therefore held as its numerator over `2 ^ 56`,
a natural number, and each operation is the exact operation followed by
rounding to 53 significant bits. -/

/-- Rounding of the quotient `num / den` to the nearest integer, ties to the
even one. -/
def round_half_even (num den : Nat) : Nat :=
  let q := num / den
  let r := num % den
  if 2 * r < den then q
  else if den < 2 * r then q + 1
  else if q % 2 = 0 then q else q + 1

/-- Number of binary digits of `n`, counted by repeated halving; the first
argument bounds the number of halvings. -/
def bit_count : Nat → Nat → Nat
  | 0, _ => 0
  | fuel + 1, n => if n = 0 then 0 else bit_count fuel (n / 2) + 1

/-- Number of binary digits of `n` (0 for `n = 0`). -/
def bit_length (n : Nat) : Nat := bit_count n n

/-- Round-to-nearest-even to a 53-bit significand: the bits of `n` below the
leading 53 are rounded away. -/
def rne53 (n : Nat) : Nat :=
  let k := bit_length n - 53
  round_half_even n (2 ^ k) * 2 ^ k

/-- The `double` nearest to the literal `0.2125`, over `2 ^ 56`
(`0x1.b333333333333p-3`). -/
def coef_r : Nat := 15312238733059686

/-- The `double` nearest to the literal `0.7154`, over `2 ^ 56`
(`0x1.6e48e8a71de6ap-1`). -/
def coef_g : Nat := 51550002774733648

/-- The `double` nearest to the literal `0.0721`, over `2 ^ 56`
(`0x1.27525460aa64cp-4`). -/
def coef_b : Nat := 5195352530134604

/-- The product `c * v` of a `double` constant `c` (over `2 ^ 56`) by the byte
`v` converted to `double`. -/
def fmul_byte (c : Nat) (v : Nat) : Nat := rne53 (c * v)

/-- The sum of two `double`s (both over `2 ^ 56`). -/
def fadd (a b : Nat) : Nat := rne53 (a + b)

/-- The expression `0.2125 * r + 0.7154 * g + 0.0721 * b`, evaluated left to
right in `double`; the result is over `2 ^ 56`. -/
def luminance (r g b : Nat) : Nat :=
  fadd (fadd (fmul_byte coef_r r) (fmul_byte coef_g g)) (fmul_byte coef_b b)

/-- The cast `(Uint8)(gray + 0.5)`: the sum is rounded as a `double`, truncated
to an integer and stored in a byte.  For byte inputs the integer is at most 255
(`gray_byte_near_exact`), so the reduction modulo 256 of `Fin.ofNat` never
acts. -/
def round_to_uint8 (gray : Nat) : Uint8 :=
  Fin.ofNat (fadd gray (2 ^ 55) / 2 ^ 56)

/-- The byte that `convert_to_grayscale` stores for a pixel with colour bytes
`r`, `g`, `b`. -/
def gray_byte (r g b : Uint8) : Uint8 :=
  round_to_uint8 (luminance r.val g.val b.val)

/-- The value `floor(0.2125 * R + 0.7154 * G + 0.0721 * B + 0.5)` with the
coefficients read as exact decimals. -/
def exact_gray (r g b : Nat) : Nat :=
  (2125 * r + 7154 * g + 721 * b + 5000) / 10000

/-! ## Binary64 division of the mean -/

/-- Significand and shift of the quotient `a / b` of two positive integers
rounded to the nearest `double` (ties to even): the pair `(m, s)` stands for
`m * 2 ^ (-s)`.  The shift `s` is chosen so that
`2 ^ 52 ≤ a * 2 ^ s / b < 2 ^ 53`, and `m` is that scaled quotient rounded to
an integer.  The operands are below `2 ^ 64`, so the exponent range of the
format is never left. -/
def div_sig (a b : Nat) : Nat × Int :=
  let s0 : Int := 53 + (bit_length b : Int) - bit_length a
  let s : Int :=
    if a * 2 ^ s0.toNat < 2 ^ 53 * (b * 2 ^ (-s0).toNat) then s0 else s0 - 1
  (round_half_even (a * 2 ^ s.toNat) (b * 2 ^ (-s).toNat), s)

/-- The rational `m * 2 ^ (-s)`. -/
def dyadic (m : Nat) (s : Int) : ℚ :=
  (m : ℚ) * 2 ^ (-s).toNat / 2 ^ s.toNat

/-- The quotient `a / b` of two positive integers rounded to the nearest
`double`. -/
def div_round (a b : Nat) : ℚ :=
  dyadic (div_sig a b).1 (div_sig a b).2

/-- The expression `(double)sum / total_pixels` for a non-negative `sum`: both
integers are converted to `double`, then divided. -/
def fdiv (sum total : Nat) : F64 :=
  let a := rne53 sum
  let b := rne53 total
  if b = 0 then (if a = 0 then F64.nan else F64.inf)
  else if a = 0 then F64.fin 0
  else F64.fin (div_round a b)

/-- The finite non-negative values of the binary64 format: a significand below
`2 ^ 53` times a power of two with exponent between `-1074` and `971` (normal
and subnormal numbers alike). -/
def IsBinary64 (q : ℚ) : Prop :=
  ∃ (m : Nat) (e : Int), m < 2 ^ 53 ∧ -1074 ≤ e ∧ e ≤ 971 ∧ q = (m : ℚ) * 2 ^ e

/-! ## `convert_to_grayscale` -/

/-- The behaviour of `malloc` during one call: `avail n` tells whether a
request for `n` bytes returns a block, `junk i` is the indeterminate byte that
a fresh block holds at index `i`. -/
structure Heap where
  avail : Nat → Bool
  junk : Nat → Uint8

/-- The call `malloc(n)`: `none` is the null pointer. -/
def malloc (hp : Heap) (n : Nat) : Option (List Uint8) :=
  if hp.avail n then some ((List.range n).map hp.junk) else none

/-- Writing `mem[i] = v`: defined only inside the buffer. -/
def store (mem : List Uint8) (i : Int) (v : Uint8) : Option (List Uint8) :=
  if 0 ≤ i ∧ i.toNat < mem.length then some (mem.set i.toNat v) else none

/-- The inner loop `for (x = ...; x < surface->w; x++)` of
`convert_to_grayscale` for row `y`, whose source bytes start at offset `row`;
`out` is the output buffer.  The first argument bounds the number of
iterations; `w - x` suffices. -/
def convert_row (channels : Int) (src : List Uint8) (row w y : Int) :
    Nat → Int → List Uint8 → Option (List Uint8)
  | 0, _, out => some out
  | fuel + 1, x, out =>
    if x < w then
      if channels = 1 then
        match load src (row + x) with
        | some v =>
          match store out (y * w + x) v with
          | some out1 => convert_row channels src row w y fuel (x + 1) out1
          | none => none
        | none => none
      else if channels = 3 then
        match load src (row + x * 3), load src (row + x * 3 + 1), load src (row + x * 3 + 2) with
        | some r, some g, some b =>
          match store out (y * w + x) (gray_byte r g b) with
          | some out1 => convert_row channels src row w y fuel (x + 1) out1
          | none => none
        | _, _, _ => none
      else if channels = 4 then
        match load src (row + x * 4), load src (row + x * 4 + 1), load src (row + x * 4 + 2) with
        | some r, some g, some b =>
          match store out (y * w + x) (gray_byte r g b) with
          | some out1 => convert_row channels src row w y fuel (x + 1) out1
          | none => none
        | _, _, _ => none
      else convert_row channels src row w y fuel (x + 1) out
    else some out

/-- The outer loop `for (y = ...; y < surface->h; y++)` of
`convert_to_grayscale`. -/
def convert_rows (channels : Int) (src : List Uint8) (pitch w h : Int) :
    Nat → Int → List Uint8 → Option (List Uint8)
  | 0, _, out => some out
  | fuel + 1, y, out =>
    if y < h then
      match convert_row channels src (y * pitch) w y w.toNat 0 out with
      | some out1 => convert_rows channels src pitch w h fuel (y + 1) out1
      | none => none
    else some out

/-- The block `if (image_data->filename) { ... }` of `convert_to_grayscale`: the
copy of the file name, or null when there is none or its allocation fails. -/
def copy_filename (hp : Heap) (filename : Option String) : Option String :=
  match filename with
  | some f => if hp.avail (f.utf8ByteSize + 1) then some f else none
  | none => none

/-- The function `convert_to_grayscale` of `image_analysis.c`: the returned pair
is the C return value and the contents of `*grayscale_image` on return. -/
def convert_to_grayscale (hp : Heap) (image_data : Option ImageData)
    (grayscale_image : Option GrayscaleImage) : Option (Bool × Option GrayscaleImage) :=
  match image_data, grayscale_image with
  | none, _ => some (false, grayscale_image)
  | some _, none => some (false, none)
  | some d, some _ =>
    match d.surface with
    | none => some (false, grayscale_image)
    | some surface =>
      let g0 : GrayscaleImage :=
        { pixels := none, width := surface.w, height := surface.h,
          data_size := ((surface.w * surface.h) % 2 ^ 64).toNat, source_filename := none }
      match malloc hp g0.data_size with
      | none => some (false, some g0)
      | some buf =>
        let name : Option String := copy_filename hp d.filename
        match convert_rows d.channels surface.pixels surface.pitch surface.w surface.h
            surface.h.toNat 0 buf with
        | some out => some (true, some { g0 with pixels := some out, source_filename := name })
        | none => none

/-! ## `calculate_grayscale_stats` -/

/-- The loop `for (i = ...; i < total_pixels; i++)` of
`calculate_grayscale_stats`; the state is `sum`, `min_intensity`,
`max_intensity`.  The first argument bounds the number of iterations;
`total - i` suffices. -/
def stats_loop (mem : List Uint8) (total : Nat) :
    Nat → Nat → Int → Int → Int → Option (Int × Int × Int)
  | 0, _, sum, mn, mx => some (sum, mn, mx)
  | fuel + 1, i, sum, mn, mx =>
    if i < total then
      match mem[i]? with
      | some pixel =>
        stats_loop mem total fuel (i + 1) (sum + pixel.val)
          (if (pixel.val : Int) < mn then pixel.val else mn)
          (if (pixel.val : Int) > mx then pixel.val else mx)
      | none => none
    else some (sum, mn, mx)

/-- The function `calculate_grayscale_stats` of `image_analysis.c`: the returned
pair is the C return value and the contents of `*analysis` on return. -/
def calculate_grayscale_stats (grayscale_image : Option GrayscaleImage)
    (analysis : Option ImageAnalysis) : Option (Bool × Option ImageAnalysis) :=
  match grayscale_image, analysis with
  | none, _ => some (false, analysis)
  | some _, none => some (false, none)
  | some g, some a =>
    match g.pixels with
    | none => some (false, analysis)
    | some mem =>
      let total_pixels : Nat := ((g.width * g.height) % 2 ^ 64).toNat
      match stats_loop mem total_pixels total_pixels 0 0 255 0 with
      | some (sum, mn, mx) =>
        some (true, some { a with
          width := g.width, height := g.height,
          color_type := ColorType.COLOR_TYPE_GRAYSCALE, is_grayscale := true,
          has_transparency := false, min_intensity := mn, max_intensity := mx,
          avg_intensity := fdiv sum.toNat total_pixels })
      | none => none

/-- A well-formed grayscale image: the buffer is present, holds
`width * height` bytes, and that product fits a C `int`. -/
def ValidGray (g : GrayscaleImage) : Prop :=
  match g.pixels with
  | none => False
  | some mem => g.width * g.height = mem.length ∧ mem.length < 2 ^ 31

instance (g : GrayscaleImage) : Decidable (ValidGray g) := by
  unfold ValidGray
  split <;> infer_instance

/-- The sum of the bytes of a buffer. -/
def byte_sum (l : List Uint8) : Nat := (l.map (fun b => b.val)).sum

/-- A heap on which every request succeeds and fresh blocks hold zeros; used
in examples. -/
def Heap.ample : Heap := { avail := fun _ => true, junk := fun _ => 0 }

/-- A heap on which every request succeeds and fresh blocks hold the stale
byte `0xAB`; used in examples. -/
def Heap.stale : Heap := { avail := fun _ => true, junk := fun _ => 171 }

/-- The byte `convert_to_grayscale` is to store for the pixel whose first byte is
at offset `off`: that byte itself for one channel, the rounded luminance of the
first three bytes for three or four channels. -/
def pixel_gray_value (channels : Int) (src : List Uint8) (off : Int) : Option Uint8 :=
  if channels = 1 then load src off
  else
    match load src off, load src (off + 1), load src (off + 2) with
    | some r, some g, some b => some (gray_byte r g b)
    | _, _, _ => none

/-! ## `get_grayscale_image`, pixel access -/

/-- The function `get_grayscale_image` of `image_analysis.c`; the two branches
differ only in the message they print. -/
def get_grayscale_image (hp : Heap) (image_data : Option ImageData)
    (grayscale_image : Option GrayscaleImage) : Option (Bool × Option GrayscaleImage) :=
  match image_data, grayscale_image with
  | none, _ => some (false, grayscale_image)
  | some _, none => some (false, none)
  | some _, some _ =>
    match is_image_grayscale image_data with
    | some true => convert_to_grayscale hp image_data grayscale_image
    | some false => convert_to_grayscale hp image_data grayscale_image
    | none => none

/-- The function `get_grayscale_pixel` of `image_analysis.c`. -/
def get_grayscale_pixel (grayscale_image : Option GrayscaleImage) (x y : Int) : Option Uint8 :=
  match grayscale_image with
  | none => some 0
  | some g =>
    match g.pixels with
    | none => some 0
    | some mem =>
      if x < 0 ∨ x ≥ g.width ∨ y < 0 ∨ y ≥ g.height then some 0
      else load mem (y * g.width + x)

/-- The function `set_grayscale_pixel` of `image_analysis.c`: the returned pair
is the C return value and the contents of `*grayscale_image` on return. -/
def set_grayscale_pixel (grayscale_image : Option GrayscaleImage) (x y : Int) (value : Uint8) :
    Option (Bool × Option GrayscaleImage) :=
  match grayscale_image with
  | none => some (false, none)
  | some g =>
    match g.pixels with
    | none => some (false, some g)
    | some mem =>
      if x < 0 ∨ x ≥ g.width ∨ y < 0 ∨ y ≥ g.height then some (false, some g)
      else
        match store mem (y * g.width + x) value with
        | some mem1 => some (true, some { g with pixels := some mem1 })
        | none => none

/-- The invariant of a grayscale image: the buffer is present, its length is
`data_size`, and `data_size` is `width * height`. -/
def GrayInvariant (g : GrayscaleImage) : Prop :=
  match g.pixels with
  | none => False
  | some mem => mem.length = g.data_size ∧ (g.data_size : Int) = g.width * g.height

instance (g : GrayscaleImage) : Decidable (GrayInvariant g) := by
  unfold GrayInvariant
  split <;> infer_instance

/-- The grayscale images a program can hold: the result of a successful
`convert_to_grayscale` on a source with non-negative dimensions whose pixel
count fits an `int`, and whatever `set_grayscale_pixel` leaves of such an
image, whether it returns true or false. -/
inductive Reachable : GrayscaleImage → Prop where
  | convert (hp : Heap) (d : ImageData) (s : SDL_Surface) (g0 g : GrayscaleImage) :
      d.surface = some s → 0 ≤ s.w → 0 ≤ s.h → s.w * s.h < 2 ^ 31 →
      convert_to_grayscale hp (some d) (some g0) = some (true, some g) → Reachable g
  | set (g g1 : GrayscaleImage) (x y : Int) (v : Uint8) (ok : Bool) :
      Reachable g → set_grayscale_pixel (some g) x y v = some (ok, some g1) → Reachable g1

/-! ## `generate_grayscale_filename` -/

/-- The call `strrchr(s, c)` on a string held as the list of its characters
before the terminating NUL: the index of the last occurrence of `c`, or `none`
for the null pointer. -/
def strrchr : List Char → Char → Option Nat
  | [], _ => none
  | a :: t, c =>
    match strrchr t c with
    | some i => some (i + 1)
    | none => if a = c then some 0 else none

/-- Conversion of a `size_t` to `int`: reduction to 32 bits, two's
complement. -/
def size_to_int (n : Nat) : Int :=
  if n % 2 ^ 32 < 2 ^ 31 then (n % 2 ^ 32 : Nat) else (n % 2 ^ 32 : Nat) - 2 ^ 32

/-- The function `generate_grayscale_filename` of `image_analysis.c`.  Strings
are lists of characters; the returned pair is the C return value and the string
held by `output_buffer` on return.  `snprintf` stores at most
`buffer_size - 1` characters and returns the untruncated length, or a negative
value when that length exceeds `INT_MAX`; a negative precision of `%.*s` prints
the whole string. -/
def generate_grayscale_filename (original_filename : Option (List Char))
    (output_buffer : Option (List Char)) (buffer_size : Nat) : Bool × Option (List Char) :=
  match original_filename, output_buffer with
  | none, _ => (false, output_buffer)
  | some _, none => (false, none)
  | some original, some _ =>
    if buffer_size = 0 then (false, output_buffer)
    else
      let filename : List Char :=
        match strrchr original '/' with
        | some i => original.drop (i + 1)
        | none => original
      let name_length : Nat :=
        match strrchr filename '.' with
        | some j => j
        | none => filename.length
      let precision : Int := size_to_int name_length
      let name : List Char := if precision < 0 then filename else filename.take precision.toNat
      let full : List Char := "grayscale_images/".toList ++ name ++ "_gray.png".toList
      let written : Int := if full.length < 2 ^ 31 then (full.length : Int) else -1
      if written < 0 ∨ written ≥ buffer_size then (false, some (full.take (buffer_size - 1)))
      else (true, some (full.take (buffer_size - 1)))

/-- The three colour bytes of the pixel whose first byte is at offset `off`
(each `none` outside the buffer). -/
def pixel_rgb (mem : List Uint8) (off : Int) : Option Uint8 × Option Uint8 × Option Uint8 :=
  (load mem off, load mem (off + 1), load mem (off + 2))
/-! ## Lemmas on the monochrome scan -/

theorem load_isSome (mem : List Uint8) (i : Int) (h0 : 0 ≤ i) (h1 : i < mem.length) :
    ∃ v, load mem i = some v := by
  have hlt : i.toNat < mem.length := by omega
  exact ⟨mem[i.toNat], by simp [load, h0, List.getElem?_eq_getElem hlt]⟩

theorem has_color_eq_false (r g b : Uint8) :
    has_color r g b = false ↔
      Int.natAbs ((r.val : Int) - g.val) ≤ 1 ∧ Int.natAbs ((g.val : Int) - b.val) ≤ 1 ∧
      Int.natAbs ((r.val : Int) - b.val) ≤ 1 := by
  simp [has_color, and_assoc]

theorem gray_scan_row_spec (ch : Int) (hch : ch = 3 ∨ ch = 4) (mem : List Uint8) (row w : Int)
    (hb : ∀ x, 0 ≤ x → x < w → 0 ≤ row + x * ch ∧ row + x * ch + 2 < mem.length) :
    ∀ (fuel : Nat) (x : Int) (g : Bool), 0 ≤ x → (w - x).toNat ≤ fuel →
      ∃ res, gray_scan_row ch mem row w fuel x g = some res ∧
        (res = true ↔ g = true ∧ ∀ x1, x ≤ x1 → x1 < w → PixelGray mem (row + x1 * ch)) := by
  intro fuel
  induction fuel with
  | zero =>
    intro x g _ hf
    refine ⟨g, rfl, ?_⟩
    constructor
    · intro hg
      exact ⟨hg, fun x1 h1 h2 => by omega⟩
    · exact fun h => h.1
  | succ n ih =>
    intro x g hx hf
    by_cases hc : x < w ∧ g = true
    · obtain ⟨hxw, hg⟩ := hc
      obtain ⟨hlo, hhi⟩ := hb x hx hxw
      obtain ⟨r, hr⟩ := load_isSome mem (row + x * ch) hlo (by omega)
      obtain ⟨gg, hgg⟩ := load_isSome mem (row + x * ch + 1) (by omega) (by omega)
      obtain ⟨b, hbb⟩ := load_isSome mem (row + x * ch + 2) (by omega) hhi
      obtain ⟨res, hres, hiff⟩ := ih (x + 1) (if has_color r gg b then false else g) (by omega)
        (by omega)
      refine ⟨res, ?_, ?_⟩
      · rcases hch with h3 | h4
        · subst h3
          simp only [gray_scan_row, hxw, hg, and_self, if_true, hr, hgg, hbb]
          simpa [hg] using hres
        · subst h4
          simp only [gray_scan_row, hxw, hg, and_self, if_true, hr, hgg, hbb]
          simpa [hg] using hres
      · rw [hiff]
        constructor
        · rintro ⟨h1, h2⟩
          refine ⟨hg, fun x1 hx1 hx1w => ?_⟩
          by_cases hct : has_color r gg b = true
          · simp [hct] at h1
          · rcases eq_or_lt_of_le hx1 with heq | hlt
            · subst heq
              have hcf : has_color r gg b = false := by simpa using hct
              exact ⟨r, gg, b, hr, hgg, hbb, (has_color_eq_false r gg b).1 hcf⟩
            · exact h2 x1 (by omega) hx1w
        · rintro ⟨_, h2⟩
          obtain ⟨r1, g1, b1, e1, e2, e3, hok⟩ := h2 x le_rfl hxw
          rw [hr] at e1
          rw [hgg] at e2
          rw [hbb] at e3
          cases e1
          cases e2
          cases e3
          have hcf := (has_color_eq_false r gg b).2 hok
          exact ⟨by simp [hcf, hg], fun x1 hx1 hx1w => h2 x1 (by omega) hx1w⟩
    · refine ⟨g, ?_, ?_⟩
      · simp only [gray_scan_row, hc, if_false]
      · constructor
        · intro hg
          refine ⟨hg, fun x1 hx1 hx1w => ?_⟩
          exact absurd ⟨by omega, hg⟩ hc
        · exact fun h => h.1

theorem valid_pixel_bounds {w h pitch ch len : Int} (hw : 0 ≤ w) (hp : w * ch ≤ pitch)
    (hl : h * pitch ≤ len) (hch : ch = 1 ∨ ch = 3 ∨ ch = 4) {x y : Int} (hx0 : 0 ≤ x) (hxw : x < w)
    (hy0 : 0 ≤ y) (hyh : y < h) :
    0 ≤ y * pitch + x * ch ∧ y * pitch + x * ch + (ch - 1) < len := by
  have hch0 : 0 < ch := by omega
  have hpitch : 0 ≤ pitch := le_trans (mul_nonneg hw hch0.le) hp
  have h1 : 0 ≤ y * pitch := mul_nonneg hy0 hpitch
  have h2 : 0 ≤ x * ch := mul_nonneg hx0 hch0.le
  have h3 : (x + 1) * ch ≤ w * ch := mul_le_mul_of_nonneg_right (by omega) hch0.le
  have h4 : (y + 1) * pitch ≤ h * pitch := mul_le_mul_of_nonneg_right (by omega) hpitch
  refine ⟨by omega, ?_⟩
  have h5 : (x + 1) * ch = x * ch + ch := by ring
  have h6 : (y + 1) * pitch = y * pitch + pitch := by ring
  omega

theorem gray_scan_rows_spec (ch : Int) (hch : ch = 3 ∨ ch = 4) (mem : List Uint8)
    (pitch w h : Int)
    (hb : ∀ y x, 0 ≤ y → y < h → 0 ≤ x → x < w →
      0 ≤ y * pitch + x * ch ∧ y * pitch + x * ch + 2 < mem.length) :
    ∀ (fuel : Nat) (y : Int) (g : Bool), 0 ≤ y → (h - y).toNat ≤ fuel →
      ∃ res, gray_scan_rows ch mem pitch w h fuel y g = some res ∧
        (res = true ↔ g = true ∧ ∀ y1, y ≤ y1 → y1 < h → ∀ x1, 0 ≤ x1 → x1 < w →
          PixelGray mem (y1 * pitch + x1 * ch)) := by
  intro fuel
  induction fuel with
  | zero =>
    intro y g _ hf
    exact ⟨g, rfl, fun hg => ⟨hg, fun y1 h1 h2 => by omega⟩, fun h => h.1⟩
  | succ n ih =>
    intro y g hy hf
    by_cases hc : y < h ∧ g = true
    · obtain ⟨hyh, hg⟩ := hc
      obtain ⟨g1, hrow, hrowiff⟩ := gray_scan_row_spec ch hch mem (y * pitch) w
        (fun x hx0 hxw => hb y x hy hyh hx0 hxw) w.toNat 0 g le_rfl (by simp)
      obtain ⟨res, hres, hiff⟩ := ih (y + 1) g1 (by omega) (by omega)
      refine ⟨res, ?_, ?_⟩
      · simp only [gray_scan_rows, hyh, hg, and_self, if_true]
        rw [hg] at hrow
        simp only [hrow]
        exact hres
      · rw [hiff, hrowiff]
        constructor
        · rintro ⟨⟨_, hrowok⟩, hrest⟩
          refine ⟨hg, fun y1 hy1 hy1h x1 hx0 hxw => ?_⟩
          rcases eq_or_lt_of_le hy1 with heq | hlt
          · subst heq
            exact hrowok x1 hx0 hxw
          · exact hrest y1 (by omega) hy1h x1 hx0 hxw
        · rintro ⟨_, hall⟩
          exact ⟨⟨hg, fun x1 hx0 hxw => hall y le_rfl hyh x1 hx0 hxw⟩,
            fun y1 hy1 hy1h x1 hx0 hxw => hall y1 (by omega) hy1h x1 hx0 hxw⟩
    · refine ⟨g, ?_, ?_⟩
      · simp only [gray_scan_rows, hc, if_false]
      · constructor
        · intro hg
          exact ⟨hg, fun y1 hy1 hy1h => absurd ⟨by omega, hg⟩ hc⟩
        · exact fun h => h.1

theorem is_image_grayscale_scan (d : ImageData) (s : SDL_Surface) (hs : d.surface = some s)
    (hch : d.channels = 3 ∨ d.channels = 4) (hv : ValidSource d) :
    ∃ res, is_image_grayscale (some d) = some res ∧
      (res = true ↔ ∀ x y, 0 ≤ x → x < s.w → 0 ≤ y → y < s.h →
        PixelGray s.pixels (y * s.pitch + x * d.channels)) := by
  simp only [ValidSource, hs] at hv
  obtain ⟨hw, _, hp, hl⟩ := hv
  have hne : d.channels ≠ 1 := by omega
  obtain ⟨res, hres, hiff⟩ := gray_scan_rows_spec d.channels hch s.pixels s.pitch s.w s.h
    (fun y x hy0 hyh hx0 hxw => by
      have := valid_pixel_bounds hw hp hl (Or.inr hch) hx0 hxw hy0 hyh
      omega)
    s.h.toNat 0 true le_rfl (by simp)
  refine ⟨res, ?_, ?_⟩
  · simp only [is_image_grayscale, hs, hne, if_false]
    exact hres
  · rw [hiff]
    constructor
    · rintro ⟨_, hall⟩ x y hx0 hxw hy0 hyh
      exact hall y hy0 hyh x hx0 hxw
    · intro hall
      exact ⟨rfl, fun y hy0 hyh x hx0 hxw => hall x y hx0 hxw hy0 hyh⟩


/-! ## Lemmas on the binary64 model -/

theorem bit_count_le (fuel : Nat) : ∀ (n m : Nat), n < 2 ^ m → bit_count fuel n ≤ m := by
  induction fuel with
  | zero => intro n m _; simp [bit_count]
  | succ f ih =>
    intro n m hn
    by_cases h0 : n = 0
    · simp [bit_count, h0]
    · cases m with
      | zero => simp at hn; exact absurd hn h0
      | succ m =>
        have h2 : n / 2 < 2 ^ m := by
          rw [pow_succ] at hn
          omega
        have := ih (n / 2) m h2
        simp only [bit_count, h0, if_false]
        omega

theorem bit_length_le {n m : Nat} (h : n < 2 ^ m) : bit_length n ≤ m :=
  bit_count_le n n m h

theorem round_half_even_mul_near (n P : Nat) (hP : 0 < P) :
    round_half_even n P * P ≤ n + P / 2 ∧ n ≤ round_half_even n P * P + P / 2 := by
  have hdm := Nat.div_add_mod n P
  have hmod := Nat.mod_lt n hP
  have hmul : P * (n / P) = n / P * P := Nat.mul_comm _ _
  have hsucc : (n / P + 1) * P = n / P * P + P := by ring
  simp only [round_half_even]
  split_ifs <;> omega

theorem rne53_small {n : Nat} (h : n < 2 ^ 53) : rne53 n = n := by
  have hk : bit_length n - 53 = 0 := by
    have := bit_length_le h
    omega
  simp [rne53, hk, round_half_even, Nat.mod_one]

theorem rne53_near {n : Nat} (h : n < 2 ^ 65) : rne53 n ≤ n + 2048 ∧ n ≤ rne53 n + 2048 := by
  have hk : bit_length n - 53 ≤ 12 := by
    have := bit_length_le h
    omega
  have hP : 2 ^ (bit_length n - 53) ≤ 2 ^ 12 := Nat.pow_le_pow_right (by norm_num) hk
  have hpos : 0 < 2 ^ (bit_length n - 53) := pow_pos (by norm_num) _
  have := round_half_even_mul_near n (2 ^ (bit_length n - 53)) hpos
  simp only [rne53]
  norm_num at hP
  omega

/-- Accumulated rounding error of the luminance expression plus one half,
against the exact decimal value: `10000 * v` is within `2 * 10 ^ 8` of
`(2125 r + 7154 g + 721 b + 5000) * 2 ^ 56`. -/
theorem luminance_half_near (r g b : Nat) (hr : r < 256) (hg : g < 256) (hb : b < 256) :
    10000 * fadd (luminance r g b) (2 ^ 55) ≤
        (2125 * r + 7154 * g + 721 * b + 5000) * 2 ^ 56 + 200000000 ∧
      (2125 * r + 7154 * g + 721 * b + 5000) * 2 ^ 56 ≤
        10000 * fadd (luminance r g b) (2 ^ 55) + 200000000 := by
  simp only [luminance, fadd, fmul_byte, coef_r, coef_g, coef_b]
  have h1 := rne53_near (n := 15312238733059686 * r) (by norm_num; omega)
  have h2 := rne53_near (n := 51550002774733648 * g) (by norm_num; omega)
  have h3 := rne53_near (n := 5195352530134604 * b) (by norm_num; omega)
  have h4 := rne53_near (n := rne53 (15312238733059686 * r) + rne53 (51550002774733648 * g))
    (by norm_num; omega)
  have h5 := rne53_near (n := rne53 (rne53 (15312238733059686 * r) +
    rne53 (51550002774733648 * g)) + rne53 (5195352530134604 * b)) (by norm_num; omega)
  have h6 := rne53_near (n := rne53 (rne53 (rne53 (15312238733059686 * r) +
    rne53 (51550002774733648 * g)) + rne53 (5195352530134604 * b)) + 2 ^ 55) (by norm_num; omega)
  norm_num at h6 ⊢
  omega

theorem scaled_div_bounds (V T X : Nat) (hX : T / 10000 * 2 ^ 56 = X)
    (h1 : 10000 * V ≤ T * 2 ^ 56 + 200000000) (h2 : T * 2 ^ 56 ≤ 10000 * V + 200000000) :
    (T % 10000 ≠ 0 → X ≤ V) ∧ V < X + 2 ^ 56 ∧ X ≤ V + 2 ^ 56 := by
  have hT := Nat.div_add_mod T 10000
  have hmod := Nat.mod_lt T (show 0 < 10000 by norm_num)
  have hTU : T * 2 ^ 56 = 10000 * X + T % 10000 * 2 ^ 56 := by
    rw [← hX]
    nth_rewrite 1 [← hT]
    ring
  rw [hTU] at h1 h2
  norm_num at h1 h2 ⊢
  refine ⟨fun hne => ?_, ?_, ?_⟩ <;> omega

theorem exact_gray_le (r g b : Nat) (hr : r < 256) (hg : g < 256) (hb : b < 256) :
    exact_gray r g b ≤ 255 := by
  simp only [exact_gray]
  omega

/-- In every case the stored byte is the exactly rounded value or one less. -/
theorem gray_byte_near_exact (r g b : Uint8) :
    (gray_byte r g b).val ≤ exact_gray r.val g.val b.val ∧
      exact_gray r.val g.val b.val ≤ (gray_byte r g b).val + 1 ∧
      ((2125 * r.val + 7154 * g.val + 721 * b.val) % 10000 ≠ 5000 →
        (gray_byte r g b).val = exact_gray r.val g.val b.val) := by
  have h := luminance_half_near r.val g.val b.val r.isLt g.isLt b.isLt
  have hle := exact_gray_le r.val g.val b.val r.isLt g.isLt b.isLt
  obtain ⟨hlo, hhi, hhi2⟩ := scaled_div_bounds (fadd (luminance r.val g.val b.val) (2 ^ 55))
    (2125 * r.val + 7154 * g.val + 721 * b.val + 5000) _ rfl h.1 h.2
  have hdiv_le : fadd (luminance r.val g.val b.val) (2 ^ 55) / 2 ^ 56 ≤
      exact_gray r.val g.val b.val := by
    have := (Nat.div_lt_iff_lt_mul (show 0 < 2 ^ 56 by norm_num)).2
      (show fadd (luminance r.val g.val b.val) (2 ^ 55) <
        ((2125 * r.val + 7154 * g.val + 721 * b.val + 5000) / 10000 + 1) * 2 ^ 56 by
        rw [Nat.add_mul, Nat.one_mul]; exact hhi)
    simp only [exact_gray]
    omega
  have hlt : fadd (luminance r.val g.val b.val) (2 ^ 55) / 2 ^ 56 < 256 := by omega
  have hval : (gray_byte r g b).val = fadd (luminance r.val g.val b.val) (2 ^ 55) / 2 ^ 56 := by
    simp only [gray_byte, round_to_uint8, Fin.ofNat, Fin.val_mk, Nat.mod_eq_of_lt hlt]
  rw [hval]
  refine ⟨hdiv_le, ?_, fun hne => ?_⟩
  · by_cases hz : exact_gray r.val g.val b.val = 0
    · omega
    · have hge : (exact_gray r.val g.val b.val - 1) * 2 ^ 56 ≤
          fadd (luminance r.val g.val b.val) (2 ^ 55) := by
        have hsub : (exact_gray r.val g.val b.val - 1) * 2 ^ 56 + 2 ^ 56 =
            (2125 * r.val + 7154 * g.val + 721 * b.val + 5000) / 10000 * 2 ^ 56 := by
          rw [← Nat.succ_mul]
          congr 1
          simp only [exact_gray] at hz ⊢
          omega
        omega
      have := (Nat.le_div_iff_mul_le (show 0 < 2 ^ 56 by norm_num)).2 hge
      omega
  · have hne0 : (2125 * r.val + 7154 * g.val + 721 * b.val + 5000) % 10000 ≠ 0 := by omega
    have hge := (Nat.le_div_iff_mul_le (show 0 < 2 ^ 56 by norm_num)).2 (hlo hne0)
    simp only [exact_gray] at hdiv_le ⊢
    omega

/-- The three constants are the `double`s nearest to the decimal literals: each
is a 53-bit significand times its unit in the last place (`2 ^ (-55)`,
`2 ^ (-53)`, `2 ^ (-56)`), and lies within half that unit of the decimal. -/
theorem coef_nearest :
    (coef_r % 2 = 0 ∧ 2 ^ 52 ≤ coef_r / 2 ∧ coef_r / 2 < 2 ^ 53 ∧
      2125 * 2 ^ 56 < coef_r * 10000 + 10000 ∧ coef_r * 10000 < 2125 * 2 ^ 56 + 10000) ∧
    (coef_g % 8 = 0 ∧ 2 ^ 52 ≤ coef_g / 8 ∧ coef_g / 8 < 2 ^ 53 ∧
      7154 * 2 ^ 56 < coef_g * 10000 + 40000 ∧ coef_g * 10000 < 7154 * 2 ^ 56 + 40000) ∧
    (2 ^ 52 ≤ coef_b ∧ coef_b < 2 ^ 53 ∧
      721 * 2 ^ 56 < coef_b * 10000 + 5000 ∧ coef_b * 10000 < 721 * 2 ^ 56 + 5000) := by
  decide

/-! ## Lemmas on the conversion loops -/

theorem store_spec (mem : List Uint8) (i : Int) (v : Uint8) (h0 : 0 ≤ i) (h1 : i < mem.length) :
    ∃ mem1, store mem i v = some mem1 ∧ mem1.length = mem.length ∧ load mem1 i = some v ∧
      ∀ j, j ≠ i → load mem1 j = load mem j := by
  have hlt : i.toNat < mem.length := by omega
  refine ⟨mem.set i.toNat v, by simp [store, h0, hlt], by simp, ?_, ?_⟩
  · simp [load, h0, hlt]
  · intro j hj
    by_cases hj0 : 0 ≤ j
    · have hne : i.toNat ≠ j.toNat := by omega
      simp [load, hj0, List.getElem?_set_ne hne]
    · simp [load, hj0]

theorem pixel_gray_value_isSome {ch : Int} (hch : ch = 1 ∨ ch = 3 ∨ ch = 4) (src : List Uint8)
    {off : Int} (h0 : 0 ≤ off) (h1 : off + (ch - 1) < src.length) :
    ∃ v, pixel_gray_value ch src off = some v := by
  rcases hch with h | h | h
  · subst h
    obtain ⟨v, hv⟩ := load_isSome src (off) h0 (by omega)
    exact ⟨v, by simp [pixel_gray_value, hv]⟩
  · subst h
    obtain ⟨r, hr⟩ := load_isSome src (off) h0 (by omega)
    obtain ⟨g, hg⟩ := load_isSome src (off + 1) (by omega) (by omega)
    obtain ⟨b, hb⟩ := load_isSome src (off + 2) (by omega) (by omega)
    exact ⟨gray_byte r g b, by simp [pixel_gray_value, hr, hg, hb]⟩
  · subst h
    obtain ⟨r, hr⟩ := load_isSome src (off) h0 (by omega)
    obtain ⟨g, hg⟩ := load_isSome src (off + 1) (by omega) (by omega)
    obtain ⟨b, hb⟩ := load_isSome src (off + 2) (by omega) (by omega)
    exact ⟨gray_byte r g b, by simp [pixel_gray_value, hr, hg, hb]⟩

/-- One iteration of the inner conversion loop, in terms of
`pixel_gray_value`. -/
theorem convert_row_step {ch : Int} (hch : ch = 1 ∨ ch = 3 ∨ ch = 4) (src : List Uint8)
    (row w y : Int) (fuel : Nat) (x : Int) (out out1 : List Uint8) (v : Uint8) (hxw : x < w)
    (hv : pixel_gray_value ch src (row + x * ch) = some v)
    (hst : store out (y * w + x) v = some out1) :
    convert_row ch src row w y (fuel + 1) x out = convert_row ch src row w y fuel (x + 1) out1 := by
  rcases hch with h | h | h
  · subst h
    simp only [pixel_gray_value, if_true, mul_one] at hv
    simp only [convert_row, hxw, if_true, hv, hst]
  · subst h
    simp only [pixel_gray_value, show ¬ ((3 : Int) = 1) by decide, if_false] at hv
    split at hv
    · next r g b hr hg hb =>
      cases hv
      simp only [convert_row, hxw, if_true, show ¬ ((3 : Int) = 1) by decide, if_false, hr, hg,
        hb, hst]
    · cases hv
  · subst h
    simp only [pixel_gray_value, show ¬ ((4 : Int) = 1) by decide, if_false] at hv
    split at hv
    · next r g b hr hg hb =>
      cases hv
      simp only [convert_row, hxw, if_true, show ¬ ((4 : Int) = 1) by decide,
        show ¬ ((4 : Int) = 3) by decide, if_false, hr, hg, hb, hst]
    · cases hv

theorem convert_row_spec {ch : Int} (hch : ch = 1 ∨ ch = 3 ∨ ch = 4) (src : List Uint8)
    (row w y : Int) (L : Nat)
    (hb : ∀ x, 0 ≤ x → x < w → 0 ≤ row + x * ch ∧ row + x * ch + (ch - 1) < src.length)
    (hbase : 0 ≤ y * w) (hend : y * w + w ≤ L) :
    ∀ (fuel : Nat) (x : Int) (out : List Uint8), 0 ≤ x → (w - x).toNat ≤ fuel →
      out.length = L →
      ∃ out1, convert_row ch src row w y fuel x out = some out1 ∧ out1.length = L ∧
        (∀ i, (i < y * w + x ∨ y * w + w ≤ i) → load out1 i = load out i) ∧
        (∀ x1, x ≤ x1 → x1 < w → ∃ v, pixel_gray_value ch src (row + x1 * ch) = some v ∧
          load out1 (y * w + x1) = some v) := by
  intro fuel
  induction fuel with
  | zero =>
    intro x out _ hf hlen
    exact ⟨out, rfl, hlen, fun _ _ => rfl, fun x1 h1 h2 => by omega⟩
  | succ n ih =>
    intro x out hx hf hlen
    by_cases hxw : x < w
    · obtain ⟨hlo, hhi⟩ := hb x hx hxw
      obtain ⟨v, hv⟩ := pixel_gray_value_isSome hch src hlo hhi
      obtain ⟨out1, hst, hlen1, hget, hother⟩ :=
        store_spec out (y * w + x) v (by omega) (by omega)
      obtain ⟨out2, hrun, hlen2, hkeep, hfill⟩ := ih (x + 1) out1 (by omega) (by omega)
        (by omega)
      refine ⟨out2, ?_, hlen2, ?_, ?_⟩
      · rw [convert_row_step hch src row w y n x out out1 v hxw hv hst]
        exact hrun
      · intro i hi
        rw [hkeep i (by omega)]
        exact hother i (by omega)
      · intro x1 hx1 hx1w
        rcases eq_or_lt_of_le hx1 with heq | hlt
        · subst heq
          refine ⟨v, hv, ?_⟩
          rw [hkeep (y * w + x) (by omega)]
          exact hget
        · exact hfill x1 (by omega) hx1w
    · refine ⟨out, ?_, hlen, fun _ _ => rfl, fun x1 h1 h2 => by omega⟩
      simp only [convert_row, hxw, if_false]

theorem convert_rows_spec {ch : Int} (hch : ch = 1 ∨ ch = 3 ∨ ch = 4) (src : List Uint8)
    (pitch w h : Int) (L : Nat) (hw : 0 ≤ w) (hL : (L : Int) = w * h)
    (hb : ∀ y x, 0 ≤ y → y < h → 0 ≤ x → x < w →
      0 ≤ y * pitch + x * ch ∧ y * pitch + x * ch + (ch - 1) < src.length) :
    ∀ (fuel : Nat) (y : Int) (out : List Uint8), 0 ≤ y → (h - y).toNat ≤ fuel →
      out.length = L →
      ∃ out1, convert_rows ch src pitch w h fuel y out = some out1 ∧ out1.length = L ∧
        (∀ i, i < y * w → load out1 i = load out i) ∧
        (∀ y1 x1, y ≤ y1 → y1 < h → 0 ≤ x1 → x1 < w →
          ∃ v, pixel_gray_value ch src (y1 * pitch + x1 * ch) = some v ∧
            load out1 (y1 * w + x1) = some v) := by
  intro fuel
  induction fuel with
  | zero =>
    intro y out _ hf hlen
    exact ⟨out, rfl, hlen, fun _ _ => rfl, fun y1 x1 h1 h2 => by omega⟩
  | succ n ih =>
    intro y out hy hf hlen
    by_cases hyh : y < h
    · have hyw : 0 ≤ y * w := mul_nonneg hy hw
      have hsucc : (y + 1) * w = y * w + w := by ring
      have hend : y * w + w ≤ (L : Int) := by
        rw [hL, ← hsucc, mul_comm w h]
        exact mul_le_mul_of_nonneg_right (by omega) hw
      obtain ⟨out1, hrow, hlen1, hkeep1, hfill1⟩ := convert_row_spec hch src (y * pitch) w y L
        (fun x hx0 hxw => hb y x hy hyh hx0 hxw) hyw hend w.toNat 0 out le_rfl (by simp) hlen
      obtain ⟨out2, hrun, hlen2, hkeep2, hfill2⟩ := ih (y + 1) out1 (by omega) (by omega) hlen1
      refine ⟨out2, ?_, hlen2, ?_, ?_⟩
      · simp only [convert_rows, hyh, if_true, hrow]
        exact hrun
      · intro i hi
        rw [hkeep2 i (by omega)]
        exact hkeep1 i (by omega)
      · intro y1 x1 hy1 hy1h hx0 hxw
        rcases eq_or_lt_of_le hy1 with heq | hlt
        · subst heq
          obtain ⟨v, hv, hld⟩ := hfill1 x1 hx0 hxw
          refine ⟨v, hv, ?_⟩
          rw [hkeep2 (y * w + x1) (by omega)]
          exact hld
        · exact hfill2 y1 x1 (by omega) hy1h hx0 hxw
    · refine ⟨out, ?_, hlen, fun _ _ => rfl, fun y1 x1 h1 h2 => by omega⟩
      simp only [convert_rows, hyh, if_false]

/-- Total correctness of `convert_to_grayscale` on a well-formed source with 1,
3 or 4 channels, when the pixel count fits an `int` and the output buffer can be
allocated. -/
theorem convert_to_grayscale_spec (hp : Heap) (d : ImageData) (s : SDL_Surface)
    (g : GrayscaleImage) (hs : d.surface = some s) (hv : ValidSource d)
    (hch : d.channels = 1 ∨ d.channels = 3 ∨ d.channels = 4) (hfit : s.w * s.h < 2 ^ 31)
    (halloc : hp.avail (s.w * s.h).toNat = true) :
    ∃ out name, convert_to_grayscale hp (some d) (some g) =
        some (true, some ⟨some out, s.w, s.h, (s.w * s.h).toNat, name⟩) ∧
      out.length = (s.w * s.h).toNat ∧
      ∀ x y, 0 ≤ x → x < s.w → 0 ≤ y → y < s.h →
        ∃ v, pixel_gray_value d.channels s.pixels (y * s.pitch + x * d.channels) = some v ∧
          load out (y * s.w + x) = some v := by
  simp only [ValidSource, hs] at hv
  obtain ⟨hw, hh, hpitch, hl⟩ := hv
  have hprod : 0 ≤ s.w * s.h := mul_nonneg hw hh
  have hmod : ((s.w * s.h) % 2 ^ 64).toNat = (s.w * s.h).toNat := by
    rw [Int.emod_eq_of_lt hprod (by omega)]
  obtain ⟨out, hrun, hlen, _, hfill⟩ := convert_rows_spec hch s.pixels s.pitch s.w s.h
    (s.w * s.h).toNat hw (by omega)
    (fun y x hy0 hyh hx0 hxw => valid_pixel_bounds hw hpitch hl hch hx0 hxw hy0 hyh)
    s.h.toNat 0 ((List.range (s.w * s.h).toNat).map hp.junk) le_rfl (by simp) (by simp)
  refine ⟨out, copy_filename hp d.filename, ?_, hlen, fun x y hx0 hxw hy0 hyh => hfill y x hy0 hyh hx0 hxw⟩
  simp only [convert_to_grayscale, hs, hmod, malloc, halloc, if_true, hrun]

theorem pixel_gray_value_color {ch : Int} (hch : ch = 3 ∨ ch = 4) {src : List Uint8} {off : Int}
    {v : Uint8} (hv : pixel_gray_value ch src off = some v) :
    ∃ r g b, load src off = some r ∧ load src (off + 1) = some g ∧
      load src (off + 2) = some b ∧ v = gray_byte r g b := by
  have hne : ch ≠ 1 := by omega
  simp only [pixel_gray_value, hne, if_false] at hv
  split at hv
  · next r g b hr hg hb =>
    cases hv
    exact ⟨r, g, b, hr, hg, hb, rfl⟩
  · cases hv

theorem gray_byte_diag (k : Uint8) : gray_byte k k k = k := by
  have h := (gray_byte_near_exact k k k).2.2 (by omega)
  apply Fin.ext
  rw [h]
  simp only [exact_gray]
  omega

theorem load_natCast (mem : List Uint8) (i : Nat) : load mem (i : Int) = mem[i]? := by
  simp [load]


/-! ## Lemmas on the binary64 quotient -/

theorem bit_count_spec (fuel : Nat) : ∀ n : Nat, n ≤ fuel →
    n < 2 ^ bit_count fuel n ∧ (0 < n → 2 ^ (bit_count fuel n - 1) ≤ n) := by
  induction fuel with
  | zero =>
    intro n hn
    have h0 : n = 0 := by omega
    subst h0
    simp [bit_count]
  | succ f ih =>
    intro n hn
    by_cases h0 : n = 0
    · subst h0
      simp [bit_count]
    · obtain ⟨hlt, hge⟩ := ih (n / 2) (by omega)
      simp only [bit_count, h0, if_false, Nat.add_sub_cancel]
      refine ⟨by rw [pow_succ]; omega, fun _ => ?_⟩
      by_cases h2 : n / 2 = 0
      · have hc : bit_count f (n / 2) = 0 := by
          rw [h2]
          cases f <;> simp [bit_count]
        rw [hc]
        simp
        omega
      · have hpos : 0 < bit_count f (n / 2) := by
          cases f with
          | zero => omega
          | succ f1 => simp [bit_count, h2]
        have hge1 := hge (by omega)
        have hpow : 2 ^ bit_count f (n / 2) = 2 ^ (bit_count f (n / 2) - 1) * 2 := by
          rw [← pow_succ]
          congr 1
          omega
        omega

theorem bit_length_spec {n : Nat} (hn : 0 < n) :
    2 ^ (bit_length n - 1) ≤ n ∧ n < 2 ^ bit_length n ∧ 0 < bit_length n := by
  obtain ⟨h1, h2⟩ := bit_count_spec n n le_rfl
  refine ⟨h2 hn, h1, ?_⟩
  by_contra hz
  have h0 : bit_length n = 0 := by omega
  simp only [bit_length] at h0 h1
  rw [h0] at h1
  omega

theorem round_half_even_bounds (n d : Nat) (hd : 0 < d) :
    n / d ≤ round_half_even n d ∧
      2 * (round_half_even n d * d) ≤ 2 * n + d ∧ 2 * n ≤ 2 * (round_half_even n d * d) + d ∧
      (n % d = 0 → round_half_even n d = n / d) := by
  have hdm := Nat.div_add_mod n d
  have hmod := Nat.mod_lt n hd
  have hmul : d * (n / d) = n / d * d := Nat.mul_comm _ _
  have hsucc : (n / d + 1) * d = n / d * d + d := by ring
  simp only [round_half_even]
  split_ifs <;> refine ⟨by omega, by omega, by omega, fun h => by omega⟩

/-- Normalisation performed by `div_sig` for a quotient below 256: the shift is
a natural number `S` placing the scaled quotient in `[2 ^ 52, 2 ^ 53)`. -/
theorem div_sig_spec (a b : Nat) (ha : 0 < a) (hb : 0 < b) (hab : a ≤ 255 * b) :
    ∃ S : Nat, div_sig a b = (round_half_even (a * 2 ^ S) b, (S : Int)) ∧
      2 ^ 52 * b ≤ a * 2 ^ S ∧ a * 2 ^ S < 2 ^ 53 * b := by
  obtain ⟨ha1, ha2, hta⟩ := bit_length_spec ha
  obtain ⟨hb1, hb2, htb⟩ := bit_length_spec hb
  have htu : bit_length a ≤ bit_length b + 8 := by
    apply bit_length_le
    rw [pow_add]
    norm_num
    omega
  obtain ⟨S0, hS0⟩ : ∃ S0 : Nat, S0 + bit_length a = 53 + bit_length b := ⟨53 + bit_length b -
    bit_length a, by omega⟩
  have hs0 : (53 : Int) + (bit_length b : Int) - bit_length a = (S0 : Int) := by omega
  -- a * 2 ^ S0 lies in [2 ^ (52 + u), 2 ^ (53 + u))
  have hlow : 2 ^ (52 + bit_length b) ≤ a * 2 ^ S0 := by
    have : 2 ^ (52 + bit_length b) = 2 ^ (bit_length a - 1) * 2 ^ S0 := by
      rw [← pow_add]
      congr 1
      omega
    rw [this]
    exact Nat.mul_le_mul_right _ ha1
  have hhigh : a * 2 ^ S0 < 2 ^ (53 + bit_length b) := by
    have : 2 ^ (53 + bit_length b) = 2 ^ bit_length a * 2 ^ S0 := by
      rw [← pow_add]
      congr 1
      omega
    rw [this]
    exact Nat.mul_lt_mul_of_pos_right ha2 (pow_pos (by norm_num) _)
  have hb52 : 2 ^ 52 * b < 2 ^ (52 + bit_length b) := by
    rw [pow_add]
    exact Nat.mul_lt_mul_of_pos_left hb2 (pow_pos (by norm_num) _)
  have hb53 : 2 ^ (53 + bit_length b) ≤ 2 ^ 53 * (2 * b) := by
    have : 2 ^ (53 + bit_length b) = 2 ^ 53 * (2 * 2 ^ (bit_length b - 1)) := by
      rw [← pow_succ', ← pow_add]
      congr 1
      omega
    rw [this]
    exact Nat.mul_le_mul_left _ (Nat.mul_le_mul_left _ hb1)
  by_cases hc : a * 2 ^ S0 < 2 ^ 53 * b
  · refine ⟨S0, ?_, by omega, hc⟩
    simp only [div_sig, hs0, Int.toNat_ofNat, Int.toNat_neg_nat, pow_zero, mul_one, hc, if_true]
  · obtain ⟨S1, hS1⟩ : ∃ S1 : Nat, S0 = S1 + 1 := ⟨S0 - 1, by omega⟩
    have hs1 : (S0 : Int) - 1 = (S1 : Int) := by omega
    have hpow : a * 2 ^ S0 = 2 * (a * 2 ^ S1) := by
      rw [hS1, pow_succ]
      ring
    refine ⟨S1, ?_, by omega, by omega⟩
    simp only [div_sig, hs0, Int.toNat_ofNat, Int.toNat_neg_nat, pow_zero, mul_one, hc, if_false,
      hs1]

/-- The rounded quotient of a sum of `n` bytes by `n`: it is a finite value
within relative error `2 ^ (-53)` of the exact quotient, it respects integer
bounds on the quotient, and it is exact when the quotient is an integer. -/
theorem fdiv_spec (sum n : Nat) (hn : 0 < n) (hn31 : n < 2 ^ 31) (hsum : sum ≤ 255 * n) :
    ∃ q : ℚ, fdiv sum n = F64.fin q ∧
      |q - (sum : ℚ) / n| * 2 ^ 53 ≤ (sum : ℚ) / n ∧
      (∀ k : Nat, k * n ≤ sum → (k : ℚ) ≤ q) ∧
      (∀ k : Nat, sum ≤ k * n → q ≤ (k : ℚ)) ∧
      (∀ k : Nat, sum = k * n → q = (k : ℚ)) := by
  have hsum53 : sum < 2 ^ 53 := by norm_num at hn31 ⊢; omega
  have hn53 : n < 2 ^ 53 := by norm_num at hn31 ⊢; omega
  have hnq : (0 : ℚ) < n := by exact_mod_cast hn
  by_cases hs0 : sum = 0
  · subst hs0
    refine ⟨0, ?_, by simp, fun k hk => ?_, fun k _ => by positivity, fun k hk => ?_⟩
    · simp [fdiv, rne53_small hn53, rne53_small (show 0 < 2 ^ 53 by norm_num), hn.ne']
    · have : k = 0 := by
        rcases Nat.eq_zero_or_pos k with h | h
        · exact h
        · have := Nat.mul_pos h hn
          omega
      simp [this]
    · have : k = 0 := by
        rcases Nat.eq_zero_or_pos k with h | h
        · exact h
        · have := Nat.mul_pos h hn
          omega
      simp [this]
  · have hspos : 0 < sum := Nat.pos_of_ne_zero hs0
    obtain ⟨S, hsig, hlo, hhi⟩ := div_sig_spec sum n hspos hn hsum
    obtain ⟨hfloor, hup, hdown, hexact⟩ := round_half_even_bounds (sum * 2 ^ S) n hn
    have h2S : (0 : ℚ) < 2 ^ S := by positivity
    have hq : fdiv sum n = F64.fin ((round_half_even (sum * 2 ^ S) n : ℚ) / 2 ^ S) := by
      simp [fdiv, rne53_small hn53, rne53_small hsum53, hn.ne', hs0, div_round, hsig, dyadic]
    refine ⟨_, hq, ?_, fun k hk => ?_, fun k hk => ?_, fun k hk => ?_⟩
    · have hupq : (2 : ℚ) * (round_half_even (sum * 2 ^ S) n * n) ≤ 2 * (sum * 2 ^ S) + n := by
        exact_mod_cast hup
      have hdownq : (2 : ℚ) * (sum * 2 ^ S) ≤ 2 * (round_half_even (sum * 2 ^ S) n * n) + n := by
        exact_mod_cast hdown
      have hloq : (2 : ℚ) ^ 52 * n ≤ sum * 2 ^ S := by exact_mod_cast hlo
      have e1 : (round_half_even (sum * 2 ^ S) n : ℚ) / 2 ^ S - (sum : ℚ) / n =
          ((round_half_even (sum * 2 ^ S) n : ℚ) * n - sum * 2 ^ S) / (2 ^ S * n) := by
        field_simp
        ring
      have hX : |(round_half_even (sum * 2 ^ S) n : ℚ) * n - sum * 2 ^ S| * 2 ≤ n := by
        have : |(round_half_even (sum * 2 ^ S) n : ℚ) * n - sum * 2 ^ S| ≤ n / 2 := by
          rw [abs_le]
          constructor <;> linarith
        linarith
      have key : |(round_half_even (sum * 2 ^ S) n : ℚ) / 2 ^ S - (sum : ℚ) / n| ≤
          1 / (2 * 2 ^ S) := by
        rw [e1, abs_div, abs_of_pos (show (0 : ℚ) < 2 ^ S * n by positivity),
          div_le_div_iff₀ (by positivity) (by positivity), one_mul]
        calc |(round_half_even (sum * 2 ^ S) n : ℚ) * n - sum * 2 ^ S| * (2 * 2 ^ S)
            = |(round_half_even (sum * 2 ^ S) n : ℚ) * n - sum * 2 ^ S| * 2 * 2 ^ S := by ring
          _ ≤ n * 2 ^ S := mul_le_mul_of_nonneg_right hX h2S.le
          _ = 2 ^ S * n := by ring
      have hle : (1 : ℚ) / (2 * 2 ^ S) * 2 ^ 53 ≤ (sum : ℚ) / n := by
        rw [div_mul_eq_mul_div, div_le_div_iff₀ (by positivity) hnq]
        nlinarith
      calc |(round_half_even (sum * 2 ^ S) n : ℚ) / 2 ^ S - (sum : ℚ) / n| * 2 ^ 53
          ≤ 1 / (2 * 2 ^ S) * 2 ^ 53 := mul_le_mul_of_nonneg_right key (by positivity)
        _ ≤ (sum : ℚ) / n := hle
    · have h1 : k * 2 ^ S ≤ sum * 2 ^ S / n := by
        rw [Nat.le_div_iff_mul_le hn]
        calc k * 2 ^ S * n = k * n * 2 ^ S := by ring
          _ ≤ sum * 2 ^ S := Nat.mul_le_mul_right _ hk
      have h2 : k * 2 ^ S ≤ round_half_even (sum * 2 ^ S) n := le_trans h1 hfloor
      rw [le_div_iff₀ h2S]
      exact_mod_cast h2
    · have h1 : sum * 2 ^ S ≤ k * 2 ^ S * n := by
        calc sum * 2 ^ S ≤ k * n * 2 ^ S := Nat.mul_le_mul_right _ hk
          _ = k * 2 ^ S * n := by ring
      have h2 : round_half_even (sum * 2 ^ S) n ≤ k * 2 ^ S := by
        by_contra hcon
        have h3 : (k * 2 ^ S + 1) * n ≤ round_half_even (sum * 2 ^ S) n * n :=
          Nat.mul_le_mul_right _ (by omega)
        have h4 : (k * 2 ^ S + 1) * n = k * 2 ^ S * n + n := by ring
        omega
      rw [div_le_iff₀ h2S]
      exact_mod_cast h2
    · have h1 : sum * 2 ^ S = n * (k * 2 ^ S) := by
        rw [hk]
        ring
      have h2 : round_half_even (sum * 2 ^ S) n = k * 2 ^ S := by
        rw [hexact (by rw [h1]; exact Nat.mul_mod_right _ _), h1]
        exact Nat.mul_div_cancel_left _ hn
      rw [h2]
      push_cast
      field_simp

/-! ## Lemmas on the statistics loop -/

theorem byte_sum_bounds (l : List Uint8) :
    (∀ k : Nat, (∀ b ∈ l, k ≤ b.val) → k * l.length ≤ byte_sum l) ∧
      (∀ k : Nat, (∀ b ∈ l, b.val ≤ k) → byte_sum l ≤ k * l.length) := by
  induction l with
  | nil => simp [byte_sum]
  | cons x xs ih =>
    simp only [byte_sum, List.map_cons, List.sum_cons, List.length_cons, List.mem_cons,
      forall_eq_or_imp] at ih ⊢
    constructor
    · rintro k ⟨hx, hxs⟩
      have := ih.1 k hxs
      rw [Nat.mul_succ]
      omega
    · rintro k ⟨hx, hxs⟩
      have := ih.2 k hxs
      rw [Nat.mul_succ]
      omega

theorem stats_loop_spec (mem : List Uint8) :
    ∀ (fuel i : Nat) (sum mn mx : Int), i ≤ mem.length → mem.length - i ≤ fuel →
      ∃ mn1 mx1 : Int,
        stats_loop mem mem.length fuel i sum mn mx =
          some (sum + byte_sum (mem.drop i), mn1, mx1) ∧
        (∀ b ∈ mem.drop i, mn1 ≤ b.val) ∧ (mn1 = mn ∨ ∃ b ∈ mem.drop i, mn1 = b.val) ∧
        (∀ b ∈ mem.drop i, (b.val : Int) ≤ mx1) ∧ (mx1 = mx ∨ ∃ b ∈ mem.drop i, mx1 = b.val) ∧
        mn1 ≤ mn ∧ mx ≤ mx1 := by
  intro fuel
  induction fuel with
  | zero =>
    intro i sum mn mx hi hf
    have hil : mem.length ≤ i := by omega
    refine ⟨mn, mx, ?_, ?_, Or.inl rfl, ?_, Or.inl rfl, le_rfl, le_rfl⟩
    · simp [stats_loop, List.drop_eq_nil_of_le hil, byte_sum]
    · simp [List.drop_eq_nil_of_le hil]
    · simp [List.drop_eq_nil_of_le hil]
  | succ n ih =>
    intro i sum mn mx hi hf
    by_cases hlt : i < mem.length
    · have hdrop : mem.drop i = mem[i] :: mem.drop (i + 1) := List.drop_eq_getElem_cons hlt
      obtain ⟨mn1, mx1, hrun, hmin, hminw, hmax, hmaxw, hmn, hmx⟩ :=
        ih (i + 1) (sum + (mem[i]).val)
          (if ((mem[i]).val : Int) < mn then (mem[i]).val else mn)
          (if ((mem[i]).val : Int) > mx then (mem[i]).val else mx) (by omega) (by omega)
      refine ⟨mn1, mx1, ?_, ?_, ?_, ?_, ?_, ?_, ?_⟩
      · simp only [stats_loop, hlt, if_true, List.getElem?_eq_getElem hlt]
        rw [hrun, hdrop]
        simp only [byte_sum, List.map_cons, List.sum_cons]
        push_cast
        rw [add_assoc]
      · intro b hb
        rw [hdrop, List.mem_cons] at hb
        rcases hb with rfl | hb
        · split_ifs at hmn <;> omega
        · exact hmin b hb
      · rcases hminw with h | ⟨b, hb, h⟩
        · by_cases hc : ((mem[i]).val : Int) < mn
          · right
            refine ⟨mem[i], by rw [hdrop]; exact List.mem_cons_self _ _, ?_⟩
            rw [h, if_pos hc]
          · left
            rw [h, if_neg hc]
        · right
          exact ⟨b, by rw [hdrop]; exact List.mem_cons_of_mem _ hb, h⟩
      · intro b hb
        rw [hdrop, List.mem_cons] at hb
        rcases hb with rfl | hb
        · split_ifs at hmx <;> omega
        · exact hmax b hb
      · rcases hmaxw with h | ⟨b, hb, h⟩
        · by_cases hc : ((mem[i]).val : Int) > mx
          · right
            refine ⟨mem[i], by rw [hdrop]; exact List.mem_cons_self _ _, ?_⟩
            rw [h, if_pos hc]
          · left
            rw [h, if_neg hc]
        · right
          exact ⟨b, by rw [hdrop]; exact List.mem_cons_of_mem _ hb, h⟩
      · split_ifs at hmn <;> omega
      · split_ifs at hmx <;> omega
    · have hil : mem.length ≤ i := by omega
      refine ⟨mn, mx, ?_, ?_, Or.inl rfl, ?_, Or.inl rfl, le_rfl, le_rfl⟩
      · simp [stats_loop, hlt, List.drop_eq_nil_of_le hil, byte_sum]
      · simp [List.drop_eq_nil_of_le hil]
      · simp [List.drop_eq_nil_of_le hil]

/-- Total correctness of `calculate_grayscale_stats` on a well-formed, non-empty
grayscale image. -/
theorem calculate_grayscale_stats_spec (g : GrayscaleImage) (mem : List Uint8)
    (a : ImageAnalysis) (hp : g.pixels = some mem) (hv : ValidGray g) (hne : mem ≠ []) :
    ∃ mn mx : Uint8, mn ∈ mem ∧ mx ∈ mem ∧ (∀ b ∈ mem, mn.val ≤ b.val) ∧
      (∀ b ∈ mem, b.val ≤ mx.val) ∧
      calculate_grayscale_stats (some g) (some a) =
        some (true, some { a with
          width := g.width, height := g.height,
          color_type := ColorType.COLOR_TYPE_GRAYSCALE, is_grayscale := true,
          has_transparency := false, min_intensity := mn.val, max_intensity := mx.val,
          avg_intensity := fdiv (byte_sum mem) mem.length }) := by
  simp only [ValidGray, hp] at hv
  obtain ⟨hwh, hlen⟩ := hv
  have htotal : ((g.width * g.height) % 2 ^ 64).toNat = mem.length := by
    rw [hwh, Int.emod_eq_of_lt (by omega) (by omega)]
    simp
  obtain ⟨mn1, mx1, hrun, hmin, hminw, hmax, hmaxw, _, _⟩ :=
    stats_loop_spec mem mem.length 0 0 255 0 (by omega) (by omega)
  simp only [List.drop_zero, zero_add] at hrun hmin hminw hmax hmaxw
  obtain ⟨b0, hb0⟩ := List.exists_mem_of_ne_nil mem hne
  have hmn : ∃ mn : Uint8, mn ∈ mem ∧ mn1 = mn.val := by
    rcases hminw with h | ⟨b, hb, h⟩
    · have := hmin b0 hb0
      have hb0lt := b0.isLt
      exact ⟨b0, hb0, by omega⟩
    · exact ⟨b, hb, h⟩
  have hmx : ∃ mx : Uint8, mx ∈ mem ∧ mx1 = mx.val := by
    rcases hmaxw with h | ⟨b, hb, h⟩
    · have := hmax b0 hb0
      exact ⟨b0, hb0, by omega⟩
    · exact ⟨b, hb, h⟩
  obtain ⟨mn, hmnm, rfl⟩ := hmn
  obtain ⟨mx, hmxm, rfl⟩ := hmx
  refine ⟨mn, mx, hmnm, hmxm, fun b hb => by exact_mod_cast hmin b hb,
    fun b hb => by exact_mod_cast hmax b hb, ?_⟩
  simp only [calculate_grayscale_stats, hp, htotal, hrun, Int.toNat_ofNat]

/-! ## Executions that read no pixel -/

theorem gray_scan_row_noread (ch : Int) (mem : List Uint8) (row w : Int)
    (h : w ≤ 0 ∨ (ch ≠ 3 ∧ ch ≠ 4)) (fuel : Nat) (x : Int) (g : Bool) (hx : 0 ≤ x) :
    gray_scan_row ch mem row w fuel x g = some g := by
  cases fuel with
  | zero => rfl
  | succ n =>
    by_cases hc : x < w ∧ g = true
    · rcases h with hw | ⟨h3, h4⟩
      · omega
      · simp only [gray_scan_row, hc, and_self, if_true, h3, h4, if_false]
    · simp only [gray_scan_row, hc, if_false]

theorem gray_scan_rows_noread (ch : Int) (mem : List Uint8) (pitch w h : Int)
    (hn : w ≤ 0 ∨ (ch ≠ 3 ∧ ch ≠ 4)) :
    ∀ (fuel : Nat) (y : Int) (g : Bool), gray_scan_rows ch mem pitch w h fuel y g = some g := by
  intro fuel
  induction fuel with
  | zero => intro y g; rfl
  | succ n ih =>
    intro y g
    by_cases hc : y < h ∧ g = true
    · simp only [gray_scan_rows, hc, and_self, if_true]
      rw [← hc.2, gray_scan_row_noread ch mem (y * pitch) w hn w.toNat 0 g le_rfl]
      exact ih (y + 1) g
    · simp only [gray_scan_rows, hc, if_false]

/-- Without a pixel to compare (`w ≤ 0` or `h ≤ 0`), or with a channel count
other than 3 and 4, `is_image_grayscale` answers true and reads nothing. -/
theorem is_image_grayscale_noread (d : ImageData) (s : SDL_Surface) (hs : d.surface = some s)
    (h : s.w ≤ 0 ∨ s.h ≤ 0 ∨ (d.channels ≠ 3 ∧ d.channels ≠ 4)) :
    is_image_grayscale (some d) = some true := by
  by_cases h1 : d.channels = 1
  · simp [is_image_grayscale, hs, h1]
  · simp only [is_image_grayscale, hs, h1, if_false]
    rcases h with hw | hh | hch
    · exact gray_scan_rows_noread _ _ _ _ _ (Or.inl hw) _ _ _
    · have h0 : s.h.toNat = 0 := by omega
      rw [h0]
      rfl
    · exact gray_scan_rows_noread _ _ _ _ _ (Or.inr hch) _ _ _

theorem convert_row_noread (ch : Int) (src : List Uint8) (row w y : Int)
    (h : w ≤ 0 ∨ (ch ≠ 1 ∧ ch ≠ 3 ∧ ch ≠ 4)) :
    ∀ (fuel : Nat) (x : Int) (out : List Uint8), 0 ≤ x →
      convert_row ch src row w y fuel x out = some out := by
  intro fuel
  induction fuel with
  | zero => intro x out _; rfl
  | succ n ih =>
    intro x out hx
    by_cases hc : x < w
    · rcases h with hw | ⟨h1, h3, h4⟩
      · omega
      · simp only [convert_row, hc, if_true, h1, h3, h4, if_false]
        exact ih (x + 1) out (by omega)
    · simp only [convert_row, hc, if_false]

theorem convert_rows_noread (ch : Int) (src : List Uint8) (pitch w h : Int)
    (hn : w ≤ 0 ∨ (ch ≠ 1 ∧ ch ≠ 3 ∧ ch ≠ 4)) :
    ∀ (fuel : Nat) (y : Int) (out : List Uint8),
      convert_rows ch src pitch w h fuel y out = some out := by
  intro fuel
  induction fuel with
  | zero => intro y out; rfl
  | succ n ih =>
    intro y out
    by_cases hc : y < h
    · simp only [convert_rows, hc, if_true,
        convert_row_noread ch src (y * pitch) w y hn w.toNat 0 out le_rfl]
      exact ih (y + 1) out
    · simp only [convert_rows, hc, if_false]

/-- Without a pixel to convert (`w ≤ 0` or `h ≤ 0`), or with a channel count
other than 1, 3 and 4, `convert_to_grayscale` reads no source byte and writes no
output byte: it returns what `malloc` returns, and on success the buffer holds
the fresh block unchanged. -/
theorem convert_to_grayscale_noread (hp : Heap) (d : ImageData) (s : SDL_Surface)
    (g0 : GrayscaleImage) (hs : d.surface = some s)
    (h : s.w ≤ 0 ∨ s.h ≤ 0 ∨ (d.channels ≠ 1 ∧ d.channels ≠ 3 ∧ d.channels ≠ 4)) :
    convert_to_grayscale hp (some d) (some g0) =
      some (hp.avail ((s.w * s.h) % 2 ^ 64).toNat,
        some ⟨malloc hp ((s.w * s.h) % 2 ^ 64).toNat, s.w, s.h, ((s.w * s.h) % 2 ^ 64).toNat,
          if hp.avail ((s.w * s.h) % 2 ^ 64).toNat = true then copy_filename hp d.filename
          else none⟩) := by
  have hrows : ∀ out : List Uint8,
      convert_rows d.channels s.pixels s.pitch s.w s.h s.h.toNat 0 out = some out := by
    intro out
    rcases h with hw | hh | hch
    · exact convert_rows_noread _ _ _ _ _ (Or.inl hw) _ _ _
    · have h0 : s.h.toNat = 0 := by omega
      rw [h0]
      rfl
    · exact convert_rows_noread _ _ _ _ _ (Or.inr hch) _ _ _
  by_cases ha : hp.avail ((s.w * s.h) % 2 ^ 64).toNat = true
  · simp only [convert_to_grayscale, hs, malloc, ha, if_true, hrows]
  · simp only [convert_to_grayscale, hs, malloc, ha, if_false]
    simp at ha
    simp [ha]

theorem is_image_grayscale_defined (d : ImageData) (hv : ValidSource d) :
    ∃ b, is_image_grayscale (some d) = some b := by
  cases hs : d.surface with
  | none => simp [ValidSource, hs] at hv
  | some s =>
    by_cases hch : d.channels = 3 ∨ d.channels = 4
    · obtain ⟨res, hres, _⟩ := is_image_grayscale_scan d s hs hch hv
      exact ⟨res, hres⟩
    · exact ⟨true, is_image_grayscale_noread d s hs (Or.inr (Or.inr (by omega)))⟩

theorem analyze_image_of_monochrome (d : ImageData) (s : SDL_Surface) (a : ImageAnalysis)
    (hs : d.surface = some s) (hg : is_image_grayscale (some d) = some true) :
    analyze_image (some d) (some a) =
      if d.channels = 1 then
        some (true, some ⟨ColorType.COLOR_TYPE_GRAYSCALE, true, false, s.w, s.h, F64.fin 0, 255, 0⟩)
      else if d.channels = 3 then
        some (true, some ⟨ColorType.COLOR_TYPE_RGB, true, false, s.w, s.h, F64.fin 0, 255, 0⟩)
      else if d.channels = 4 then
        some (true, some ⟨ColorType.COLOR_TYPE_RGBA, true, true, s.w, s.h, F64.fin 0, 255, 0⟩)
      else
        some (false, some ⟨ColorType.COLOR_TYPE_UNKNOWN, false, false, s.w, s.h, F64.fin 0, 255,
          0⟩) := by
  by_cases h1 : d.channels = 1
  · simp [analyze_image, hs, h1, hg, ImageAnalysis.zeroed]
  · by_cases h3 : d.channels = 3
    · simp [analyze_image, hs, h3, hg, ImageAnalysis.zeroed]
    · by_cases h4 : d.channels = 4
      · simp [analyze_image, hs, h4, hg, ImageAnalysis.zeroed]
      · simp [analyze_image, hs, h1, h3, h4, ImageAnalysis.zeroed]

/-! ## Uniform buffers -/

theorem byte_sum_uniform (mem : List Uint8) (V : Uint8) (hu : ∀ b ∈ mem, b = V) :
    byte_sum mem = V.val * mem.length := by
  have h1 := (byte_sum_bounds mem).1 V.val (fun b hb => by rw [hu b hb])
  have h2 := (byte_sum_bounds mem).2 V.val (fun b hb => by rw [hu b hb])
  omega

theorem stats_uniform (g : GrayscaleImage) (mem : List Uint8) (a : ImageAnalysis) (V : Uint8)
    (hp : g.pixels = some mem) (hv : ValidGray g) (hne : mem ≠ []) (hu : ∀ b ∈ mem, b = V) :
    ∃ r, calculate_grayscale_stats (some g) (some a) = some (true, some r) ∧
      r.min_intensity = V.val ∧ r.max_intensity = V.val ∧ r.avg_intensity = F64.fin V.val := by
  obtain ⟨mn, mx, hmn, hmx, _, _, hrun⟩ := calculate_grayscale_stats_spec g mem a hp hv hne
  simp only [ValidGray, hp] at hv
  obtain ⟨_, hlen⟩ := hv
  have hpos : 0 < mem.length := List.length_pos.2 hne
  obtain ⟨q, hq, _, _, _, hexact⟩ := fdiv_spec (byte_sum mem) mem.length hpos hlen
    ((byte_sum_bounds mem).2 255 (fun b _ => by have := b.isLt; omega))
  have hqV : q = (V.val : ℚ) := hexact V.val (byte_sum_uniform mem V hu)
  refine ⟨_, hrun, ?_, ?_, ?_⟩
  · rw [hu mn hmn]
  · rw [hu mx hmx]
  · show fdiv (byte_sum mem) mem.length = _
    rw [hq, hqV]

/-! ## Order independence, buffer length -/

theorem pixelGray_congr {m1 m2 : List Uint8} {o1 o2 : Int}
    (h : pixel_rgb m1 o1 = pixel_rgb m2 o2) : PixelGray m1 o1 ↔ PixelGray m2 o2 := by
  simp only [pixel_rgb, Prod.mk.injEq] at h
  obtain ⟨h1, h2, h3⟩ := h
  simp only [PixelGray, h1, h2, h3]

theorem store_length {mem mem1 : List Uint8} {i : Int} {v : Uint8}
    (h : store mem i v = some mem1) : mem1.length = mem.length := by
  simp only [store] at h
  split_ifs at h
  cases h
  simp

theorem convert_row_length (ch : Int) (src : List Uint8) (row w y : Int) :
    ∀ (fuel : Nat) (x : Int) (out out1 : List Uint8),
      convert_row ch src row w y fuel x out = some out1 → out1.length = out.length := by
  intro fuel
  induction fuel with
  | zero =>
    intro x out out1 h
    simp only [convert_row] at h
    cases h
    rfl
  | succ n ih =>
    intro x out out1 h
    simp only [convert_row] at h
    split_ifs at h
    all_goals first
      | (cases h; rfl)
      | exact ih _ _ _ h
      | (split at h
         · split at h
           · next hst => rw [ih _ _ _ h, store_length hst]
           · cases h
         · cases h)

theorem convert_rows_length (ch : Int) (src : List Uint8) (pitch w h : Int) :
    ∀ (fuel : Nat) (y : Int) (out out1 : List Uint8),
      convert_rows ch src pitch w h fuel y out = some out1 → out1.length = out.length := by
  intro fuel
  induction fuel with
  | zero =>
    intro y out out1 hr
    simp only [convert_rows] at hr
    cases hr
    rfl
  | succ n ih =>
    intro y out out1 hr
    simp only [convert_rows] at hr
    split_ifs at hr
    · split at hr
      · next hrow => rw [ih _ _ _ hr, convert_row_length _ _ _ _ _ _ _ _ _ hrow]
      · cases hr
    · cases hr
      rfl

/-- What a successful `convert_to_grayscale` leaves in the record, for a source
with non-negative dimensions whose pixel count fits an `int`. -/
theorem convert_to_grayscale_invariant (hp : Heap) (d : ImageData) (s : SDL_Surface)
    (g0 g : GrayscaleImage) (hs : d.surface = some s) (hw : 0 ≤ s.w) (hh : 0 ≤ s.h)
    (hfit : s.w * s.h < 2 ^ 31)
    (hrun : convert_to_grayscale hp (some d) (some g0) = some (true, some g)) :
    GrayInvariant g ∧ g.width = s.w ∧ g.height = s.h := by
  have hprod : 0 ≤ s.w * s.h := mul_nonneg hw hh
  have hmod : ((s.w * s.h) % 2 ^ 64).toNat = (s.w * s.h).toNat := by
    rw [Int.emod_eq_of_lt hprod (by omega)]
  simp only [convert_to_grayscale, hs, hmod, malloc] at hrun
  split_ifs at hrun with ha
  · simp only [] at hrun
    split at hrun
    · next out hrows =>
      have hlen := convert_rows_length _ _ _ _ _ _ _ _ _ hrows
      simp only [Option.some.injEq, Prod.mk.injEq, true_and] at hrun
      subst hrun
      simp only [GrayInvariant, and_self, and_true]
      rw [hlen]
      simp only [List.length_map, List.length_range, true_and]
      omega
    · cases hrun
  · simp at hrun

theorem set_grayscale_pixel_fields (g g1 : GrayscaleImage) (x y : Int) (v : Uint8) (ok : Bool)
    (h : set_grayscale_pixel (some g) x y v = some (ok, some g1)) :
    g1.width = g.width ∧ g1.height = g.height ∧ g1.data_size = g.data_size ∧
      g1.source_filename = g.source_filename ∧ (GrayInvariant g → GrayInvariant g1) := by
  simp only [set_grayscale_pixel] at h
  split at h
  · simp only [Option.some.injEq, Prod.mk.injEq] at h
    obtain ⟨_, rfl⟩ := h
    exact ⟨rfl, rfl, rfl, rfl, id⟩
  · next mem hmem =>
    split_ifs at h
    · simp only [Option.some.injEq, Prod.mk.injEq] at h
      obtain ⟨_, rfl⟩ := h
      exact ⟨rfl, rfl, rfl, rfl, id⟩
    · split at h
      · next mem1 hst =>
        simp only [Option.some.injEq, Prod.mk.injEq] at h
        obtain ⟨_, rfl⟩ := h
        refine ⟨rfl, rfl, rfl, rfl, fun hinv => ?_⟩
        simp only [GrayInvariant, hmem] at hinv ⊢
        rw [store_length hst]
        exact hinv
      · cases h

theorem set_grayscale_pixel_defined (g : GrayscaleImage) (x y : Int) (v : Uint8)
    (hinv : GrayInvariant g) :
    ∃ ok g1, set_grayscale_pixel (some g) x y v = some (ok, some g1) := by
  cases hmem : g.pixels with
  | none => simp [GrayInvariant, hmem] at hinv
  | some mem =>
    simp only [GrayInvariant, hmem] at hinv
    obtain ⟨hlen, hsz⟩ := hinv
    by_cases hc : x < 0 ∨ x ≥ g.width ∨ y < 0 ∨ y ≥ g.height
    · exact ⟨false, g, by simp only [set_grayscale_pixel, hmem, hc, if_true]⟩
    · have hx0 : 0 ≤ x := by omega
      have hxw : x < g.width := by omega
      have hy0 : 0 ≤ y := by omega
      have hyh : y < g.height := by omega
      have h1 : 0 ≤ y * g.width := mul_nonneg hy0 (by omega)
      have h2 : (y + 1) * g.width ≤ g.height * g.width :=
        mul_le_mul_of_nonneg_right (by omega) (by omega)
      have h3 : (y + 1) * g.width = y * g.width + g.width := by ring
      have h4 : g.height * g.width = g.width * g.height := mul_comm _ _
      obtain ⟨mem1, hst, _⟩ := store_spec mem (y * g.width + x) v (by omega) (by omega)
      exact ⟨true, { g with pixels := some mem1 },
        by simp only [set_grayscale_pixel, hmem, hc, if_false, hst]⟩

/-! ## Lemmas on `strrchr` -/

theorem strrchr_none_of_not_mem (s : List Char) (c : Char) (h : c ∉ s) : strrchr s c = none := by
  induction s with
  | nil => rfl
  | cons a t ih =>
    simp only [List.mem_cons, not_or] at h
    have hne : ¬ a = c := fun e => h.1 e.symm
    simp only [strrchr, ih h.2, hne, if_false]

theorem strrchr_append_cons (s t : List Char) (c : Char) (h : c ∉ t) :
    strrchr (s ++ c :: t) c = some s.length := by
  induction s with
  | nil => simp only [List.nil_append, strrchr, strrchr_none_of_not_mem t c h, if_true,
      List.length_nil]
  | cons a s1 ih =>
    show strrchr (a :: (s1 ++ c :: t)) c = _
    simp only [strrchr, ih, List.length_cons]

theorem strrchr_spec (s : List Char) (c : Char) :
    (strrchr s c = none → c ∉ s) ∧
      (∀ i, strrchr s c = some i → s = s.take i ++ c :: s.drop (i + 1) ∧ c ∉ s.drop (i + 1)) := by
  induction s with
  | nil => simp [strrchr]
  | cons a t ih =>
    cases ht : strrchr t c with
    | some j =>
      obtain ⟨h1, h2⟩ := ih.2 j ht
      refine ⟨by simp [strrchr, ht], fun i hi => ?_⟩
      simp only [strrchr, ht, Option.some.injEq] at hi
      subst hi
      simp only [List.take_succ_cons, List.drop_succ_cons, List.cons_append]
      exact ⟨by rw [← h1], h2⟩
    | none =>
      have hnt := ih.1 ht
      by_cases hac : a = c
      · refine ⟨by simp [strrchr, ht, hac], fun i hi => ?_⟩
        simp only [strrchr, ht, hac, if_true, Option.some.injEq] at hi
        subst hi
        simp only [List.take_zero, List.nil_append, zero_add, List.drop_succ_cons, List.drop_zero]
        exact ⟨by rw [hac], hnt⟩
      · refine ⟨fun _ => ?_, fun i hi => ?_⟩
        · simp only [List.mem_cons, not_or]
          exact ⟨fun e => hac e.symm, hnt⟩
        · simp [strrchr, ht, hac] at hi

theorem size_to_int_small (n : Nat) (h : n < 2 ^ 31) : size_to_int n = n := by
  have h1 : n % 2 ^ 32 = n := Nat.mod_eq_of_lt (by omega)
  simp only [size_to_int, h1, h, if_true]

/-- The result of `generate_grayscale_filename` on a path split into directory
part, base name and extension, when the buffer is large enough. -/
theorem generate_grayscale_filename_split (pre base ext buf : List Char) (buffer_size : Nat)
    (hpre : pre = [] ∨ ∃ p, pre = p ++ ['/']) (hslash : '/' ∉ base ++ ext)
    (hext : (ext = [] ∧ '.' ∉ base) ∨ ∃ e, ext = '.' :: e ∧ '.' ∉ e)
    (hbuf : ("grayscale_images/".toList ++ base ++ "_gray.png".toList).length < buffer_size)
    (hint : ("grayscale_images/".toList ++ base ++ "_gray.png".toList).length < 2 ^ 31) :
    generate_grayscale_filename (some (pre ++ base ++ ext)) (some buf) buffer_size =
      (true, some ("grayscale_images/".toList ++ base ++ "_gray.png".toList)) := by
  have hfile : (match strrchr (pre ++ base ++ ext) '/' with
      | some i => (pre ++ base ++ ext).drop (i + 1)
      | none => pre ++ base ++ ext) = base ++ ext := by
    rcases hpre with rfl | ⟨p, rfl⟩
    · simp only [List.nil_append, strrchr_none_of_not_mem _ _ hslash]
    · have e1 : p ++ ['/'] ++ base ++ ext = p ++ '/' :: (base ++ ext) := by simp
      rw [e1, strrchr_append_cons p (base ++ ext) '/' hslash]
      simp
  have hname : (match strrchr (base ++ ext) '.' with
      | some j => j
      | none => (base ++ ext).length) = base.length := by
    rcases hext with ⟨rfl, hdot⟩ | ⟨e, rfl, hdot⟩
    · simp only [List.append_nil, strrchr_none_of_not_mem _ _ hdot]
    · rw [strrchr_append_cons base e '.' hdot]
  have hblen : base.length < 2 ^ 31 := by
    simp only [List.length_append] at hint
    omega
  have htake : (base ++ ext).take base.length = base := by simp
  have hb0 : buffer_size ≠ 0 := by omega
  have hfull : ("grayscale_images/".toList ++ base ++ "_gray.png".toList).take (buffer_size - 1) =
      "grayscale_images/".toList ++ base ++ "_gray.png".toList :=
    List.take_of_length_le (by omega)
  simp only [generate_grayscale_filename, hb0, if_false, hfile, hname,
    size_to_int_small _ hblen, Int.toNat_ofNat, htake]
  have hneg : ¬ ((base.length : Int) < 0) := by omega
  simp only [hneg, if_false, hint, if_true, hfull]
  have hw : ¬ (((("grayscale_images/".toList ++ base ++ "_gray.png".toList).length : Nat) : Int) < 0 ∨
      ((("grayscale_images/".toList ++ base ++ "_gray.png".toList).length : Nat) : Int) ≥
        (buffer_size : Int)) := by omega
  simp only [hw, if_false]

/-- Every path splits into directory part, base name and extension. -/
theorem path_split_exists (original : List Char) :
    ∃ pre base ext : List Char, original = pre ++ base ++ ext ∧
      (pre = [] ∨ ∃ p, pre = p ++ ['/']) ∧ '/' ∉ base ++ ext ∧
      ((ext = [] ∧ '.' ∉ base) ∨ ∃ e, ext = '.' :: e ∧ '.' ∉ e) := by
  have hfile : ∃ pre f : List Char, original = pre ++ f ∧
      (pre = [] ∨ ∃ p, pre = p ++ ['/']) ∧ '/' ∉ f := by
    cases h : strrchr original '/' with
    | none => exact ⟨[], original, rfl, Or.inl rfl, (strrchr_spec original '/').1 h⟩
    | some i =>
      obtain ⟨h1, h2⟩ := (strrchr_spec original '/').2 i h
      refine ⟨original.take i ++ ['/'], original.drop (i + 1), ?_, Or.inr ⟨_, rfl⟩, h2⟩
      simpa using h1
  obtain ⟨pre, f, rfl, hpre, hf⟩ := hfile
  cases h : strrchr f '.' with
  | none =>
    exact ⟨pre, f, [], by simp, hpre, by simpa using hf,
      Or.inl ⟨rfl, (strrchr_spec f '.').1 h⟩⟩
  | some j =>
    obtain ⟨h1, h2⟩ := (strrchr_spec f '.').2 j h
    refine ⟨pre, f.take j, '.' :: f.drop (j + 1), ?_, hpre, ?_, Or.inr ⟨_, rfl, h2⟩⟩
    · rw [List.append_assoc, ← h1]
    · rw [← h1]
      exact hf

/-! ## Range of the stored byte -/

/-- The `double` handed to the cast `(Uint8)(gray + 0.5)` is below 256, so the
cast is a plain truncation. -/
theorem gray_byte_no_wrap (r g b : Uint8) :
    fadd (luminance r.val g.val b.val) (2 ^ 55) < 256 * 2 ^ 56 ∧
      (gray_byte r g b).val = fadd (luminance r.val g.val b.val) (2 ^ 55) / 2 ^ 56 := by
  have h := luminance_half_near r.val g.val b.val r.isLt g.isLt b.isLt
  have hr := r.isLt
  have hg := g.isLt
  have hb := b.isLt
  have hlt : fadd (luminance r.val g.val b.val) (2 ^ 55) < 256 * 2 ^ 56 := by
    norm_num at h ⊢
    omega
  refine ⟨hlt, ?_⟩
  have hdiv : fadd (luminance r.val g.val b.val) (2 ^ 55) / 2 ^ 56 < 256 :=
    (Nat.div_lt_iff_lt_mul (by norm_num)).2 hlt
  simp only [gray_byte, round_to_uint8, Fin.ofNat, Fin.val_mk, Nat.mod_eq_of_lt hdiv]

/-- The stored byte lies between any common lower bound and any common upper
bound of the three colour bytes. -/
theorem gray_byte_between (r g b : Uint8) (m M : Nat)
    (hm : m ≤ r.val ∧ m ≤ g.val ∧ m ≤ b.val) (hM : r.val ≤ M ∧ g.val ≤ M ∧ b.val ≤ M) :
    m ≤ (gray_byte r g b).val ∧ (gray_byte r g b).val ≤ M := by
  obtain ⟨h1, h2, h3⟩ := gray_byte_near_exact r g b
  simp only [exact_gray] at h1 h2 h3
  constructor
  · by_cases ht : (2125 * r.val + 7154 * g.val + 721 * b.val) % 10000 = 5000
    · omega
    · rw [h3 ht]
      omega
  · omega

/-! ## Pixel access -/

theorem pixel_index_bounds {w h x y : Int} {len : Nat} (hlen : w * h ≤ len) (hx0 : 0 ≤ x)
    (hxw : x < w) (hy0 : 0 ≤ y) (hyh : y < h) : 0 ≤ y * w + x ∧ y * w + x < len := by
  have h1 : 0 ≤ y * w := mul_nonneg hy0 (by omega)
  have h2 : (y + 1) * w ≤ h * w := mul_le_mul_of_nonneg_right (by omega) (by omega)
  have h3 : (y + 1) * w = y * w + w := by ring
  have h4 : h * w = w * h := mul_comm _ _
  constructor <;> omega

theorem get_grayscale_pixel_in_range (g : GrayscaleImage) (mem : List Uint8) (x y : Int)
    (hmem : g.pixels = some mem) (hlen : g.width * g.height ≤ mem.length) (hx0 : 0 ≤ x)
    (hxw : x < g.width) (hy0 : 0 ≤ y) (hyh : y < g.height) :
    ∃ v, get_grayscale_pixel (some g) x y = some v ∧ mem[(y * g.width + x).toNat]? = some v := by
  have hc : ¬ (x < 0 ∨ x ≥ g.width ∨ y < 0 ∨ y ≥ g.height) := by omega
  obtain ⟨hi0, hil⟩ := pixel_index_bounds hlen hx0 hxw hy0 hyh
  obtain ⟨v, hv⟩ := load_isSome mem (y * g.width + x) hi0 hil
  refine ⟨v, ?_, ?_⟩
  · simp only [get_grayscale_pixel, hmem, hc, if_false, hv]
  · simpa [load, hi0] using hv

theorem set_grayscale_pixel_in_range (g : GrayscaleImage) (mem : List Uint8) (x y : Int)
    (v : Uint8) (hmem : g.pixels = some mem) (hlen : g.width * g.height ≤ mem.length)
    (hx0 : 0 ≤ x) (hxw : x < g.width) (hy0 : 0 ≤ y) (hyh : y < g.height) :
    ∃ mem1, set_grayscale_pixel (some g) x y v = some (true, some { g with pixels := some mem1 }) ∧
      mem1.length = mem.length ∧ load mem1 (y * g.width + x) = some v ∧
      ∀ j, j ≠ y * g.width + x → load mem1 j = load mem j := by
  have hc : ¬ (x < 0 ∨ x ≥ g.width ∨ y < 0 ∨ y ≥ g.height) := by omega
  obtain ⟨hi0, hil⟩ := pixel_index_bounds hlen hx0 hxw hy0 hyh
  obtain ⟨mem1, hst, hl1, hget, hother⟩ := store_spec mem (y * g.width + x) v hi0 hil
  exact ⟨mem1, by simp only [set_grayscale_pixel, hmem, hc, if_false, hst], hl1, hget, hother⟩

theorem set_grayscale_pixel_out_of_range (g : GrayscaleImage) (mem : List Uint8) (x y : Int)
    (v : Uint8) (hmem : g.pixels = some mem)
    (hc : x < 0 ∨ x ≥ g.width ∨ y < 0 ∨ y ≥ g.height) :
    set_grayscale_pixel (some g) x y v = some (false, some g) := by
  simp only [set_grayscale_pixel, hmem, hc, if_true]

/-! ## Dependence on the pixel values only -/

theorem list_eq_of_pixel_loads (w h : Int) (a b : List Uint8) (hw : 0 ≤ w)
    (hla : a.length = (w * h).toNat) (hlb : b.length = (w * h).toNat)
    (hpix : ∀ x y, 0 ≤ x → x < w → 0 ≤ y → y < h → load a (y * w + x) = load b (y * w + x)) :
    a = b := by
  apply List.ext_getElem?
  intro i
  by_cases hi : i < (w * h).toNat
  · have hiI : (i : Int) < w * h := by omega
    have hwpos : 0 < w := by
      by_contra hcon
      have hw0 : w = 0 := by omega
      rw [hw0] at hi
      simp at hi
    have hx0 : 0 ≤ (i : Int) % w := Int.emod_nonneg _ (by omega)
    have hxw : (i : Int) % w < w := Int.emod_lt_of_pos _ hwpos
    have hy0 : 0 ≤ (i : Int) / w := Int.ediv_nonneg (by omega) (by omega)
    have hyh : (i : Int) / w < h := Int.ediv_lt_of_lt_mul hwpos (by rw [mul_comm]; exact hiI)
    have hdecomp : (i : Int) / w * w + (i : Int) % w = i := by
      rw [mul_comm]
      exact Int.ediv_add_emod _ _
    have := hpix ((i : Int) % w) ((i : Int) / w) hx0 hxw hy0 hyh
    rw [hdecomp, load_natCast, load_natCast] at this
    exact this
  · rw [List.getElem?_eq_none (by omega), List.getElem?_eq_none (by omega)]

theorem convert_to_grayscale_filename (hp : Heap) (d : ImageData) (g r : GrayscaleImage)
    (h : convert_to_grayscale hp (some d) (some g) = some (true, some r)) :
    r.source_filename = copy_filename hp d.filename := by
  simp only [convert_to_grayscale] at h
  split at h
  · simp at h
  · split at h
    · simp at h
    · split at h
      · simp only [Option.some.injEq, Prod.mk.injEq, true_and] at h
        rw [← h]
      · cases h

/-- Two well-formed sources of the same dimensions whose pixels have the same
gray value position by position are converted to the same buffer. -/
theorem convert_to_grayscale_congr (hp : Heap) (d1 d2 : ImageData) (s1 s2 : SDL_Surface)
    (g1 g2 : GrayscaleImage) (hs1 : d1.surface = some s1) (hs2 : d2.surface = some s2)
    (hv1 : ValidSource d1) (hv2 : ValidSource d2)
    (hch1 : d1.channels = 1 ∨ d1.channels = 3 ∨ d1.channels = 4)
    (hch2 : d2.channels = 1 ∨ d2.channels = 3 ∨ d2.channels = 4)
    (hw : s2.w = s1.w) (hh : s2.h = s1.h) (hfit : s1.w * s1.h < 2 ^ 31)
    (halloc : hp.avail (s1.w * s1.h).toNat = true)
    (hpix : ∀ x y, 0 ≤ x → x < s1.w → 0 ≤ y → y < s1.h →
      pixel_gray_value d1.channels s1.pixels (y * s1.pitch + x * d1.channels) =
        pixel_gray_value d2.channels s2.pixels (y * s2.pitch + x * d2.channels)) :
    ∃ out, out.length = (s1.w * s1.h).toNat ∧
      convert_to_grayscale hp (some d1) (some g1) =
        some (true, some ⟨some out, s1.w, s1.h, (s1.w * s1.h).toNat,
          copy_filename hp d1.filename⟩) ∧
      convert_to_grayscale hp (some d2) (some g2) =
        some (true, some ⟨some out, s1.w, s1.h, (s1.w * s1.h).toNat,
          copy_filename hp d2.filename⟩) := by
  have hw0 : 0 ≤ s1.w := by
    simp only [ValidSource, hs1] at hv1
    exact hv1.1
  obtain ⟨o1, n1, hrun1, hlen1, hfill1⟩ :=
    convert_to_grayscale_spec hp d1 s1 g1 hs1 hv1 hch1 hfit halloc
  obtain ⟨o2, n2, hrun2, hlen2, hfill2⟩ :=
    convert_to_grayscale_spec hp d2 s2 g2 hs2 hv2 hch2 (by rw [hw, hh]; exact hfit)
      (by rw [hw, hh]; exact halloc)
  rw [hw, hh] at hrun2 hlen2
  have heq : o1 = o2 := by
    apply list_eq_of_pixel_loads s1.w s1.h o1 o2 hw0 hlen1 hlen2
    intro x y hx0 hxw hy0 hyh
    obtain ⟨v1, hv1a, hl1⟩ := hfill1 x y hx0 hxw hy0 hyh
    obtain ⟨v2, hv2a, hl2⟩ := hfill2 x y hx0 (by rw [hw]; exact hxw) hy0 (by rw [hh]; exact hyh)
    rw [hw] at hl2
    rw [hpix x y hx0 hxw hy0 hyh, hv2a] at hv1a
    cases hv1a
    rw [hl1, hl2]
  subst heq
  have hname1 : n1 = copy_filename hp d1.filename :=
    convert_to_grayscale_filename hp d1 g1 _ hrun1
  have hname2 : n2 = copy_filename hp d2.filename :=
    convert_to_grayscale_filename hp d2 g2 _ hrun2
  rw [hname1] at hrun1
  rw [hname2] at hrun2
  exact ⟨o1, hlen1, hrun1, hrun2⟩

theorem pixel_gray_value_of_rgb {ch1 ch2 : Int} (h1 : ch1 = 3 ∨ ch1 = 4) (h2 : ch2 = 3 ∨ ch2 = 4)
    {m1 m2 : List Uint8} {o1 o2 : Int} (h : pixel_rgb m1 o1 = pixel_rgb m2 o2) :
    pixel_gray_value ch1 m1 o1 = pixel_gray_value ch2 m2 o2 := by
  simp only [pixel_rgb, Prod.mk.injEq] at h
  obtain ⟨e1, e2, e3⟩ := h
  have n1 : ch1 ≠ 1 := by omega
  have n2 : ch2 ≠ 1 := by omega
  simp only [pixel_gray_value, n1, n2, if_false, e1, e2, e3]

/-- Two well-formed 3- or 4-channel sources of the same dimensions whose
pixels have the same three colour bytes position by position are classified
alike. -/
theorem is_image_grayscale_congr (d1 d2 : ImageData) (s1 s2 : SDL_Surface)
    (hs1 : d1.surface = some s1) (hs2 : d2.surface = some s2)
    (hv1 : ValidSource d1) (hv2 : ValidSource d2)
    (hch1 : d1.channels = 3 ∨ d1.channels = 4) (hch2 : d2.channels = 3 ∨ d2.channels = 4)
    (hw : s2.w = s1.w) (hh : s2.h = s1.h)
    (hpix : ∀ x y, 0 ≤ x → x < s1.w → 0 ≤ y → y < s1.h →
      pixel_rgb s1.pixels (y * s1.pitch + x * d1.channels) =
        pixel_rgb s2.pixels (y * s2.pitch + x * d2.channels)) :
    is_image_grayscale (some d1) = is_image_grayscale (some d2) := by
  obtain ⟨r1, hr1, hiff1⟩ := is_image_grayscale_scan d1 s1 hs1 hch1 hv1
  obtain ⟨r2, hr2, hiff2⟩ := is_image_grayscale_scan d2 s2 hs2 hch2 hv2
  have hall : (r1 = true ↔ r2 = true) := by
    rw [hiff1, hiff2, hw, hh]
    constructor
    · intro h x y hx0 hxw hy0 hyh
      rw [← pixelGray_congr (hpix x y hx0 hxw hy0 hyh)]
      exact h x y hx0 hxw hy0 hyh
    · intro h x y hx0 hxw hy0 hyh
      rw [pixelGray_congr (hpix x y hx0 hxw hy0 hyh)]
      exact h x y hx0 hxw hy0 hyh
  rw [hr1, hr2]
  congr 1
  cases r1 <;> cases r2 <;> simp_all

/-! ## The rounded quotient is the nearest binary64 value -/

theorem round_half_even_nearest (n d k : Nat) (hd : 0 < d) :
    |(round_half_even n d : ℚ) * d - n| ≤ |(k : ℚ) * d - n| := by
  obtain ⟨_, hup, hdown, _⟩ := round_half_even_bounds n d hd
  have hupq : (2 : ℚ) * (round_half_even n d * d) ≤ 2 * n + d := by exact_mod_cast hup
  have hdownq : (2 : ℚ) * n ≤ 2 * (round_half_even n d * d) + d := by exact_mod_cast hdown
  have hdq : (0 : ℚ) < d := by exact_mod_cast hd
  have hM : |(round_half_even n d : ℚ) * d - n| ≤ d / 2 := by
    rw [abs_le]
    constructor <;> linarith
  rcases lt_trichotomy k (round_half_even n d) with hlt | heq | hgt
  · have h1 : (k : ℚ) + 1 ≤ round_half_even n d := by exact_mod_cast hlt
    have h2 : 0 ≤ ((round_half_even n d : ℚ) - k - 1) * d :=
      mul_nonneg (by linarith) hdq.le
    have h3 : (k : ℚ) * d - n ≤ -(d / 2) := by nlinarith
    have h4 : d / 2 ≤ |(k : ℚ) * d - n| := by
      have := neg_le_abs ((k : ℚ) * d - n)
      linarith
    linarith
  · rw [heq]
  · have h1 : (round_half_even n d : ℚ) + 1 ≤ k := by exact_mod_cast hgt
    have h2 : 0 ≤ ((k : ℚ) - round_half_even n d - 1) * d :=
      mul_nonneg (by linarith) hdq.le
    have h3 : d / 2 ≤ (k : ℚ) * d - n := by nlinarith
    have h4 : (k : ℚ) * d - n ≤ |(k : ℚ) * d - n| := le_abs_self _
    linarith

/-- The value `div_round a b`, for a quotient of at most 255 with a divisor
below `2 ^ 31`, is a binary64 value, and no binary64 value is nearer to
`a / b`. -/
theorem div_round_nearest (a b : Nat) (ha : 0 < a) (hb : 0 < b) (hb31 : b < 2 ^ 31)
    (hab : a ≤ 255 * b) :
    IsBinary64 (div_round a b) ∧
      ∀ q1 : ℚ, IsBinary64 q1 → |div_round a b - (a : ℚ) / b| ≤ |q1 - (a : ℚ) / b| := by
  obtain ⟨S, hsig, hlo, hhi⟩ := div_sig_spec a b ha hb hab
  obtain ⟨_, hup, _, _⟩ := round_half_even_bounds (a * 2 ^ S) b hb
  have hval : div_round a b = (round_half_even (a * 2 ^ S) b : ℚ) / 2 ^ S := by
    simp [div_round, hsig, dyadic]
  have h2S : (0 : ℚ) < 2 ^ S := by positivity
  have hbq : (0 : ℚ) < b := by exact_mod_cast hb
  -- the significand is at most 2 ^ 53
  have hm53 : round_half_even (a * 2 ^ S) b ≤ 2 ^ 53 := by
    by_contra hcon
    have h1 : (2 ^ 53 + 1) * b ≤ round_half_even (a * 2 ^ S) b * b :=
      Nat.mul_le_mul_right _ (by omega)
    have h2 : (2 ^ 53 + 1) * b = 2 ^ 53 * b + b := by ring
    omega
  -- the shift is small
  have hS : S < 84 := by
    have h1 : 2 ^ S ≤ a * 2 ^ S := Nat.le_mul_of_pos_left _ ha
    have h2 : 2 ^ 53 * b < 2 ^ 53 * 2 ^ 31 := Nat.mul_lt_mul_of_pos_left hb31 (by norm_num)
    have h3 : 2 ^ S < 2 ^ 84 := by
      have : (2 : Nat) ^ 53 * 2 ^ 31 = 2 ^ 84 := by norm_num
      omega
    exact (Nat.pow_lt_pow_iff_right (by norm_num)).1 h3
  have hpowS : (2 : ℚ) ^ (-(S : Int)) = 1 / 2 ^ S := by
    rw [zpow_neg, zpow_natCast, one_div]
  constructor
  · rw [hval]
    rcases Nat.lt_or_ge (round_half_even (a * 2 ^ S) b) (2 ^ 53) with hlt | hge
    · refine ⟨round_half_even (a * 2 ^ S) b, -(S : Int), hlt, by omega, by omega, ?_⟩
      rw [hpowS]
      ring
    · have hm : round_half_even (a * 2 ^ S) b = 2 ^ 53 := le_antisymm hm53 hge
      refine ⟨2 ^ 52, 1 - (S : Int), by norm_num, by omega, by omega, ?_⟩
      rw [hm, sub_eq_add_neg, zpow_add₀ (by norm_num : (2 : ℚ) ≠ 0), hpowS]
      push_cast
      ring
  · rintro q1 ⟨m1, e1, hm1, _, _, rfl⟩
    rw [hval]
    have hm1q : (m1 : ℚ) < 2 ^ 53 := by exact_mod_cast hm1
    have hloq : (2 : ℚ) ^ 52 * b ≤ a * 2 ^ S := by exact_mod_cast hlo
    -- both distances, scaled by 2 ^ S * b
    have hL : (round_half_even (a * 2 ^ S) b : ℚ) / 2 ^ S - (a : ℚ) / b =
        ((round_half_even (a * 2 ^ S) b : ℚ) * b - (a * 2 ^ S : Nat)) / (2 ^ S * b) := by
      push_cast
      field_simp
      ring
    have hR : (m1 : ℚ) * 2 ^ e1 - (a : ℚ) / b =
        ((m1 : ℚ) * 2 ^ e1 * 2 ^ S * b - (a * 2 ^ S : Nat)) / (2 ^ S * b) := by
      push_cast
      field_simp
      ring
    have hden : (0 : ℚ) < 2 ^ S * b := by positivity
    rw [hL, hR, abs_div, abs_div, abs_of_pos hden]
    apply div_le_div_of_nonneg_right _ hden.le
    -- the scaled candidate is an integer, or lies below 2 ^ 52
    rcases le_or_lt 0 (e1 + (S : Int)) with hnn | hneg
    · obtain ⟨t, ht⟩ := Int.eq_ofNat_of_zero_le hnn
      have hk : (m1 : ℚ) * 2 ^ e1 * 2 ^ S = ((m1 * 2 ^ t : Nat) : ℚ) := by
        have : (2 : ℚ) ^ e1 * 2 ^ S = 2 ^ t := by
          rw [← zpow_natCast (2 : ℚ) S, ← zpow_add₀ (by norm_num : (2 : ℚ) ≠ 0), ht,
            zpow_natCast]
        push_cast
        rw [mul_assoc, this]
      rw [hk]
      exact round_half_even_nearest (a * 2 ^ S) b (m1 * 2 ^ t) hb
    · obtain ⟨t, ht⟩ : ∃ t : Nat, e1 + (S : Int) = -((t : Int) + 1) :=
        ⟨(-(e1 + (S : Int)) - 1).toNat, by omega⟩
      have hpow : (2 : ℚ) ^ e1 * 2 ^ S = 1 / 2 ^ (t + 1) := by
        rw [← zpow_natCast (2 : ℚ) S, ← zpow_add₀ (by norm_num : (2 : ℚ) ≠ 0), ht, zpow_neg,
          one_div]
        congr 1
        exact_mod_cast zpow_natCast (2 : ℚ) (t + 1)
      have hhalf : (1 : ℚ) / 2 ^ (t + 1) ≤ 1 / 2 := by
        rw [pow_succ]
        have h1 : (1 : ℚ) ≤ 2 ^ t := one_le_pow₀ (by norm_num)
        rw [div_le_div_iff₀ (by positivity) (by norm_num)]
        linarith
      have hsmall : (m1 : ℚ) * 2 ^ e1 * 2 ^ S ≤ 2 ^ 52 := by
        rw [mul_assoc, hpow]
        have hm0 : (0 : ℚ) ≤ m1 := by positivity
        have : (m1 : ℚ) * (1 / 2 ^ (t + 1)) ≤ m1 * (1 / 2) :=
          mul_le_mul_of_nonneg_left hhalf hm0
        have e53 : (2 : ℚ) ^ 53 = 2 * 2 ^ 52 := by norm_num
        linarith
      have hnear := round_half_even_nearest (a * 2 ^ S) b (2 ^ 52) hb
      have h52 : |((2 ^ 52 : Nat) : ℚ) * b - (a * 2 ^ S : Nat)| =
          ((a * 2 ^ S : Nat) : ℚ) - (2 ^ 52 : Nat) * b := by
        rw [abs_of_nonpos]
        · ring
        · push_cast
          linarith
      rw [h52] at hnear
      have hY : ((a * 2 ^ S : Nat) : ℚ) - (2 ^ 52 : Nat) * b ≤
          |(m1 : ℚ) * 2 ^ e1 * 2 ^ S * b - (a * 2 ^ S : Nat)| := by
        have h1 : (m1 : ℚ) * 2 ^ e1 * 2 ^ S * b ≤ 2 ^ 52 * b :=
          mul_le_mul_of_nonneg_right hsmall hbq.le
        have h2 := neg_le_abs ((m1 : ℚ) * 2 ^ e1 * 2 ^ S * b - (a * 2 ^ S : Nat))
        push_cast at h1 h2 ⊢
        linarith
      exact le_trans hnear hY

/-- The mean computed by `fdiv` is the binary64 value nearest to the exact
quotient. -/
theorem fdiv_nearest (sum n : Nat) (hn : 0 < n) (hn31 : n < 2 ^ 31) (hsum : sum ≤ 255 * n) :
    ∃ q : ℚ, fdiv sum n = F64.fin q ∧ IsBinary64 q ∧
      ∀ q1 : ℚ, IsBinary64 q1 → |q - (sum : ℚ) / n| ≤ |q1 - (sum : ℚ) / n| := by
  have hsum53 : sum < 2 ^ 53 := by norm_num at hn31 ⊢; omega
  have hn53 : n < 2 ^ 53 := by norm_num at hn31 ⊢; omega
  by_cases hs0 : sum = 0
  · subst hs0
    refine ⟨0, ?_, ⟨0, 0, by norm_num, by norm_num, by norm_num, by simp⟩, fun q1 _ => ?_⟩
    · simp [fdiv, rne53_small hn53, rne53_small (show 0 < 2 ^ 53 by norm_num), hn.ne']
    · simp
  · obtain ⟨h1, h2⟩ := div_round_nearest sum n (Nat.pos_of_ne_zero hs0) hn hn31 hsum
    refine ⟨div_round sum n, ?_, h1, h2⟩
    simp [fdiv, rne53_small hn53, rne53_small hsum53, hn.ne', hs0]
/-! ## Claims -/


/-- C1: for a well-formed source with 3 or 4 channels, `is_image_grayscale`
returns, and returns true exactly when every pixel `(x, y)` inside the image has
its first three bytes, read at offset `y * pitch + x * channels`, pairwise within
1 of each other.  A source with no pixels is monochrome, and the single pixel
`(10, 11, 12)` is not. -/
theorem is_image_grayscale_iff_all_pixels_near :
    (∀ (d : ImageData) (s : SDL_Surface), d.surface = some s →
      (d.channels = 3 ∨ d.channels = 4) → ValidSource d →
      ∃ res, is_image_grayscale (some d) = some res ∧
        (res = true ↔ ∀ x y, 0 ≤ x → x < s.w → 0 ≤ y → y < s.h →
          PixelGray s.pixels (y * s.pitch + x * d.channels))) ∧
    (∀ (d : ImageData) (s : SDL_Surface), d.surface = some s →
      (d.channels = 3 ∨ d.channels = 4) → (s.w = 0 ∨ s.h = 0) →
      is_image_grayscale (some d) = some true) ∧
    is_image_grayscale (some ⟨some ⟨1, 1, 3, [10, 11, 12]⟩, 1, 1, 3, none⟩) = some false ∧
    is_image_grayscale (some ⟨some ⟨1, 1, 4, [10, 11, 12, 255]⟩, 1, 1, 4, none⟩) = some false := by
  refine ⟨?_, ?_, by decide, by decide⟩
  · exact fun d s hs hch hv => is_image_grayscale_scan d s hs hch hv
  · intro d s hs hch hzero
    have hne : d.channels ≠ 1 := by omega
    obtain ⟨res, hres, hiff⟩ := gray_scan_rows_spec d.channels hch s.pixels s.pitch s.w s.h
      (fun y x hy0 hyh hx0 hxw => by omega) s.h.toNat 0 true le_rfl (by simp)
    have hres_true : res = true := hiff.2 ⟨rfl, fun y hy0 hyh x hx0 hxw => by omega⟩
    simp only [is_image_grayscale, hs, hne, if_false]
    rw [hres, hres_true]

/-- Witness for C1: a well-formed 2×1 RGB source. -/
theorem is_image_grayscale_iff_all_pixels_near_witness :
    ValidSource ⟨some ⟨2, 1, 6, [10, 11, 11, 3, 3, 3]⟩, 2, 1, 3, none⟩ ∧
    ∃ res, is_image_grayscale (some ⟨some ⟨2, 1, 6, [10, 11, 11, 3, 3, 3]⟩, 2, 1, 3, none⟩)
        = some res ∧
      (res = true ↔ ∀ x y : Int, 0 ≤ x → x < 2 → 0 ≤ y → y < 1 →
        PixelGray [10, 11, 11, 3, 3, 3] (y * 6 + x * 3)) :=
  ⟨by decide, is_image_grayscale_iff_all_pixels_near.1
    ⟨some ⟨2, 1, 6, [10, 11, 11, 3, 3, 3]⟩, 2, 1, 3, none⟩ ⟨2, 1, 6, [10, 11, 11, 3, 3, 3]⟩ rfl
    (Or.inl rfl) (by decide)⟩

/-- C2 (as stated, fails): the 1×1 RGB source with pixel `(42, 2, 2)` is
well-formed and is converted to the byte 10, whereas
`floor(0.2125 * 42 + 0.7154 * 2 + 0.0721 * 2 + 0.5)` with exact decimal
coefficients is `floor(10.5 + 0.5) = 11`. -/
theorem convert_to_grayscale_exact_decimal_counterexample :
    ValidSource ⟨some ⟨1, 1, 3, [42, 2, 2]⟩, 1, 1, 3, none⟩ ∧
    convert_to_grayscale Heap.ample (some ⟨some ⟨1, 1, 3, [42, 2, 2]⟩, 1, 1, 3, none⟩)
      (some ⟨none, 0, 0, 0, none⟩) = some (true, some ⟨some [10], 1, 1, 1, none⟩) ∧
    exact_gray 42 2 2 = 11 := by
  decide

/-- C2 (amended): for a well-formed source with 3 or 4 channels whose pixel
count fits an `int` and whose output buffer `malloc` provides,
`convert_to_grayscale` succeeds and produces a buffer of `width * height` bytes
with the source's width and height, in which the byte at index `y * width + x` is
`(Uint8)(0.2125 * R + 0.7154 * G + 0.0721 * B + 0.5)` evaluated in binary64
arithmetic on the first three bytes of the source pixel at offset
`y * pitch + x * channels`.  That byte equals the exact-decimal
`floor(0.2125 R + 0.7154 G + 0.0721 B + 0.5)` whenever
`2125 R + 7154 G + 721 B` is not congruent to 5000 modulo 10000, and is that
value or one less otherwise. -/
theorem convert_to_grayscale_luminance (hp : Heap) (d : ImageData) (s : SDL_Surface)
    (g : GrayscaleImage) (hs : d.surface = some s) (hv : ValidSource d)
    (hch : d.channels = 3 ∨ d.channels = 4) (hfit : s.w * s.h < 2 ^ 31)
    (halloc : hp.avail (s.w * s.h).toNat = true) :
    ∃ out name, convert_to_grayscale hp (some d) (some g) =
        some (true, some ⟨some out, s.w, s.h, (s.w * s.h).toNat, name⟩) ∧
      out.length = (s.w * s.h).toNat ∧
      ∀ x y, 0 ≤ x → x < s.w → 0 ≤ y → y < s.h →
        ∃ r gg b, load s.pixels (y * s.pitch + x * d.channels) = some r ∧
          load s.pixels (y * s.pitch + x * d.channels + 1) = some gg ∧
          load s.pixels (y * s.pitch + x * d.channels + 2) = some b ∧
          load out (y * s.w + x) = some (gray_byte r gg b) ∧
          (gray_byte r gg b).val ≤ exact_gray r.val gg.val b.val ∧
          exact_gray r.val gg.val b.val ≤ (gray_byte r gg b).val + 1 ∧
          ((2125 * r.val + 7154 * gg.val + 721 * b.val) % 10000 ≠ 5000 →
            (gray_byte r gg b).val = exact_gray r.val gg.val b.val) := by
  obtain ⟨out, name, hrun, hlen, hfill⟩ :=
    convert_to_grayscale_spec hp d s g hs hv (Or.inr hch) hfit halloc
  refine ⟨out, name, hrun, hlen, fun x y hx0 hxw hy0 hyh => ?_⟩
  obtain ⟨v, hv1, hld⟩ := hfill x y hx0 hxw hy0 hyh
  obtain ⟨r, gg, b, hr, hg, hb, rfl⟩ := pixel_gray_value_color hch hv1
  have hn := gray_byte_near_exact r gg b
  exact ⟨r, gg, b, hr, hg, hb, hld, hn.1, hn.2.1, hn.2.2⟩

/-- Witness for C2 (amended): the 1×1 RGB source with pixel `(42, 2, 2)`. -/
theorem convert_to_grayscale_luminance_witness :
    ValidSource ⟨some ⟨1, 1, 3, [42, 2, 2]⟩, 1, 1, 3, none⟩ ∧
    ∃ out name, convert_to_grayscale Heap.ample
        (some ⟨some ⟨1, 1, 3, [42, 2, 2]⟩, 1, 1, 3, none⟩) (some ⟨none, 0, 0, 0, none⟩) =
        some (true, some ⟨some out, 1, 1, ((1 : Int) * 1).toNat, name⟩) ∧
      out.length = ((1 : Int) * 1).toNat ∧
      ∀ x y : Int, 0 ≤ x → x < 1 → 0 ≤ y → y < 1 →
        ∃ r gg b, load [42, 2, 2] (y * 3 + x * 3) = some r ∧
          load [42, 2, 2] (y * 3 + x * 3 + 1) = some gg ∧
          load [42, 2, 2] (y * 3 + x * 3 + 2) = some b ∧
          load out (y * 1 + x) = some (gray_byte r gg b) ∧
          (gray_byte r gg b).val ≤ exact_gray r.val gg.val b.val ∧
          exact_gray r.val gg.val b.val ≤ (gray_byte r gg b).val + 1 ∧
          ((2125 * r.val + 7154 * gg.val + 721 * b.val) % 10000 ≠ 5000 →
            (gray_byte r gg b).val = exact_gray r.val gg.val b.val) :=
  ⟨by decide, convert_to_grayscale_luminance Heap.ample
    ⟨some ⟨1, 1, 3, [42, 2, 2]⟩, 1, 1, 3, none⟩ ⟨1, 1, 3, [42, 2, 2]⟩ ⟨none, 0, 0, 0, none⟩ rfl
    (by decide) (Or.inl rfl) (by decide) rfl⟩

/-- C3: for a well-formed source with channel count 1 (pixel count fitting an
`int`, output buffer provided by `malloc`), `convert_to_grayscale` succeeds with
a buffer of `width * height` bytes whose byte `y * width + x` is the source byte
of pixel `(x, y)`, untransformed; for an unpadded source (`pitch = width`, buffer
of `width * height` bytes) the output buffer is the source buffer, byte for
byte. -/
theorem convert_to_grayscale_single_channel (hp : Heap) (d : ImageData) (s : SDL_Surface)
    (g : GrayscaleImage) (hs : d.surface = some s) (hv : ValidSource d)
    (hch : d.channels = 1) (hfit : s.w * s.h < 2 ^ 31)
    (halloc : hp.avail (s.w * s.h).toNat = true) :
    ∃ out name, convert_to_grayscale hp (some d) (some g) =
        some (true, some ⟨some out, s.w, s.h, (s.w * s.h).toNat, name⟩) ∧
      out.length = (s.w * s.h).toNat ∧
      (∀ x y, 0 ≤ x → x < s.w → 0 ≤ y → y < s.h →
        ∃ v, load s.pixels (y * s.pitch + x) = some v ∧ load out (y * s.w + x) = some v) ∧
      (s.pitch = s.w → s.pixels.length = (s.w * s.h).toNat → out = s.pixels) := by
  obtain ⟨out, name, hrun, hlen, hfill⟩ :=
    convert_to_grayscale_spec hp d s g hs hv (Or.inl hch) hfit halloc
  have hpix : ∀ x y, 0 ≤ x → x < s.w → 0 ≤ y → y < s.h →
      ∃ v, load s.pixels (y * s.pitch + x) = some v ∧ load out (y * s.w + x) = some v := by
    intro x y hx0 hxw hy0 hyh
    obtain ⟨v, hv1, hld⟩ := hfill x y hx0 hxw hy0 hyh
    simp only [pixel_gray_value, hch, if_true, mul_one] at hv1
    exact ⟨v, hv1, hld⟩
  refine ⟨out, name, hrun, hlen, hpix, fun hp1 hl1 => ?_⟩
  apply List.ext_getElem?
  intro i
  by_cases hi : i < (s.w * s.h).toNat
  · have hwpos : 0 < s.w := by
      by_contra hcon
      simp only [ValidSource, hs] at hv
      have hw0 : s.w = 0 := by omega
      rw [hw0] at hi
      simp at hi
    have hiI : (i : Int) < s.w * s.h := by omega
    have hx0 : 0 ≤ (i : Int) % s.w := Int.emod_nonneg _ (by omega)
    have hxw : (i : Int) % s.w < s.w := Int.emod_lt_of_pos _ hwpos
    have hy0 : 0 ≤ (i : Int) / s.w := Int.ediv_nonneg (by omega) (by omega)
    have hyh : (i : Int) / s.w < s.h := Int.ediv_lt_of_lt_mul hwpos (by rw [mul_comm]; exact hiI)
    have hdecomp : (i : Int) / s.w * s.w + (i : Int) % s.w = i := by
      rw [mul_comm]
      exact Int.ediv_add_emod _ _
    obtain ⟨v, h1, h2⟩ := hpix ((i : Int) % s.w) ((i : Int) / s.w) hx0 hxw hy0 hyh
    rw [hp1, hdecomp, load_natCast] at h1
    rw [hdecomp, load_natCast] at h2
    rw [h1, h2]
  · have h1 : out.length ≤ i := by omega
    have h2 : s.pixels.length ≤ i := by omega
    rw [List.getElem?_eq_none h1, List.getElem?_eq_none h2]

/-- Witness for C3: a 2×2 single-channel source with one padding byte per
row. -/
theorem convert_to_grayscale_single_channel_witness :
    ValidSource ⟨some ⟨2, 2, 3, [1, 2, 0, 3, 4, 0]⟩, 2, 2, 1, none⟩ ∧
    ∃ out name, convert_to_grayscale Heap.ample
        (some ⟨some ⟨2, 2, 3, [1, 2, 0, 3, 4, 0]⟩, 2, 2, 1, none⟩)
        (some ⟨none, 0, 0, 0, none⟩) =
        some (true, some ⟨some out, 2, 2, ((2 : Int) * 2).toNat, name⟩) ∧
      out.length = ((2 : Int) * 2).toNat ∧
      (∀ x y : Int, 0 ≤ x → x < 2 → 0 ≤ y → y < 2 →
        ∃ v, load [1, 2, 0, 3, 4, 0] (y * 3 + x) = some v ∧ load out (y * 2 + x) = some v) ∧
      ((3 : Int) = 2 → [(1 : Uint8), 2, 0, 3, 4, 0].length = ((2 : Int) * 2).toNat →
        out = [1, 2, 0, 3, 4, 0]) :=
  ⟨by decide, convert_to_grayscale_single_channel Heap.ample
    ⟨some ⟨2, 2, 3, [1, 2, 0, 3, 4, 0]⟩, 2, 2, 1, none⟩ ⟨2, 2, 3, [1, 2, 0, 3, 4, 0]⟩
    ⟨none, 0, 0, 0, none⟩ rfl (by decide) rfl (by decide) rfl⟩

/-- C4 (as stated, fails): for the well-formed 3×1 buffer `[0, 0, 1]` the
statistics succeed, but the mean is the `double` `6004799503160661 / 2 ^ 54`,
not the exact quotient `1 / 3`. -/
theorem calculate_grayscale_stats_mean_counterexample :
    ValidGray ⟨some [0, 0, 1], 3, 1, 3, none⟩ ∧
    ∃ r, calculate_grayscale_stats (some ⟨some [0, 0, 1], 3, 1, 3, none⟩)
        (some ImageAnalysis.zeroed) = some (true, some r) ∧
      r.avg_intensity = F64.fin (6004799503160661 / 18014398509481984) ∧
      r.avg_intensity ≠ F64.fin ((byte_sum [0, 0, 1] : ℚ) / ((3 : Int) * 1 : Int)) := by
  refine ⟨by decide, ?_⟩
  have hloop : stats_loop [0, 0, 1] 3 3 0 0 255 0 = some (1, 0, 1) := by decide
  have htot : (((3 : Int) * 1) % 2 ^ 64).toNat = 3 := by decide
  have hsig : div_sig 1 3 = (6004799503160661, 54) := by decide
  have h1 : rne53 1 = 1 := by decide
  have h3 : rne53 3 = 3 := by decide
  have e1 : (-54 : Int).toNat = 0 := by decide
  have e2 : (54 : Int).toNat = 54 := by decide
  have havg : fdiv 1 3 = F64.fin (6004799503160661 / 18014398509481984) := by
    simp only [fdiv, h1, h3, div_round, hsig, dyadic, e1, e2]
    norm_num
  refine ⟨_, by simp only [calculate_grayscale_stats, htot, hloop]; rfl, ?_, ?_⟩
  · exact havg
  · show fdiv 1 3 ≠ _
    rw [havg]
    intro h
    injection h with h
    norm_num [byte_sum] at h

/-- C4 (amended): for a well-formed grayscale buffer with at least one pixel,
`calculate_grayscale_stats` succeeds; `min_intensity` is the smallest byte of
the buffer, `max_intensity` the largest, and `avg_intensity` is the quotient
(sum of all bytes) / (width * height) computed in binary64, `fdiv`: a binary64
value such that no binary64 value is nearer to the exact quotient.  It is
therefore within relative error `2 ^ (-53)` of the exact quotient (not an
integer-truncated quotient), and equal to it whenever the exact quotient is an
integer. -/
theorem calculate_grayscale_stats_values (g : GrayscaleImage) (mem : List Uint8)
    (a : ImageAnalysis) (hp : g.pixels = some mem) (hv : ValidGray g) (hne : mem ≠ []) :
    ∃ r, calculate_grayscale_stats (some g) (some a) = some (true, some r) ∧
      (∃ b ∈ mem, r.min_intensity = b.val) ∧ (∀ b ∈ mem, r.min_intensity ≤ b.val) ∧
      (∃ b ∈ mem, r.max_intensity = b.val) ∧ (∀ b ∈ mem, (b.val : Int) ≤ r.max_intensity) ∧
      r.avg_intensity = fdiv (byte_sum mem) (g.width * g.height).toNat ∧
      ∃ q : ℚ, r.avg_intensity = F64.fin q ∧ IsBinary64 q ∧
        (∀ q1 : ℚ, IsBinary64 q1 →
          |q - (byte_sum mem : ℚ) / (g.width * g.height : Int)| ≤
            |q1 - (byte_sum mem : ℚ) / (g.width * g.height : Int)|) ∧
        |q - (byte_sum mem : ℚ) / (g.width * g.height : Int)| * 2 ^ 53 ≤
          (byte_sum mem : ℚ) / (g.width * g.height : Int) ∧
        (∀ k : Nat, (byte_sum mem : Int) = k * (g.width * g.height) → q = k) := by
  obtain ⟨mn, mx, hmn, hmx, hmin, hmax, hrun⟩ := calculate_grayscale_stats_spec g mem a hp hv hne
  simp only [ValidGray, hp] at hv
  obtain ⟨hwh, hlen⟩ := hv
  have hpos : 0 < mem.length := List.length_pos.2 hne
  have hbound : byte_sum mem ≤ 255 * mem.length :=
    (byte_sum_bounds mem).2 255 (fun b _ => by have := b.isLt; omega)
  obtain ⟨q, hq, herr, _, _, hexact⟩ := fdiv_spec (byte_sum mem) mem.length hpos hlen hbound
  obtain ⟨q2, hq2, hbin, hnear⟩ := fdiv_nearest (byte_sum mem) mem.length hpos hlen hbound
  have hqq : q2 = q := by
    rw [hq] at hq2
    injection hq2 with h
    exact h.symm
  subst hqq
  refine ⟨_, hrun, ⟨mn, hmn, rfl⟩, fun b hb => ?_, ⟨mx, hmx, rfl⟩, fun b hb => ?_, ?_, q2, hq,
    hbin, fun q1 hq1 => ?_, ?_, fun k hk => ?_⟩
  · have := hmin b hb
    show ((mn.val : Nat) : Int) ≤ (b.val : Nat)
    omega
  · have := hmax b hb
    show ((b.val : Nat) : Int) ≤ (mx.val : Nat)
    omega
  · show fdiv (byte_sum mem) mem.length = _
    rw [hwh, Int.toNat_ofNat]
  · rw [hwh, Int.cast_natCast]
    exact hnear q1 hq1
  · rw [hwh, Int.cast_natCast]
    exact herr
  · rw [hwh] at hk
    exact hexact k (by exact_mod_cast hk)

/-- Witness for C4 (amended): the 3×1 buffer `[0, 0, 1]`. -/
theorem calculate_grayscale_stats_values_witness :
    ValidGray ⟨some [0, 0, 1], 3, 1, 3, none⟩ ∧
    ∃ r, calculate_grayscale_stats (some ⟨some [0, 0, 1], 3, 1, 3, none⟩)
        (some ImageAnalysis.zeroed) = some (true, some r) ∧
      (∃ b ∈ [(0 : Uint8), 0, 1], r.min_intensity = b.val) ∧
      (∀ b ∈ [(0 : Uint8), 0, 1], r.min_intensity ≤ b.val) ∧
      (∃ b ∈ [(0 : Uint8), 0, 1], r.max_intensity = b.val) ∧
      (∀ b ∈ [(0 : Uint8), 0, 1], (b.val : Int) ≤ r.max_intensity) ∧
      r.avg_intensity = fdiv (byte_sum [0, 0, 1]) ((3 : Int) * 1).toNat ∧
      ∃ q : ℚ, r.avg_intensity = F64.fin q ∧ IsBinary64 q ∧
        (∀ q1 : ℚ, IsBinary64 q1 →
          |q - (byte_sum [0, 0, 1] : ℚ) / ((3 : Int) * 1 : Int)| ≤
            |q1 - (byte_sum [0, 0, 1] : ℚ) / ((3 : Int) * 1 : Int)|) ∧
        |q - (byte_sum [0, 0, 1] : ℚ) / ((3 : Int) * 1 : Int)| * 2 ^ 53 ≤
          (byte_sum [0, 0, 1] : ℚ) / ((3 : Int) * 1 : Int) ∧
        (∀ k : Nat, (byte_sum [0, 0, 1] : Int) = k * ((3 : Int) * 1) → q = k) :=
  ⟨by decide, calculate_grayscale_stats_values ⟨some [0, 0, 1], 3, 1, 3, none⟩ [0, 0, 1]
    ImageAnalysis.zeroed rfl (by decide) (by decide)⟩

/-- C5: for a well-formed non-empty grayscale buffer, the statistics returned by
`calculate_grayscale_stats` satisfy `min_intensity ≤ avg_intensity ≤
max_intensity` (the mean being a finite `double`), with both `min_intensity` and
`max_intensity` in `[0, 255]`. -/
theorem calculate_grayscale_stats_ordered (g : GrayscaleImage) (mem : List Uint8)
    (a : ImageAnalysis) (hp : g.pixels = some mem) (hv : ValidGray g) (hne : mem ≠ []) :
    ∃ r q, calculate_grayscale_stats (some g) (some a) = some (true, some r) ∧
      r.avg_intensity = F64.fin q ∧
      (r.min_intensity : ℚ) ≤ q ∧ q ≤ (r.max_intensity : ℚ) ∧
      0 ≤ r.min_intensity ∧ r.min_intensity ≤ 255 ∧
      0 ≤ r.max_intensity ∧ r.max_intensity ≤ 255 := by
  obtain ⟨mn, mx, _, _, hmin, hmax, hrun⟩ := calculate_grayscale_stats_spec g mem a hp hv hne
  simp only [ValidGray, hp] at hv
  obtain ⟨_, hlen⟩ := hv
  have hpos : 0 < mem.length := List.length_pos.2 hne
  obtain ⟨q, hq, _, hlow, hhigh, _⟩ := fdiv_spec (byte_sum mem) mem.length hpos hlen
    ((byte_sum_bounds mem).2 255 (fun b _ => by have := b.isLt; omega))
  have hmnlt := mn.isLt
  have hmxlt := mx.isLt
  refine ⟨_, q, hrun, hq, ?_, ?_, ?_, ?_, ?_, ?_⟩
  · have := hlow mn.val ((byte_sum_bounds mem).1 mn.val hmin)
    simpa using this
  · have := hhigh mx.val ((byte_sum_bounds mem).2 mx.val hmax)
    simpa using this
  · show (0 : Int) ≤ (mn.val : Int)
    omega
  · show ((mn.val : Nat) : Int) ≤ 255
    omega
  · show (0 : Int) ≤ (mx.val : Int)
    omega
  · show ((mx.val : Nat) : Int) ≤ 255
    omega

/-- Witness for C5: the 2×1 buffer `[10, 250]`. -/
theorem calculate_grayscale_stats_ordered_witness :
    ValidGray ⟨some [10, 250], 2, 1, 2, none⟩ ∧
    ∃ r q, calculate_grayscale_stats (some ⟨some [10, 250], 2, 1, 2, none⟩)
        (some ImageAnalysis.zeroed) = some (true, some r) ∧
      r.avg_intensity = F64.fin q ∧
      (r.min_intensity : ℚ) ≤ q ∧ q ≤ (r.max_intensity : ℚ) ∧
      0 ≤ r.min_intensity ∧ r.min_intensity ≤ 255 ∧
      0 ≤ r.max_intensity ∧ r.max_intensity ≤ 255 :=
  ⟨by decide, calculate_grayscale_stats_ordered ⟨some [10, 250], 2, 1, 2, none⟩ [10, 250]
    ImageAnalysis.zeroed rfl (by decide) (by decide)⟩

/-- C6: for a source with channel count 1, `analyze_image` succeeds and reports
colour type Grayscale, no transparency and `is_grayscale = true`; replacing the
pixel bytes by any others (even by an empty buffer) leaves the result unchanged,
so no pixel is read. -/
theorem analyze_image_single_channel (d : ImageData) (s : SDL_Surface) (a : ImageAnalysis)
    (hs : d.surface = some s) (hch : d.channels = 1) :
    (∃ r, analyze_image (some d) (some a) = some (true, some r) ∧
      r.color_type = ColorType.COLOR_TYPE_GRAYSCALE ∧ r.has_transparency = false ∧
      r.is_grayscale = true) ∧
    (∀ p : List Uint8,
      analyze_image (some { d with surface := some { s with pixels := p } }) (some a) =
        analyze_image (some d) (some a)) := by
  constructor
  · simp [analyze_image, is_image_grayscale, hs, hch]
  · intro p
    simp [analyze_image, is_image_grayscale, hs, hch]

/-- Witness for C6: a 2×2 single-channel source. -/
theorem analyze_image_single_channel_witness :
    (∃ r, analyze_image (some ⟨some ⟨2, 2, 2, [1, 2, 3, 4]⟩, 2, 2, 1, none⟩)
        (some ImageAnalysis.zeroed) = some (true, some r) ∧
      r.color_type = ColorType.COLOR_TYPE_GRAYSCALE ∧ r.has_transparency = false ∧
      r.is_grayscale = true) ∧
    (∀ p : List Uint8,
      analyze_image (some { (⟨some ⟨2, 2, 2, [1, 2, 3, 4]⟩, 2, 2, 1, none⟩ : ImageData) with
          surface := some { (⟨2, 2, 2, [1, 2, 3, 4]⟩ : SDL_Surface) with pixels := p } })
        (some ImageAnalysis.zeroed) =
      analyze_image (some ⟨some ⟨2, 2, 2, [1, 2, 3, 4]⟩, 2, 2, 1, none⟩)
        (some ImageAnalysis.zeroed)) :=
  analyze_image_single_channel ⟨some ⟨2, 2, 2, [1, 2, 3, 4]⟩, 2, 2, 1, none⟩
    ⟨2, 2, 2, [1, 2, 3, 4]⟩ ImageAnalysis.zeroed rfl rfl

/-- C7: for a well-formed source with 4 channels `analyze_image` succeeds with
colour type RGBA and `has_transparency = true`, whatever the pixels; with 3
channels it succeeds with colour type RGB and `has_transparency = false`; and
whenever it succeeds, `has_transparency` is true exactly when the channel count
is 4. -/
theorem analyze_image_transparency :
    (∀ (d : ImageData) (a : ImageAnalysis), ValidSource d → d.channels = 4 →
      ∃ r, analyze_image (some d) (some a) = some (true, some r) ∧
        r.color_type = ColorType.COLOR_TYPE_RGBA ∧ r.has_transparency = true) ∧
    (∀ (d : ImageData) (a : ImageAnalysis), ValidSource d → d.channels = 3 →
      ∃ r, analyze_image (some d) (some a) = some (true, some r) ∧
        r.color_type = ColorType.COLOR_TYPE_RGB ∧ r.has_transparency = false) ∧
    (∀ (d : ImageData) (a r : ImageAnalysis),
      analyze_image (some d) (some a) = some (true, some r) →
        (r.has_transparency = true ↔ d.channels = 4)) := by
  refine ⟨?_, ?_, ?_⟩
  · intro d a hv hch
    cases hs : d.surface with
    | none => simp [ValidSource, hs] at hv
    | some s =>
      obtain ⟨res, hres, _⟩ := is_image_grayscale_scan d s hs (Or.inr hch) hv
      simp [analyze_image, hs, hch, hres]
  · intro d a hv hch
    cases hs : d.surface with
    | none => simp [ValidSource, hs] at hv
    | some s =>
      obtain ⟨res, hres, _⟩ := is_image_grayscale_scan d s hs (Or.inl hch) hv
      simp [analyze_image, hs, hch, hres]
  · intro d a r h
    cases hs : d.surface with
    | none => simp [analyze_image, hs] at h
    | some s =>
      simp only [analyze_image, hs] at h
      by_cases h1 : d.channels = 1
      · cases hg : is_image_grayscale (some d) <;> simp [h1, hg] at h
        rw [← h]
        simp [h1]
      · by_cases h3 : d.channels = 3
        · cases hg : is_image_grayscale (some d) <;> simp [h3, hg] at h
          rw [← h]
          simp [h3]
        · by_cases h4 : d.channels = 4
          · cases hg : is_image_grayscale (some d) <;> simp [h4, hg] at h
            rw [← h]
            simp [h4]
          · simp [h1, h3, h4] at h

/-- Witness for C7: a well-formed 1×1 RGBA source. -/
theorem analyze_image_transparency_witness :
    ValidSource ⟨some ⟨1, 1, 4, [9, 9, 9, 0]⟩, 1, 1, 4, none⟩ ∧
    ∃ r, analyze_image (some ⟨some ⟨1, 1, 4, [9, 9, 9, 0]⟩, 1, 1, 4, none⟩)
        (some ImageAnalysis.zeroed) = some (true, some r) ∧
      r.color_type = ColorType.COLOR_TYPE_RGBA ∧ r.has_transparency = true :=
  ⟨by decide, analyze_image_transparency.1 ⟨some ⟨1, 1, 4, [9, 9, 9, 0]⟩, 1, 1, 4, none⟩
    ImageAnalysis.zeroed (by decide) rfl⟩

/-- C8: with a non-null result record, `analyze_image` returns false exactly when
the source is absent (null `image_data` or null surface) or its channel count is
none of 1, 3, 4; in the latter case, with the surface present, the colour type
left in the record is Unknown.  Channel counts 2 and 5 are instances. -/
theorem analyze_image_fails_iff :
    (∀ (image_data : Option ImageData) (a : ImageAnalysis),
      (∃ out, analyze_image image_data (some a) = some (false, out)) ↔
        (image_data = none ∨ ∃ d, image_data = some d ∧
          (d.surface = none ∨ (d.channels ≠ 1 ∧ d.channels ≠ 3 ∧ d.channels ≠ 4)))) ∧
    (∀ (d : ImageData) (s : SDL_Surface) (a : ImageAnalysis), d.surface = some s →
      d.channels ≠ 1 → d.channels ≠ 3 → d.channels ≠ 4 →
      ∃ r, analyze_image (some d) (some a) = some (false, some r) ∧
        r.color_type = ColorType.COLOR_TYPE_UNKNOWN) ∧
    (∀ (s : SDL_Surface) (a : ImageAnalysis) (wd ht : Int) (f : Option String),
      (∃ r, analyze_image (some ⟨some s, wd, ht, 2, f⟩) (some a) = some (false, some r) ∧
        r.color_type = ColorType.COLOR_TYPE_UNKNOWN) ∧
      (∃ r, analyze_image (some ⟨some s, wd, ht, 5, f⟩) (some a) = some (false, some r) ∧
        r.color_type = ColorType.COLOR_TYPE_UNKNOWN)) := by
  have key : ∀ (d : ImageData) (s : SDL_Surface) (a : ImageAnalysis), d.surface = some s →
      d.channels ≠ 1 → d.channels ≠ 3 → d.channels ≠ 4 →
      ∃ r, analyze_image (some d) (some a) = some (false, some r) ∧
        r.color_type = ColorType.COLOR_TYPE_UNKNOWN := by
    intro d s a hs h1 h3 h4
    simp [analyze_image, hs, h1, h3, h4]
  refine ⟨?_, key, ?_⟩
  · intro image_data a
    cases image_data with
    | none => simp [analyze_image]
    | some d =>
      cases hs : d.surface with
      | none => simp [analyze_image, hs]
      | some s =>
        by_cases h1 : d.channels = 1
        · cases hg : is_image_grayscale (some d) <;> simp [analyze_image, hs, h1, hg]
        · by_cases h3 : d.channels = 3
          · cases hg : is_image_grayscale (some d) <;> simp [analyze_image, hs, h3, hg]
          · by_cases h4 : d.channels = 4
            · cases hg : is_image_grayscale (some d) <;> simp [analyze_image, hs, h4, hg]
            · obtain ⟨r, hr, _⟩ := key d s a hs h1 h3 h4
              simp [hr, hs, h1, h3, h4]
  · intro s a wd ht f
    exact ⟨key ⟨some s, wd, ht, 2, f⟩ s a rfl (by simp) (by simp) (by simp),
      key ⟨some s, wd, ht, 5, f⟩ s a rfl (by simp) (by simp) (by simp)⟩

/-- Witness for C8: a 1×1 source declaring 2 channels. -/
theorem analyze_image_fails_iff_witness :
    ∃ r, analyze_image (some ⟨some ⟨1, 1, 2, [7, 7]⟩, 1, 1, 2, none⟩)
        (some ImageAnalysis.zeroed) = some (false, some r) ∧
      r.color_type = ColorType.COLOR_TYPE_UNKNOWN :=
  analyze_image_fails_iff.2.1 ⟨some ⟨1, 1, 2, [7, 7]⟩, 1, 1, 2, none⟩ ⟨1, 1, 2, [7, 7]⟩
    ImageAnalysis.zeroed rfl (by decide) (by decide) (by decide)

/-- C9: for every byte `k`, a pixel with `R = G = B = k` is converted to `k`:
the stored byte `(Uint8)(0.2125 * k + 0.7154 * k + 0.0721 * k + 0.5)` is `k`, and
so is the output byte of every such pixel of a well-formed 3- or 4-channel
source. -/
theorem convert_to_grayscale_equal_channels :
    (∀ k : Uint8, gray_byte k k k = k) ∧
    (∀ (hp : Heap) (d : ImageData) (s : SDL_Surface) (g : GrayscaleImage),
      d.surface = some s → ValidSource d → (d.channels = 3 ∨ d.channels = 4) →
      s.w * s.h < 2 ^ 31 → hp.avail (s.w * s.h).toNat = true →
      ∃ out name, convert_to_grayscale hp (some d) (some g) =
          some (true, some ⟨some out, s.w, s.h, (s.w * s.h).toNat, name⟩) ∧
        ∀ x y, 0 ≤ x → x < s.w → 0 ≤ y → y < s.h → ∀ k : Uint8,
          load s.pixels (y * s.pitch + x * d.channels) = some k →
          load s.pixels (y * s.pitch + x * d.channels + 1) = some k →
          load s.pixels (y * s.pitch + x * d.channels + 2) = some k →
          load out (y * s.w + x) = some k) := by
  refine ⟨gray_byte_diag, fun hp d s g hs hv hch hfit halloc => ?_⟩
  obtain ⟨out, name, hrun, _, hfill⟩ :=
    convert_to_grayscale_spec hp d s g hs hv (Or.inr hch) hfit halloc
  refine ⟨out, name, hrun, fun x y hx0 hxw hy0 hyh k h1 h2 h3 => ?_⟩
  obtain ⟨v, hv1, hld⟩ := hfill x y hx0 hxw hy0 hyh
  obtain ⟨r, gg, b, hr, hg, hb, rfl⟩ := pixel_gray_value_color hch hv1
  rw [h1] at hr
  rw [h2] at hg
  rw [h3] at hb
  cases hr
  cases hg
  cases hb
  rw [hld, gray_byte_diag]

/-- Witness for C9: a 1×1 RGBA source with pixel `(77, 77, 77)`, alpha 9. -/
theorem convert_to_grayscale_equal_channels_witness :
    ValidSource ⟨some ⟨1, 1, 4, [77, 77, 77, 9]⟩, 1, 1, 4, none⟩ ∧
    ∃ out name, convert_to_grayscale Heap.ample
        (some ⟨some ⟨1, 1, 4, [77, 77, 77, 9]⟩, 1, 1, 4, none⟩) (some ⟨none, 0, 0, 0, none⟩) =
        some (true, some ⟨some out, 1, 1, ((1 : Int) * 1).toNat, name⟩) ∧
      ∀ x y : Int, 0 ≤ x → x < 1 → 0 ≤ y → y < 1 → ∀ k : Uint8,
        load [77, 77, 77, 9] (y * 4 + x * 4) = some k →
        load [77, 77, 77, 9] (y * 4 + x * 4 + 1) = some k →
        load [77, 77, 77, 9] (y * 4 + x * 4 + 2) = some k →
        load out (y * 1 + x) = some k :=
  ⟨by decide, convert_to_grayscale_equal_channels.2 Heap.ample
    ⟨some ⟨1, 1, 4, [77, 77, 77, 9]⟩, 1, 1, 4, none⟩ ⟨1, 1, 4, [77, 77, 77, 9]⟩
    ⟨none, 0, 0, 0, none⟩ rfl (by decide) (Or.inr rfl) (by decide) rfl⟩

/-- C10: a 3-channel pure red pixel `(255, 0, 0)` is converted to the byte 54,
alone in a 1×1 image and as the second pixel of a padded 2×1 image. -/
theorem convert_to_grayscale_pure_red :
    gray_byte 255 0 0 = 54 ∧
    convert_to_grayscale Heap.ample (some ⟨some ⟨1, 1, 3, [255, 0, 0]⟩, 1, 1, 3, none⟩)
      (some ⟨none, 0, 0, 0, none⟩) = some (true, some ⟨some [54], 1, 1, 1, none⟩) ∧
    convert_to_grayscale Heap.ample
      (some ⟨some ⟨2, 1, 8, [0, 0, 0, 255, 0, 0, 7, 7]⟩, 2, 1, 3, none⟩)
      (some ⟨none, 0, 0, 0, none⟩) = some (true, some ⟨some [0, 54], 2, 1, 2, none⟩) := by
  decide

/-- C11: a pure green pixel `(0, 255, 0)` is converted to the byte 182, in a
3-channel and in a 4-channel source. -/
theorem convert_to_grayscale_pure_green :
    gray_byte 0 255 0 = 182 ∧
    convert_to_grayscale Heap.ample (some ⟨some ⟨1, 1, 3, [0, 255, 0]⟩, 1, 1, 3, none⟩)
      (some ⟨none, 0, 0, 0, none⟩) = some (true, some ⟨some [182], 1, 1, 1, none⟩) ∧
    convert_to_grayscale Heap.ample (some ⟨some ⟨1, 1, 4, [0, 255, 0, 255]⟩, 1, 1, 4, none⟩)
      (some ⟨none, 0, 0, 0, none⟩) = some (true, some ⟨some [182], 1, 1, 1, none⟩) := by
  decide

/-- C12: for a well-formed grayscale buffer with at least one pixel in which
every byte is `V`, `calculate_grayscale_stats` yields `min_intensity = V`,
`max_intensity = V` and `avg_intensity = V` (as a `double`); in particular a
`w × h` buffer of bytes 200, for any positive dimensions, yields 200, 200 and
200.0. -/
theorem calculate_grayscale_stats_uniform :
    (∀ (g : GrayscaleImage) (mem : List Uint8) (a : ImageAnalysis) (V : Uint8),
      g.pixels = some mem → ValidGray g → mem ≠ [] → (∀ b ∈ mem, b = V) →
      ∃ r, calculate_grayscale_stats (some g) (some a) = some (true, some r) ∧
        r.min_intensity = V.val ∧ r.max_intensity = V.val ∧
        r.avg_intensity = F64.fin V.val) ∧
    (∀ (w h : Int) (a : ImageAnalysis) (name : Option String), 0 < w → 0 < h →
      w * h < 2 ^ 31 →
      ∃ r, calculate_grayscale_stats
          (some ⟨some (List.replicate (w * h).toNat 200), w, h, (w * h).toNat, name⟩) (some a) =
          some (true, some r) ∧
        r.min_intensity = 200 ∧ r.max_intensity = 200 ∧ r.avg_intensity = F64.fin 200) := by
  refine ⟨stats_uniform, fun w h a name hw hh hfit => ?_⟩
  have hpos : 0 < w * h := mul_pos hw hh
  have hlen : (List.replicate (w * h).toNat (200 : Uint8)).length = (w * h).toNat := by simp
  have hne : List.replicate (w * h).toNat (200 : Uint8) ≠ [] := by
    intro hnil
    have := congrArg List.length hnil
    rw [hlen] at this
    simp at this
    omega
  obtain ⟨r, hrun, h1, h2, h3⟩ := stats_uniform
    ⟨some (List.replicate (w * h).toNat 200), w, h, (w * h).toNat, name⟩ _ a 200 rfl
    (by
      simp only [ValidGray, hlen]
      omega)
    hne (fun b hb => List.eq_of_mem_replicate hb)
  exact ⟨r, hrun, by simpa using h1, by simpa using h2, by simpa using h3⟩

/-- Witness for C12: the 2×2 buffer of bytes 200. -/
theorem calculate_grayscale_stats_uniform_witness :
    ValidGray ⟨some [200, 200, 200, 200], 2, 2, 4, none⟩ ∧
    ∃ r, calculate_grayscale_stats (some ⟨some [200, 200, 200, 200], 2, 2, 4, none⟩)
        (some ImageAnalysis.zeroed) = some (true, some r) ∧
      r.min_intensity = (200 : Uint8).val ∧ r.max_intensity = (200 : Uint8).val ∧
      r.avg_intensity = F64.fin (200 : Uint8).val :=
  ⟨by decide, calculate_grayscale_stats_uniform.1 ⟨some [200, 200, 200, 200], 2, 2, 4, none⟩
    [200, 200, 200, 200] ImageAnalysis.zeroed 200 rfl (by decide) (by decide) (by simp)⟩

/-- C13: for the two-pixel grayscale buffer `[10, 250]`,
`calculate_grayscale_stats` yields `min_intensity = 10`, `max_intensity = 250`
and `avg_intensity = 130.0`. -/
theorem calculate_grayscale_stats_two_pixels :
    calculate_grayscale_stats (some ⟨some [10, 250], 2, 1, 2, none⟩)
      (some ImageAnalysis.zeroed) =
      some (true, some ⟨ColorType.COLOR_TYPE_GRAYSCALE, true, false, 2, 1, F64.fin 130, 10,
        250⟩) := by
  have hloop : stats_loop [10, 250] 2 2 0 0 255 0 = some (260, 10, 250) := by decide
  have htot : (((2 : Int) * 1) % 2 ^ 64).toNat = 2 := by decide
  obtain ⟨q, hq, _, _, _, hexact⟩ := fdiv_spec 260 2 (by norm_num) (by norm_num) (by norm_num)
  have hq130 : q = 130 := by
    have := hexact 130 (by norm_num)
    simpa using this
  have havg : fdiv (260 : Int).toNat 2 = F64.fin 130 := by
    rw [show (260 : Int).toNat = 260 by decide, hq, hq130]
  simp only [calculate_grayscale_stats, htot, hloop, havg]

/-- C14: whenever the classification `is_image_grayscale` is defined, whatever
its answer, `get_grayscale_image` returns exactly what `convert_to_grayscale`
returns on the same arguments: the same outcome and the same grayscale image.
This covers every well-formed source and the null source. -/
theorem get_grayscale_image_eq_convert :
    (∀ (hp : Heap) (image_data : Option ImageData) (g : Option GrayscaleImage) (b : Bool),
      is_image_grayscale image_data = some b →
      get_grayscale_image hp image_data g = convert_to_grayscale hp image_data g) ∧
    (∀ (hp : Heap) (d : ImageData) (g : Option GrayscaleImage), ValidSource d →
      get_grayscale_image hp (some d) g = convert_to_grayscale hp (some d) g) ∧
    (∀ (hp : Heap) (g : Option GrayscaleImage),
      get_grayscale_image hp none g = convert_to_grayscale hp none g) := by
  have key : ∀ (hp : Heap) (image_data : Option ImageData) (g : Option GrayscaleImage)
      (b : Bool), is_image_grayscale image_data = some b →
      get_grayscale_image hp image_data g = convert_to_grayscale hp image_data g := by
    intro hp image_data g b hb
    cases image_data with
    | none => cases g <;> rfl
    | some d =>
      cases g with
      | none => rfl
      | some g1 =>
        simp only [get_grayscale_image, hb]
        cases b <;> rfl
  refine ⟨key, fun hp d g hv => ?_, fun hp g => key hp none g false rfl⟩
  obtain ⟨b, hb⟩ := is_image_grayscale_defined d hv
  exact key hp (some d) g b hb

/-- Witness for C14: a coloured 1×1 RGB source, classified as not monochrome. -/
theorem get_grayscale_image_eq_convert_witness :
    is_image_grayscale (some ⟨some ⟨1, 1, 3, [255, 0, 0]⟩, 1, 1, 3, none⟩) = some false ∧
    get_grayscale_image Heap.ample (some ⟨some ⟨1, 1, 3, [255, 0, 0]⟩, 1, 1, 3, none⟩)
        (some ⟨none, 0, 0, 0, none⟩) =
      convert_to_grayscale Heap.ample (some ⟨some ⟨1, 1, 3, [255, 0, 0]⟩, 1, 1, 3, none⟩)
        (some ⟨none, 0, 0, 0, none⟩) :=
  ⟨by decide, get_grayscale_image_eq_convert.1 Heap.ample
    (some ⟨some ⟨1, 1, 3, [255, 0, 0]⟩, 1, 1, 3, none⟩) (some ⟨none, 0, 0, 0, none⟩) false
    (by decide)⟩

/-- C15 (the code diverges): on a 1×1 source declaring 2 channels,
`convert_to_grayscale` does not reject the operation.  It returns true and hands
out a one-byte buffer that no iteration has written: the byte is whatever the
fresh block held (0 on one heap, `0xAB` on another), not a function of the
source bytes. -/
theorem convert_to_grayscale_two_channels_accepted :
    convert_to_grayscale Heap.ample (some ⟨some ⟨1, 1, 2, [7, 7]⟩, 1, 1, 2, none⟩)
      (some ⟨none, 0, 0, 0, none⟩) = some (true, some ⟨some [0], 1, 1, 1, none⟩) ∧
    convert_to_grayscale Heap.stale (some ⟨some ⟨1, 1, 2, [7, 7]⟩, 1, 1, 2, none⟩)
      (some ⟨none, 0, 0, 0, none⟩) = some (true, some ⟨some [171], 1, 1, 1, none⟩) ∧
    analyze_image (some ⟨some ⟨1, 1, 2, [7, 7]⟩, 1, 1, 2, none⟩) (some ImageAnalysis.zeroed) =
      some (false, some ⟨ColorType.COLOR_TYPE_UNKNOWN, false, false, 1, 1, F64.fin 0, 255, 0⟩) := by
  decide

/-- C16 (as stated, fails): a 0×0 RGB source is accepted by both functions:
`analyze_image` returns true and `convert_to_grayscale` returns true with an
empty buffer. -/
theorem nonpositive_geometry_counterexample :
    analyze_image (some ⟨some ⟨0, 0, 0, []⟩, 0, 0, 3, none⟩) (some ImageAnalysis.zeroed) =
      some (true, some ⟨ColorType.COLOR_TYPE_RGB, true, false, 0, 0, F64.fin 0, 255, 0⟩) ∧
    convert_to_grayscale Heap.ample (some ⟨some ⟨0, 0, 0, []⟩, 0, 0, 3, none⟩)
      (some ⟨none, 0, 0, 0, none⟩) = some (true, some ⟨some [], 0, 0, 0, none⟩) := by
  decide

/-- C16 (amended): for a source whose width or height is negative or zero
(width, height and their product within the range of `int`), neither
`analyze_image` nor `convert_to_grayscale` reads a pixel byte: each returns, and
returns the same for every content of the pixel buffer, the empty buffer
included.  When the geometry is empty (width and height non-negative, one of
them zero) and the channel count is 1, 3 or 4, the geometry is not rejected:
`analyze_image` returns true, and `convert_to_grayscale` returns true exactly
when `malloc (0)` provides a block, the output buffer then being empty.  What
either function returns for a negative width or height is not stated. -/
theorem nonpositive_geometry_reads_nothing (hp : Heap) (d : ImageData) (s : SDL_Surface)
    (a : ImageAnalysis) (g0 : GrayscaleImage) (hs : d.surface = some s)
    (hz : s.w ≤ 0 ∨ s.h ≤ 0)
    (_hw : -2 ^ 31 ≤ s.w ∧ s.w < 2 ^ 31) (_hh : -2 ^ 31 ≤ s.h ∧ s.h < 2 ^ 31)
    (_hwh : -2 ^ 31 ≤ s.w * s.h ∧ s.w * s.h < 2 ^ 31) :
    (∃ r, analyze_image (some d) (some a) = some r) ∧
    (∃ r, convert_to_grayscale hp (some d) (some g0) = some r) ∧
    (∀ p : List Uint8,
      analyze_image (some { d with surface := some { s with pixels := p } }) (some a) =
        analyze_image (some d) (some a) ∧
      convert_to_grayscale hp (some { d with surface := some { s with pixels := p } })
          (some g0) = convert_to_grayscale hp (some d) (some g0)) ∧
    (0 ≤ s.w → 0 ≤ s.h → (d.channels = 1 ∨ d.channels = 3 ∨ d.channels = 4) →
      (∃ r, analyze_image (some d) (some a) = some (true, some r) ∧
        r.width = s.w ∧ r.height = s.h) ∧
      convert_to_grayscale hp (some d) (some g0) =
        some (hp.avail 0, some ⟨if hp.avail 0 = true then some [] else none, s.w, s.h, 0,
          if hp.avail 0 = true then copy_filename hp d.filename else none⟩)) := by
  have hz3 : s.w ≤ 0 ∨ s.h ≤ 0 ∨ (d.channels ≠ 3 ∧ d.channels ≠ 4) := by
    rcases hz with h | h
    · exact Or.inl h
    · exact Or.inr (Or.inl h)
  have hz4 : s.w ≤ 0 ∨ s.h ≤ 0 ∨ (d.channels ≠ 1 ∧ d.channels ≠ 3 ∧ d.channels ≠ 4) := by
    rcases hz with h | h
    · exact Or.inl h
    · exact Or.inr (Or.inl h)
  have hgray : ∀ p : List Uint8,
      is_image_grayscale (some { d with surface := some { s with pixels := p } }) = some true :=
    fun p => is_image_grayscale_noread _ { s with pixels := p } rfl hz3
  have hgray0 : is_image_grayscale (some d) = some true := is_image_grayscale_noread d s hs hz3
  have hconv : ∀ p : List Uint8,
      convert_to_grayscale hp (some { d with surface := some { s with pixels := p } })
          (some g0) = convert_to_grayscale hp (some d) (some g0) := by
    intro p
    rw [convert_to_grayscale_noread hp _ { s with pixels := p } g0 rfl (by exact hz4),
      convert_to_grayscale_noread hp d s g0 hs hz4]
  refine ⟨?_, ?_, fun p => ⟨?_, hconv p⟩, fun h0w h0h hch => ⟨?_, ?_⟩⟩
  · rw [analyze_image_of_monochrome d s a hs hgray0]
    by_cases h1 : d.channels = 1
    · simp [h1]
    · by_cases h3 : d.channels = 3
      · simp [h3]
      · by_cases h4 : d.channels = 4
        · simp [h4]
        · simp [h1, h3, h4]
  · rw [convert_to_grayscale_noread hp d s g0 hs hz4]
    exact ⟨_, rfl⟩
  · rw [analyze_image_of_monochrome d s a hs hgray0,
      analyze_image_of_monochrome _ { s with pixels := p } a rfl (hgray p)]
  · rw [analyze_image_of_monochrome d s a hs hgray0]
    rcases hch with h1 | h3 | h4
    · simp [h1]
    · simp [h3]
    · simp [h4]
  · have hprod : s.w * s.h = 0 := by
      rcases hz with h | h
      · have : s.w = 0 := le_antisymm h h0w
        rw [this, zero_mul]
      · have : s.h = 0 := le_antisymm h h0h
        rw [this, mul_zero]
    have hsize : ((s.w * s.h) % 2 ^ 64).toNat = 0 := by
      rw [hprod]
      rfl
    rw [convert_to_grayscale_noread hp d s g0 hs hz4, hsize]
    by_cases ha : hp.avail 0 = true
    · simp [malloc, ha]
    · simp [malloc, ha]

/-- Witness for C16 (amended): a 3-channel source of width 0 and height 2. -/
theorem nonpositive_geometry_reads_nothing_witness :
    (∃ r, analyze_image (some ⟨some ⟨0, 2, 0, []⟩, 0, 2, 3, none⟩) (some ImageAnalysis.zeroed) =
      some r) ∧
    (∃ r, convert_to_grayscale Heap.ample (some ⟨some ⟨0, 2, 0, []⟩, 0, 2, 3, none⟩)
        (some ⟨none, 0, 0, 0, none⟩) = some r) ∧
    (∀ p : List Uint8,
      analyze_image (some { (⟨some ⟨0, 2, 0, []⟩, 0, 2, 3, none⟩ : ImageData) with
          surface := some { (⟨0, 2, 0, []⟩ : SDL_Surface) with pixels := p } })
          (some ImageAnalysis.zeroed) =
        analyze_image (some ⟨some ⟨0, 2, 0, []⟩, 0, 2, 3, none⟩) (some ImageAnalysis.zeroed) ∧
      convert_to_grayscale Heap.ample
          (some { (⟨some ⟨0, 2, 0, []⟩, 0, 2, 3, none⟩ : ImageData) with
            surface := some { (⟨0, 2, 0, []⟩ : SDL_Surface) with pixels := p } })
          (some ⟨none, 0, 0, 0, none⟩) =
        convert_to_grayscale Heap.ample (some ⟨some ⟨0, 2, 0, []⟩, 0, 2, 3, none⟩)
          (some ⟨none, 0, 0, 0, none⟩)) ∧
    (∃ r, analyze_image (some ⟨some ⟨0, 2, 0, []⟩, 0, 2, 3, none⟩) (some ImageAnalysis.zeroed) =
        some (true, some r) ∧ r.width = 0 ∧ r.height = 2) ∧
    convert_to_grayscale Heap.ample (some ⟨some ⟨0, 2, 0, []⟩, 0, 2, 3, none⟩)
        (some ⟨none, 0, 0, 0, none⟩) =
      some (Heap.ample.avail 0, some ⟨if Heap.ample.avail 0 = true then some [] else none, 0, 2, 0,
        if Heap.ample.avail 0 = true then copy_filename Heap.ample none else none⟩) :=
  have h := nonpositive_geometry_reads_nothing Heap.ample ⟨some ⟨0, 2, 0, []⟩, 0, 2, 3, none⟩
    ⟨0, 2, 0, []⟩ ImageAnalysis.zeroed ⟨none, 0, 0, 0, none⟩ rfl (Or.inl (by decide))
    (by decide) (by decide) (by decide)
  ⟨h.1, h.2.1, h.2.2.1, h.2.2.2 (by decide) (by decide) (by decide)⟩

/-- C17 (the code diverges): on a grayscale image of 0×0 pixels with a non-null
buffer, `calculate_grayscale_stats` returns true with `min_intensity = 255` and
`max_intensity = 0`, but `avg_intensity` is the NaN produced by `0.0 / 0`, not
0. -/
theorem calculate_grayscale_stats_empty_nan :
    calculate_grayscale_stats (some ⟨some [], 0, 0, 0, none⟩) (some ImageAnalysis.zeroed) =
      some (true, some ⟨ColorType.COLOR_TYPE_GRAYSCALE, true, false, 0, 0, F64.nan, 255, 0⟩) ∧
    F64.nan ≠ F64.fin 0 := by
  decide

/-- C18: the monochrome scan is order-independent.  If two well-formed sources
with the same dimensions `W × H` and the same channel count (3 or 4) hold the
same pixels up to a permutation `σ` of the pixel positions (pixel `p` of the
second is pixel `σ p` of the first, as far as the three colour bytes go), then
`is_image_grayscale` returns the same boolean for both. -/
theorem is_image_grayscale_permutation (d1 d2 : ImageData) (s1 s2 : SDL_Surface) (W H : Nat)
    (σ : Equiv.Perm (Fin W × Fin H)) (hs1 : d1.surface = some s1) (hs2 : d2.surface = some s2)
    (hv1 : ValidSource d1) (hv2 : ValidSource d2)
    (hch : d1.channels = 3 ∨ d1.channels = 4) (hc : d2.channels = d1.channels)
    (hw1 : s1.w = W) (hh1 : s1.h = H) (hw2 : s2.w = W) (hh2 : s2.h = H)
    (hperm : ∀ p : Fin W × Fin H,
      pixel_rgb s2.pixels (((p.2).val : Int) * s2.pitch + ((p.1).val : Int) * d2.channels) =
        pixel_rgb s1.pixels
          ((((σ p).2).val : Int) * s1.pitch + (((σ p).1).val : Int) * d1.channels)) :
    is_image_grayscale (some d2) = is_image_grayscale (some d1) := by
  obtain ⟨r1, hr1, hiff1⟩ := is_image_grayscale_scan d1 s1 hs1 hch hv1
  obtain ⟨r2, hr2, hiff2⟩ := is_image_grayscale_scan d2 s2 hs2 (by rw [hc]; exact hch) hv2
  have hall : (r2 = true ↔ r1 = true) := by
    rw [hiff1, hiff2]
    constructor
    · intro h2 x y hx0 hxw hy0 hyh
      have hxW : x.toNat < W := by omega
      have hyH : y.toNat < H := by omega
      have hp := hperm (σ.symm (⟨x.toNat, hxW⟩, ⟨y.toNat, hyH⟩))
      rw [Equiv.apply_symm_apply] at hp
      have hxe : ((x.toNat : Nat) : Int) = x := Int.toNat_of_nonneg hx0
      have hye : ((y.toNat : Nat) : Int) = y := Int.toNat_of_nonneg hy0
      simp only [hxe, hye] at hp
      rw [← pixelGray_congr hp]
      apply h2
      · exact Int.natCast_nonneg _
      · have := (σ.symm (⟨x.toNat, hxW⟩, ⟨y.toNat, hyH⟩)).1.isLt
        omega
      · exact Int.natCast_nonneg _
      · have := (σ.symm (⟨x.toNat, hxW⟩, ⟨y.toNat, hyH⟩)).2.isLt
        omega
    · intro h1 x y hx0 hxw hy0 hyh
      have hxW : x.toNat < W := by omega
      have hyH : y.toNat < H := by omega
      have hp := hperm (⟨x.toNat, hxW⟩, ⟨y.toNat, hyH⟩)
      have hxe : ((x.toNat : Nat) : Int) = x := Int.toNat_of_nonneg hx0
      have hye : ((y.toNat : Nat) : Int) = y := Int.toNat_of_nonneg hy0
      simp only [hxe, hye] at hp
      rw [pixelGray_congr hp]
      apply h1
      · exact Int.natCast_nonneg _
      · have := (σ (⟨x.toNat, hxW⟩, ⟨y.toNat, hyH⟩)).1.isLt
        omega
      · exact Int.natCast_nonneg _
      · have := (σ (⟨x.toNat, hxW⟩, ⟨y.toNat, hyH⟩)).2.isLt
        omega
  rw [hr1, hr2]
  congr 1
  cases r1 <;> cases r2 <;> simp_all

/-- Witness for C18: a 2×1 RGB source with one coloured pixel, and the same
pixels swapped in a source with padded rows. -/
theorem is_image_grayscale_permutation_witness :
    ValidSource ⟨some ⟨2, 1, 6, [10, 10, 10, 200, 0, 0]⟩, 2, 1, 3, none⟩ ∧
    ValidSource ⟨some ⟨2, 1, 8, [200, 0, 0, 10, 10, 10, 5, 5]⟩, 2, 1, 3, none⟩ ∧
    is_image_grayscale (some ⟨some ⟨2, 1, 8, [200, 0, 0, 10, 10, 10, 5, 5]⟩, 2, 1, 3, none⟩) =
      is_image_grayscale (some ⟨some ⟨2, 1, 6, [10, 10, 10, 200, 0, 0]⟩, 2, 1, 3, none⟩) :=
  ⟨by decide, by decide,
    is_image_grayscale_permutation ⟨some ⟨2, 1, 6, [10, 10, 10, 200, 0, 0]⟩, 2, 1, 3, none⟩
      ⟨some ⟨2, 1, 8, [200, 0, 0, 10, 10, 10, 5, 5]⟩, 2, 1, 3, none⟩
      ⟨2, 1, 6, [10, 10, 10, 200, 0, 0]⟩ ⟨2, 1, 8, [200, 0, 0, 10, 10, 10, 5, 5]⟩ 2 1
      (Equiv.swap (0, 0) (1, 0)) rfl rfl (by decide) (by decide) (Or.inl rfl) rfl rfl rfl rfl rfl
      (by decide)⟩

/-- C19: a successful `convert_to_grayscale` (on a source with non-negative
dimensions whose pixel count fits an `int`) leaves a buffer whose length is
`data_size = width * height`; `set_grayscale_pixel`, whether it returns true or
false, leaves `width`, `height` and `data_size` unchanged and keeps the buffer
length, and is defined on every image satisfying the invariant; hence every
reachable grayscale image satisfies `buffer length = data_size = width *
height`. -/
theorem grayscale_buffer_length_invariant :
    (∀ (hp : Heap) (d : ImageData) (s : SDL_Surface) (g0 g : GrayscaleImage),
      d.surface = some s → 0 ≤ s.w → 0 ≤ s.h → s.w * s.h < 2 ^ 31 →
      convert_to_grayscale hp (some d) (some g0) = some (true, some g) →
      GrayInvariant g ∧ g.width = s.w ∧ g.height = s.h) ∧
    (∀ (g g1 : GrayscaleImage) (x y : Int) (v : Uint8) (ok : Bool),
      set_grayscale_pixel (some g) x y v = some (ok, some g1) →
      g1.width = g.width ∧ g1.height = g.height ∧ g1.data_size = g.data_size ∧
        (GrayInvariant g → GrayInvariant g1)) ∧
    (∀ (g : GrayscaleImage) (x y : Int) (v : Uint8), GrayInvariant g →
      ∃ ok g1, set_grayscale_pixel (some g) x y v = some (ok, some g1)) ∧
    (∀ g : GrayscaleImage, Reachable g → GrayInvariant g) := by
  refine ⟨convert_to_grayscale_invariant, fun g g1 x y v ok h => ?_,
    set_grayscale_pixel_defined, fun g hr => ?_⟩
  · obtain ⟨h1, h2, h3, _, h5⟩ := set_grayscale_pixel_fields g g1 x y v ok h
    exact ⟨h1, h2, h3, h5⟩
  · induction hr with
    | convert hp d s g0 g hs hw hh hfit hrun =>
      exact (convert_to_grayscale_invariant hp d s g0 g hs hw hh hfit hrun).1
    | set g g1 x y v ok _ hset ih =>
      exact (set_grayscale_pixel_fields g g1 x y v ok hset).2.2.2.2 ih

/-- Witness for C19: the conversion of a 2×1 RGB source. -/
theorem grayscale_buffer_length_invariant_witness :
    convert_to_grayscale Heap.ample
        (some ⟨some ⟨2, 1, 6, [10, 10, 10, 200, 0, 0]⟩, 2, 1, 3, none⟩)
        (some ⟨none, 0, 0, 0, none⟩) = some (true, some ⟨some [10, 43], 2, 1, 2, none⟩) ∧
    GrayInvariant ⟨some [10, 43], 2, 1, 2, none⟩ ∧
    (⟨some [10, 43], 2, 1, 2, none⟩ : GrayscaleImage).width = 2 ∧
    (⟨some [10, 43], 2, 1, 2, none⟩ : GrayscaleImage).height = 1 :=
  ⟨by decide, grayscale_buffer_length_invariant.1 Heap.ample
    ⟨some ⟨2, 1, 6, [10, 10, 10, 200, 0, 0]⟩, 2, 1, 3, none⟩ ⟨2, 1, 6, [10, 10, 10, 200, 0, 0]⟩
    ⟨none, 0, 0, 0, none⟩ ⟨some [10, 43], 2, 1, 2, none⟩ rfl (by decide) (by decide) (by decide)
    (by decide)⟩

/-- C20: every original path splits as `pre ++ base ++ ext`, where `pre` is
empty or ends with the last `'/'` of the path, and `ext` is empty (the part
after `pre` has no `'.'`) or starts at the last `'.'` of that part.  For every
such split and every buffer longer than the result (the result being shorter
than `INT_MAX`), `generate_grayscale_filename` returns true and writes exactly
`"grayscale_images/" ++ base ++ "_gray.png"`; `"images/flowers.jpg"` becomes
`"grayscale_images/flowers_gray.png"`. -/
theorem generate_grayscale_filename_result :
    (∀ (pre base ext buf : List Char) (buffer_size : Nat),
      (pre = [] ∨ ∃ p, pre = p ++ ['/']) → '/' ∉ base ++ ext →
      ((ext = [] ∧ '.' ∉ base) ∨ ∃ e, ext = '.' :: e ∧ '.' ∉ e) →
      ("grayscale_images/".toList ++ base ++ "_gray.png".toList).length < buffer_size →
      ("grayscale_images/".toList ++ base ++ "_gray.png".toList).length < 2 ^ 31 →
      generate_grayscale_filename (some (pre ++ base ++ ext)) (some buf) buffer_size =
        (true, some ("grayscale_images/".toList ++ base ++ "_gray.png".toList))) ∧
    (∀ original : List Char, ∃ pre base ext : List Char, original = pre ++ base ++ ext ∧
      (pre = [] ∨ ∃ p, pre = p ++ ['/']) ∧ '/' ∉ base ++ ext ∧
      ((ext = [] ∧ '.' ∉ base) ∨ ∃ e, ext = '.' :: e ∧ '.' ∉ e)) ∧
    generate_grayscale_filename (some "images/flowers.jpg".toList) (some []) 256 =
      (true, some "grayscale_images/flowers_gray.png".toList) := by
  exact ⟨generate_grayscale_filename_split, path_split_exists, by decide⟩

/-- Witness for C20: the path `"images/flowers.jpg"` with a 256-byte buffer. -/
theorem generate_grayscale_filename_result_witness :
    generate_grayscale_filename
        (some ("images/".toList ++ "flowers".toList ++ ".jpg".toList)) (some []) 256 =
      (true, some ("grayscale_images/".toList ++ "flowers".toList ++ "_gray.png".toList)) :=
  generate_grayscale_filename_result.1 "images/".toList "flowers".toList ".jpg".toList [] 256
    (Or.inr ⟨"images".toList, by decide⟩) (by decide) (Or.inr ⟨"jpg".toList, by decide, by decide⟩)
    (by decide) (by decide)

/-- C21: for a grayscale image whose buffer holds at least `width * height`
bytes, `get_grayscale_pixel` returns the byte stored at index `y * width + x`
when `0 ≤ x < width` and `0 ≤ y < height`; it returns 0 when the coordinates are
invalid, when the image is null and when its buffer is null. -/
theorem get_grayscale_pixel_value :
    (∀ (g : GrayscaleImage) (mem : List Uint8) (x y : Int), g.pixels = some mem →
      g.width * g.height ≤ mem.length → 0 ≤ x → x < g.width → 0 ≤ y → y < g.height →
      ∃ v, get_grayscale_pixel (some g) x y = some v ∧
        mem[(y * g.width + x).toNat]? = some v) ∧
    (∀ (g : GrayscaleImage) (x y : Int), (x < 0 ∨ x ≥ g.width ∨ y < 0 ∨ y ≥ g.height) →
      get_grayscale_pixel (some g) x y = some 0) ∧
    (∀ x y : Int, get_grayscale_pixel none x y = some 0) ∧
    (∀ (g : GrayscaleImage) (x y : Int), g.pixels = none →
      get_grayscale_pixel (some g) x y = some 0) := by
  refine ⟨get_grayscale_pixel_in_range, fun g x y hc => ?_, fun _ _ => rfl, fun g x y hn => ?_⟩
  · cases hmem : g.pixels with
    | none => simp only [get_grayscale_pixel, hmem]
    | some mem => simp only [get_grayscale_pixel, hmem, hc, if_true]
  · simp only [get_grayscale_pixel, hn]

/-- Witness for C21: pixel `(1, 1)` of a 2×2 image. -/
theorem get_grayscale_pixel_value_witness :
    ∃ v, get_grayscale_pixel (some ⟨some [5, 6, 7, 8], 2, 2, 4, none⟩) 1 1 = some v ∧
      [(5 : Uint8), 6, 7, 8][((1 : Int) * 2 + 1).toNat]? = some v :=
  get_grayscale_pixel_value.1 ⟨some [5, 6, 7, 8], 2, 2, 4, none⟩ [5, 6, 7, 8] 1 1 rfl
    (by decide) (by decide) (by decide) (by decide) (by decide)

/-- C22: for a grayscale image whose buffer holds at least `width * height`
bytes, `set_grayscale_pixel` returns true exactly when `0 ≤ x < width` and
`0 ≤ y < height`, and after a successful set `get_grayscale_pixel` at `(x, y)`
returns the value written. -/
theorem set_grayscale_pixel_then_get (g : GrayscaleImage) (mem : List Uint8) (x y : Int)
    (v : Uint8) (hmem : g.pixels = some mem) (hlen : g.width * g.height ≤ mem.length) :
    ∃ g1, set_grayscale_pixel (some g) x y v =
        some (decide (0 ≤ x ∧ x < g.width ∧ 0 ≤ y ∧ y < g.height), some g1) ∧
      ((0 ≤ x ∧ x < g.width ∧ 0 ≤ y ∧ y < g.height) →
        get_grayscale_pixel (some g1) x y = some v) := by
  by_cases hin : 0 ≤ x ∧ x < g.width ∧ 0 ≤ y ∧ y < g.height
  · obtain ⟨hx0, hxw, hy0, hyh⟩ := hin
    obtain ⟨mem1, hset, _, hget, _⟩ :=
      set_grayscale_pixel_in_range g mem x y v hmem hlen hx0 hxw hy0 hyh
    refine ⟨{ g with pixels := some mem1 }, ?_, fun _ => ?_⟩
    · rw [hset]
      simp [hx0, hxw, hy0, hyh]
    · have hc : ¬ (x < 0 ∨ x ≥ g.width ∨ y < 0 ∨ y ≥ g.height) := by omega
      simp only [get_grayscale_pixel, hc, if_false, hget]
  · have hc : x < 0 ∨ x ≥ g.width ∨ y < 0 ∨ y ≥ g.height := by omega
    refine ⟨g, ?_, fun h => absurd h hin⟩
    rw [set_grayscale_pixel_out_of_range g mem x y v hmem hc]
    simp [hin]

/-- Witness for C22: writing 9 at `(1, 0)` of a 2×1 image. -/
theorem set_grayscale_pixel_then_get_witness :
    ∃ g1, set_grayscale_pixel (some ⟨some [1, 2], 2, 1, 2, none⟩) 1 0 9 =
        some (decide ((0 : Int) ≤ 1 ∧ (1 : Int) < 2 ∧ (0 : Int) ≤ 0 ∧ (0 : Int) < 1), some g1) ∧
      (((0 : Int) ≤ 1 ∧ (1 : Int) < 2 ∧ (0 : Int) ≤ 0 ∧ (0 : Int) < 1) →
        get_grayscale_pixel (some g1) 1 0 = some 9) :=
  set_grayscale_pixel_then_get ⟨some [1, 2], 2, 1, 2, none⟩ [1, 2] 1 0 9 rfl (by decide)

/-- C23: row padding never influences the result.  Two well-formed sources with
the same width, height and channel count (1, 3 or 4) that agree on every pixel
byte, at offsets `y * pitch + x * channels + c` of their respective pitches, are
classified alike by `is_image_grayscale` and converted to the same buffer by
`convert_to_grayscale`, whatever their padding bytes and pitches; this covers
equal pitches with different padding as well as a padded source against the
unpadded one (`pitch = width * channels`). -/
theorem row_padding_irrelevant (hp : Heap) (d1 d2 : ImageData) (s1 s2 : SDL_Surface)
    (g1 g2 : GrayscaleImage) (hs1 : d1.surface = some s1) (hs2 : d2.surface = some s2)
    (hv1 : ValidSource d1) (hv2 : ValidSource d2)
    (hch : d1.channels = 1 ∨ d1.channels = 3 ∨ d1.channels = 4)
    (hc : d2.channels = d1.channels) (hw : s2.w = s1.w) (hh : s2.h = s1.h)
    (hfit : s1.w * s1.h < 2 ^ 31) (halloc : hp.avail (s1.w * s1.h).toNat = true)
    (hbytes : ∀ x y c, 0 ≤ x → x < s1.w → 0 ≤ y → y < s1.h → 0 ≤ c → c < d1.channels →
      load s1.pixels (y * s1.pitch + x * d1.channels + c) =
        load s2.pixels (y * s2.pitch + x * d1.channels + c)) :
    is_image_grayscale (some d1) = is_image_grayscale (some d2) ∧
    ∃ out, out.length = (s1.w * s1.h).toNat ∧
      convert_to_grayscale hp (some d1) (some g1) =
        some (true, some ⟨some out, s1.w, s1.h, (s1.w * s1.h).toNat,
          copy_filename hp d1.filename⟩) ∧
      convert_to_grayscale hp (some d2) (some g2) =
        some (true, some ⟨some out, s1.w, s1.h, (s1.w * s1.h).toNat,
          copy_filename hp d2.filename⟩) := by
  by_cases h1 : d1.channels = 1
  · constructor
    · simp [is_image_grayscale, hs1, hs2, hc, h1]
    · apply convert_to_grayscale_congr hp d1 d2 s1 s2 g1 g2 hs1 hs2 hv1 hv2 hch
        (by rw [hc]; exact hch) hw hh hfit halloc
      intro x y hx0 hxw hy0 hyh
      have := hbytes x y 0 hx0 hxw hy0 hyh le_rfl (by omega)
      simp only [add_zero, h1] at this
      simp only [pixel_gray_value, hc, h1, if_true, this]
  · have h34 : d1.channels = 3 ∨ d1.channels = 4 := by omega
    have hrgb : ∀ x y, 0 ≤ x → x < s1.w → 0 ≤ y → y < s1.h →
        pixel_rgb s1.pixels (y * s1.pitch + x * d1.channels) =
          pixel_rgb s2.pixels (y * s2.pitch + x * d2.channels) := by
      intro x y hx0 hxw hy0 hyh
      have e0 := hbytes x y 0 hx0 hxw hy0 hyh le_rfl (by omega)
      have e1 := hbytes x y 1 hx0 hxw hy0 hyh (by omega) (by omega)
      have e2 := hbytes x y 2 hx0 hxw hy0 hyh (by omega) (by omega)
      simp only [add_zero] at e0
      simp only [pixel_rgb, hc, e0, e1, e2]
    exact ⟨is_image_grayscale_congr d1 d2 s1 s2 hs1 hs2 hv1 hv2 h34 (by rw [hc]; exact h34) hw hh
        hrgb,
      convert_to_grayscale_congr hp d1 d2 s1 s2 g1 g2 hs1 hs2 hv1 hv2 hch
        (by rw [hc]; exact hch) hw hh hfit halloc
        (fun x y hx0 hxw hy0 hyh =>
          pixel_gray_value_of_rgb h34 (by rw [hc]; exact h34) (hrgb x y hx0 hxw hy0 hyh))⟩

/-- Witness for C23: a 2×2 single-channel source with one padding byte per row
against the unpadded source with the same pixels. -/
theorem row_padding_irrelevant_witness :
    is_image_grayscale (some ⟨some ⟨2, 2, 3, [1, 2, 99, 3, 4, 98]⟩, 2, 2, 1, none⟩) =
      is_image_grayscale (some ⟨some ⟨2, 2, 2, [1, 2, 3, 4]⟩, 2, 2, 1, none⟩) ∧
    ∃ out, out.length = ((2 : Int) * 2).toNat ∧
      convert_to_grayscale Heap.ample
          (some ⟨some ⟨2, 2, 3, [1, 2, 99, 3, 4, 98]⟩, 2, 2, 1, none⟩)
          (some ⟨none, 0, 0, 0, none⟩) =
        some (true, some ⟨some out, 2, 2, ((2 : Int) * 2).toNat,
          copy_filename Heap.ample none⟩) ∧
      convert_to_grayscale Heap.ample (some ⟨some ⟨2, 2, 2, [1, 2, 3, 4]⟩, 2, 2, 1, none⟩)
          (some ⟨none, 0, 0, 0, none⟩) =
        some (true, some ⟨some out, 2, 2, ((2 : Int) * 2).toNat,
          copy_filename Heap.ample none⟩) :=
  row_padding_irrelevant Heap.ample ⟨some ⟨2, 2, 3, [1, 2, 99, 3, 4, 98]⟩, 2, 2, 1, none⟩
    ⟨some ⟨2, 2, 2, [1, 2, 3, 4]⟩, 2, 2, 1, none⟩ ⟨2, 2, 3, [1, 2, 99, 3, 4, 98]⟩
    ⟨2, 2, 2, [1, 2, 3, 4]⟩ ⟨none, 0, 0, 0, none⟩ ⟨none, 0, 0, 0, none⟩ rfl rfl (by decide)
    (by decide) (Or.inl rfl) rfl rfl rfl (by decide) rfl
    (by
      intro x y c hx0 hxw hy0 hyh hc0 hc1
      have hx : x = 0 ∨ x = 1 := by
        change x < 2 at hxw
        omega
      have hy : y = 0 ∨ y = 1 := by
        change y < 2 at hyh
        omega
      have hcc : c = 0 := by
        change c < 1 at hc1
        omega
      rcases hx with rfl | rfl <;> rcases hy with rfl | rfl <;> subst hcc <;> decide)

/-- C24: the alpha channel is ignored.  A well-formed 4-channel source and a
well-formed 3- or 4-channel source of the same dimensions whose pixels carry the
same R, G, B bytes are classified alike by `is_image_grayscale` and converted to
the same buffer by `convert_to_grayscale`: two 4-channel sources differing only
in their alpha bytes, and a 4-channel source against the 3-channel source with
the same colours. -/
theorem alpha_channel_ignored (hp : Heap) (d1 d2 : ImageData) (s1 s2 : SDL_Surface)
    (g1 g2 : GrayscaleImage) (hs1 : d1.surface = some s1) (hs2 : d2.surface = some s2)
    (hv1 : ValidSource d1) (hv2 : ValidSource d2) (hch1 : d1.channels = 4)
    (hch2 : d2.channels = 3 ∨ d2.channels = 4) (hw : s2.w = s1.w) (hh : s2.h = s1.h)
    (hfit : s1.w * s1.h < 2 ^ 31) (halloc : hp.avail (s1.w * s1.h).toNat = true)
    (hrgb : ∀ x y, 0 ≤ x → x < s1.w → 0 ≤ y → y < s1.h →
      pixel_rgb s1.pixels (y * s1.pitch + x * 4) =
        pixel_rgb s2.pixels (y * s2.pitch + x * d2.channels)) :
    is_image_grayscale (some d1) = is_image_grayscale (some d2) ∧
    ∃ out, out.length = (s1.w * s1.h).toNat ∧
      convert_to_grayscale hp (some d1) (some g1) =
        some (true, some ⟨some out, s1.w, s1.h, (s1.w * s1.h).toNat,
          copy_filename hp d1.filename⟩) ∧
      convert_to_grayscale hp (some d2) (some g2) =
        some (true, some ⟨some out, s1.w, s1.h, (s1.w * s1.h).toNat,
          copy_filename hp d2.filename⟩) := by
  have hrgb1 : ∀ x y, 0 ≤ x → x < s1.w → 0 ≤ y → y < s1.h →
      pixel_rgb s1.pixels (y * s1.pitch + x * d1.channels) =
        pixel_rgb s2.pixels (y * s2.pitch + x * d2.channels) := by
    intro x y hx0 hxw hy0 hyh
    rw [hch1]
    exact hrgb x y hx0 hxw hy0 hyh
  exact ⟨is_image_grayscale_congr d1 d2 s1 s2 hs1 hs2 hv1 hv2 (Or.inr hch1) hch2 hw hh hrgb1,
    convert_to_grayscale_congr hp d1 d2 s1 s2 g1 g2 hs1 hs2 hv1 hv2 (Or.inr (Or.inr hch1))
      (Or.inr hch2) hw hh hfit halloc
      (fun x y hx0 hxw hy0 hyh =>
        pixel_gray_value_of_rgb (Or.inr hch1) hch2 (hrgb1 x y hx0 hxw hy0 hyh))⟩

/-- Witness for C24: a 1×1 RGBA source with alpha 7 against the RGB source with
the same colour. -/
theorem alpha_channel_ignored_witness :
    is_image_grayscale (some ⟨some ⟨1, 1, 4, [200, 0, 0, 7]⟩, 1, 1, 4, none⟩) =
      is_image_grayscale (some ⟨some ⟨1, 1, 3, [200, 0, 0]⟩, 1, 1, 3, none⟩) ∧
    ∃ out, out.length = ((1 : Int) * 1).toNat ∧
      convert_to_grayscale Heap.ample (some ⟨some ⟨1, 1, 4, [200, 0, 0, 7]⟩, 1, 1, 4, none⟩)
          (some ⟨none, 0, 0, 0, none⟩) =
        some (true, some ⟨some out, 1, 1, ((1 : Int) * 1).toNat,
          copy_filename Heap.ample none⟩) ∧
      convert_to_grayscale Heap.ample (some ⟨some ⟨1, 1, 3, [200, 0, 0]⟩, 1, 1, 3, none⟩)
          (some ⟨none, 0, 0, 0, none⟩) =
        some (true, some ⟨some out, 1, 1, ((1 : Int) * 1).toNat,
          copy_filename Heap.ample none⟩) :=
  alpha_channel_ignored Heap.ample ⟨some ⟨1, 1, 4, [200, 0, 0, 7]⟩, 1, 1, 4, none⟩
    ⟨some ⟨1, 1, 3, [200, 0, 0]⟩, 1, 1, 3, none⟩ ⟨1, 1, 4, [200, 0, 0, 7]⟩
    ⟨1, 1, 3, [200, 0, 0]⟩ ⟨none, 0, 0, 0, none⟩ ⟨none, 0, 0, 0, none⟩ rfl rfl (by decide)
    (by decide) rfl (Or.inl rfl) rfl rfl (by decide) rfl
    (by
      intro x y hx0 hxw hy0 hyh
      have hx : x = 0 := by
        change x < 1 at hxw
        omega
      have hy : y = 0 := by
        change y < 1 at hyh
        omega
      subst hx
      subst hy
      decide)

/-- C25: for all bytes R, G, B the value `0.2125 R + 0.7154 G + 0.0721 B + 0.5`
is non-negative and below 256, both with exact decimal coefficients and as the
`double` the code computes; hence the cast to `Uint8` is a plain truncation that
never wraps, the stored byte lies in `0..255` without a clamp, and it is 255 at
`R = G = B = 255` and 0 at `R = G = B = 0`. -/
theorem gray_byte_in_range :
    (∀ r g b : Uint8,
      0 ≤ 2125 * r.val + 7154 * g.val + 721 * b.val + 5000 ∧
      2125 * r.val + 7154 * g.val + 721 * b.val + 5000 < 256 * 10000 ∧
      fadd (luminance r.val g.val b.val) (2 ^ 55) < 256 * 2 ^ 56 ∧
      (gray_byte r g b).val = fadd (luminance r.val g.val b.val) (2 ^ 55) / 2 ^ 56 ∧
      (gray_byte r g b).val ≤ 255) ∧
    gray_byte 255 255 255 = 255 ∧ gray_byte 0 0 0 = 0 := by
  refine ⟨fun r g b => ?_, gray_byte_diag 255, gray_byte_diag 0⟩
  have hr := r.isLt
  have hg := g.isLt
  have hb := b.isLt
  have hgb := (gray_byte r g b).isLt
  obtain ⟨h1, h2⟩ := gray_byte_no_wrap r g b
  exact ⟨by omega, by omega, h1, h2, by omega⟩

/-- C26: for every 3- or 4-channel pixel the stored byte lies between
`min(R, G, B)` and `max(R, G, B)` inclusive; consequently, in the conversion of
a well-formed 3- or 4-channel source that `is_image_grayscale` classifies as
monochrome, every output byte differs from each of its pixel's R, G and B by at
most 1. -/
theorem gray_byte_between_min_max :
    (∀ r g b : Uint8,
      min r.val (min g.val b.val) ≤ (gray_byte r g b).val ∧
        (gray_byte r g b).val ≤ max r.val (max g.val b.val)) ∧
    (∀ (hp : Heap) (d : ImageData) (s : SDL_Surface) (g : GrayscaleImage),
      d.surface = some s → ValidSource d → (d.channels = 3 ∨ d.channels = 4) →
      s.w * s.h < 2 ^ 31 → hp.avail (s.w * s.h).toNat = true →
      is_image_grayscale (some d) = some true →
      ∃ out name, convert_to_grayscale hp (some d) (some g) =
          some (true, some ⟨some out, s.w, s.h, (s.w * s.h).toNat, name⟩) ∧
        ∀ x y, 0 ≤ x → x < s.w → 0 ≤ y → y < s.h →
          ∃ r gg b v, load s.pixels (y * s.pitch + x * d.channels) = some r ∧
            load s.pixels (y * s.pitch + x * d.channels + 1) = some gg ∧
            load s.pixels (y * s.pitch + x * d.channels + 2) = some b ∧
            load out (y * s.w + x) = some v ∧
            Int.natAbs ((v.val : Int) - r.val) ≤ 1 ∧ Int.natAbs ((v.val : Int) - gg.val) ≤ 1 ∧
            Int.natAbs ((v.val : Int) - b.val) ≤ 1) := by
  have hbetween : ∀ r g b : Uint8,
      min r.val (min g.val b.val) ≤ (gray_byte r g b).val ∧
        (gray_byte r g b).val ≤ max r.val (max g.val b.val) := fun r g b =>
    gray_byte_between r g b _ _ (by omega) (by omega)
  refine ⟨hbetween, fun hp d s g hs hv hch hfit halloc hmono => ?_⟩
  obtain ⟨res, hres, hiff⟩ := is_image_grayscale_scan d s hs hch hv
  rw [hres] at hmono
  have hall := hiff.1 (Option.some.inj hmono)
  obtain ⟨out, name, hrun, _, hfill⟩ :=
    convert_to_grayscale_spec hp d s g hs hv (Or.inr hch) hfit halloc
  refine ⟨out, name, hrun, fun x y hx0 hxw hy0 hyh => ?_⟩
  obtain ⟨v, hv1, hld⟩ := hfill x y hx0 hxw hy0 hyh
  obtain ⟨r, gg, b, hr, hg, hb, rfl⟩ := pixel_gray_value_color hch hv1
  obtain ⟨r1, g1, b1, e1, e2, e3, d1, d2, d3⟩ := hall x y hx0 hxw hy0 hyh
  rw [hr] at e1
  rw [hg] at e2
  rw [hb] at e3
  cases e1
  cases e2
  cases e3
  have hbt := hbetween r gg b
  exact ⟨r, gg, b, _, hr, hg, hb, hld, by omega, by omega, by omega⟩

/-- Witness for C26: a 1×1 RGB source with the monochrome pixel
`(100, 101, 100)`. -/
theorem gray_byte_between_min_max_witness :
    ValidSource ⟨some ⟨1, 1, 3, [100, 101, 100]⟩, 1, 1, 3, none⟩ ∧
    ∃ out name, convert_to_grayscale Heap.ample
        (some ⟨some ⟨1, 1, 3, [100, 101, 100]⟩, 1, 1, 3, none⟩) (some ⟨none, 0, 0, 0, none⟩) =
        some (true, some ⟨some out, 1, 1, ((1 : Int) * 1).toNat, name⟩) ∧
      ∀ x y : Int, 0 ≤ x → x < 1 → 0 ≤ y → y < 1 →
        ∃ r gg b v, load [100, 101, 100] (y * 3 + x * 3) = some r ∧
          load [100, 101, 100] (y * 3 + x * 3 + 1) = some gg ∧
          load [100, 101, 100] (y * 3 + x * 3 + 2) = some b ∧
          load out (y * 1 + x) = some v ∧
          Int.natAbs ((v.val : Int) - r.val) ≤ 1 ∧ Int.natAbs ((v.val : Int) - gg.val) ≤ 1 ∧
          Int.natAbs ((v.val : Int) - b.val) ≤ 1 :=
  ⟨by decide, gray_byte_between_min_max.2 Heap.ample
    ⟨some ⟨1, 1, 3, [100, 101, 100]⟩, 1, 1, 3, none⟩ ⟨1, 1, 3, [100, 101, 100]⟩
    ⟨none, 0, 0, 0, none⟩ rfl (by decide) (Or.inl rfl) (by decide) rfl (by decide)⟩

end ImgProc
